import Mathlib

/-!
# extBlockMesh: hexahedron quality and GETMe smoothing

A shallow embedding of `extBlockMesh.cpp`.

Scalars (`Foam::scalar`) are elements of a linearly ordered field `K`: exact
arithmetic, no rounding and no overflow.  The three things the source takes
from its platform, the constant `VSMALL` and the library functions
`std::sqrt` and `std::pow`, are the fields of a `ScalarOps` record which every
definition receives as an argument.  A division whose divisor can be zero at
run time yields a non-finite value in the source; the embedding returns `none`
(or a `Fault`) at that point instead of a number.
-/

namespace ExtBlockMesh

/-! ## Scalars, points and tensors -/

/-- What the source takes from its platform: the constant `VSMALL` and the
library functions `std::sqrt` and `std::pow`. -/
structure ScalarOps (K : Type) where
  /-- The OpenFOAM constant `VSMALL`. -/
  VSMALL : K
  /-- The library function `std::sqrt`. -/
  sqrt : K → K
  /-- The library function `std::pow`. -/
  pow : K → K → K

/-- The operations on the reals that agree with the mathematical square root
and power wherever the library functions are defined, with a positive
`VSMALL`. -/
structure ScalarOps.Exact (ops : ScalarOps ℝ) : Prop where
  vsmall_pos : 0 < ops.VSMALL
  vsmall_lt_one : ops.VSMALL < 1
  vsmall_le_half : ops.VSMALL ≤ 1 / 2
  sqrt_eq : ∀ x : ℝ, 0 ≤ x → ops.sqrt x = Real.sqrt x
  pow_eq : ∀ x y : ℝ, 0 < x → ops.pow x y = x ^ y
  pow_zero_base : ∀ y : ℝ, 0 < y → ops.pow 0 y = 0

/-- A point of the mesh (`Foam::point`, a vector of three scalars). -/
@[ext] structure Point (K : Type) where
  x : K
  y : K
  z : K
deriving DecidableEq

/-- A `pointField` of eight points: the vertices of one hexahedron. -/
abbrev HexPoints (K : Type) := Fin 8 → Point K

section PointOps

variable {K : Type} [LinearOrderedField K]

instance : Zero (Point K) := ⟨⟨0, 0, 0⟩⟩

instance : Add (Point K) := ⟨fun a b => ⟨a.x + b.x, a.y + b.y, a.z + b.z⟩⟩

instance : Sub (Point K) := ⟨fun a b => ⟨a.x - b.x, a.y - b.y, a.z - b.z⟩⟩

/-- Scalar times vector, `s*v`. -/
def Point.smul (s : K) (a : Point K) : Point K := ⟨s * a.x, s * a.y, s * a.z⟩

/-- Vector divided by a scalar, `v/s`. -/
def Point.sdiv (a : Point K) (s : K) : Point K := ⟨a.x / s, a.y / s, a.z / s⟩

/-- Modelled from the spec: the cross product `a ^ b` of the vector library. -/
def Point.cross (a b : Point K) : Point K :=
  ⟨a.y * b.z - a.z * b.y, a.z * b.x - a.x * b.z, a.x * b.y - a.y * b.x⟩

/-- Modelled from the spec: the squared magnitude `magSqr(v)` of a vector. -/
def Point.magSqr (a : Point K) : K := a.x * a.x + a.y * a.y + a.z * a.z

/-- Modelled from the spec: the magnitude `mag(v)` of a vector, the square
root of its squared magnitude. -/
def Point.mag (ops : ScalarOps K) (a : Point K) : K := ops.sqrt a.magSqr

/-- A 3x3 tensor `Tensor<scalar>`, built from three row vectors. -/
structure Tensor (K : Type) where
  r1 : Point K
  r2 : Point K
  r3 : Point K

/-- Modelled from the spec: the determinant `det(mA)` of a tensor. -/
def Tensor.det (t : Tensor K) : K :=
  t.r1.x * t.r2.y * t.r3.z + t.r1.y * t.r2.z * t.r3.x + t.r1.z * t.r2.x * t.r3.y
    - t.r1.x * t.r2.z * t.r3.y - t.r1.y * t.r2.x * t.r3.z - t.r1.z * t.r2.y * t.r3.x

/-- Modelled from the spec: `magSqr(mA)` of a tensor, the sum of the squares of
its nine components. -/
def Tensor.magSqr (t : Tensor K) : K := t.r1.magSqr + t.r2.magSqr + t.r3.magSqr

end PointOps

/-! ## Quality kernel: `meanRatio` -/

section MeanRatio

variable {K : Type} [LinearOrderedField K]

/-- Label table `v1` of `meanRatio`. -/
def v1 : Fin 8 → Fin 8
  | 0 => 3 | 1 => 0 | 2 => 1 | 3 => 2 | 4 => 7 | 5 => 4 | 6 => 5 | 7 => 6

/-- Label table `v2` of `meanRatio`. -/
def v2 : Fin 8 → Fin 8
  | 0 => 4 | 1 => 5 | 2 => 6 | 3 => 7 | 4 => 5 | 5 => 6 | 6 => 7 | 7 => 4

/-- Label table `v3` of `meanRatio`. -/
def v3 : Fin 8 → Fin 8
  | 0 => 1 | 1 => 2 | 2 => 3 | 3 => 0 | 4 => 0 | 5 => 1 | 6 => 2 | 7 => 3

/-- The tensor `mA(p1, p2, p3)` of the three edge vectors leaving corner
`ptI`. -/
def cornerTensor (H : HexPoints K) (ptI : Fin 8) : Tensor K :=
  ⟨H (v1 ptI) - H ptI, H (v2 ptI) - H ptI, H (v3 ptI) - H ptI⟩

/-- The corner determinant `sigma = det(mA)`. -/
def cornerSigma (H : HexPoints K) (ptI : Fin 8) : K := (cornerTensor H ptI).det

/-- One pass of the `forAll (H, ptI)` loop body of `meanRatio` on the
accumulator `cQa`. -/
def meanRatioStep (ops : ScalarOps K) (H : HexPoints K) (cQa : K) (ptI : Fin 8) : K :=
  let mA := cornerTensor H ptI
  let sigma := mA.det
  if sigma > ops.VSMALL then cQa + 3 * ops.pow sigma (2 / 3) / mA.magSqr else cQa

/-- The function `meanRatio`: the mean over the eight corners of
`3*sigma^(2/3)/magSqr(mA)`, corners with `sigma <= VSMALL` contributing
nothing. -/
def meanRatio (ops : ScalarOps K) (H : HexPoints K) : K :=
  (List.finRange 8).foldl (meanRatioStep ops H) 0 / 8

/-- The value of the source expression `2.0/3.0` in binary64, the exponent
the program passes to `std::pow`: `(2^54 - 1)/(3 * 2^53)`, just below 2/3. -/
def twoThirdsBinary64 : K := 6004799503160661 / 2 ^ 53

/-- The function `meanRatio` with the exponent passed to `std::pow` as a
parameter `e`; `meanRatio` is the case `e = 2/3`. -/
def meanRatioExp (ops : ScalarOps K) (e : K) (H : HexPoints K) : K :=
  (List.finRange 8).foldl
    (fun cQa ptI =>
      if (cornerTensor H ptI).det > ops.VSMALL then
        cQa + 3 * ops.pow (cornerTensor H ptI).det e / (cornerTensor H ptI).magSqr
      else cQa)
    0 / 8

/-- What corner `ptI` adds to the accumulator of `meanRatio`. -/
def cornerTerm (ops : ScalarOps K) (H : HexPoints K) (ptI : Fin 8) : K :=
  if cornerSigma H ptI > ops.VSMALL then
    3 * ops.pow (cornerSigma H ptI) (2 / 3) / (cornerTensor H ptI).magSqr
  else 0

/-- The unit cube in canonical brick order. -/
def unitCube : HexPoints K
  | 0 => ⟨0, 0, 0⟩ | 1 => ⟨1, 0, 0⟩ | 2 => ⟨1, 1, 0⟩ | 3 => ⟨0, 1, 0⟩
  | 4 => ⟨0, 0, 1⟩ | 5 => ⟨1, 0, 1⟩ | 6 => ⟨1, 1, 1⟩ | 7 => ⟨0, 1, 1⟩

/-- The unit cube reflected through a face: vertices 0..3 exchanged with
4..7. -/
def reflectedCube : HexPoints K
  | 0 => ⟨0, 0, 1⟩ | 1 => ⟨1, 0, 1⟩ | 2 => ⟨1, 1, 1⟩ | 3 => ⟨0, 1, 1⟩
  | 4 => ⟨0, 0, 0⟩ | 5 => ⟨1, 0, 0⟩ | 6 => ⟨1, 1, 0⟩ | 7 => ⟨0, 1, 0⟩

/-- The unit cube with vertex 0 moved to `(2, 2, 2)`, through the cube. -/
def piercedCube : HexPoints K
  | 0 => ⟨2, 2, 2⟩ | 1 => ⟨1, 0, 0⟩ | 2 => ⟨1, 1, 0⟩ | 3 => ⟨0, 1, 0⟩
  | 4 => ⟨0, 0, 1⟩ | 5 => ⟨1, 0, 1⟩ | 6 => ⟨1, 1, 1⟩ | 7 => ⟨0, 1, 1⟩

end MeanRatio

/-! ## Transform kernel: `geometricTransformation` -/

section Transform

variable {K : Type} [LinearOrderedField K]

/-- Label table `vb1` of the dual octahedron. -/
def vb1 : Fin 6 → Fin 8
  | 0 => 0 | 1 => 0 | 2 => 1 | 3 => 2 | 4 => 0 | 5 => 4

/-- Label table `vb2` of the dual octahedron. -/
def vb2 : Fin 6 → Fin 8
  | 0 => 1 | 1 => 4 | 2 => 5 | 3 => 6 | 4 => 3 | 5 => 7

/-- Label table `vb3` of the dual octahedron. -/
def vb3 : Fin 6 → Fin 8
  | 0 => 2 | 1 => 5 | 2 => 6 | 3 => 7 | 4 => 7 | 5 => 6

/-- Label table `vb4` of the dual octahedron. -/
def vb4 : Fin 6 → Fin 8
  | 0 => 3 | 1 => 1 | 2 => 2 | 3 => 3 | 4 => 4 | 5 => 5

/-- Label table `vc1` of the octahedron faces. -/
def vc1 : Fin 8 → Fin 6
  | 0 => 0 | 1 => 0 | 2 => 0 | 3 => 0 | 4 => 5 | 5 => 5 | 6 => 5 | 7 => 5

/-- Label table `vc2` of the octahedron faces. -/
def vc2 : Fin 8 → Fin 6
  | 0 => 1 | 1 => 2 | 2 => 3 | 3 => 4 | 4 => 4 | 5 => 1 | 6 => 2 | 7 => 3

/-- Label table `vc3` of the octahedron faces. -/
def vc3 : Fin 8 → Fin 6
  | 0 => 4 | 1 => 1 | 2 => 2 | 3 => 3 | 4 => 1 | 5 => 2 | 6 => 3 | 7 => 4

/-- Label table `vd1`: first end of each of the twelve edges. -/
def vd1 : Fin 12 → Fin 8
  | 0 => 0 | 1 => 1 | 2 => 2 | 3 => 3 | 4 => 0 | 5 => 1 | 6 => 2 | 7 => 3
  | 8 => 4 | 9 => 5 | 10 => 6 | 11 => 7

/-- Label table `vd2`: second end of each of the twelve edges. -/
def vd2 : Fin 12 → Fin 8
  | 0 => 1 | 1 => 2 | 2 => 3 | 3 => 0 | 4 => 4 | 5 => 5 | 6 => 6 | 7 => 7
  | 8 => 5 | 9 => 6 | 10 => 7 | 11 => 4

/-- The dual octahedron `oct`: each vertex is the mean of four hex vertices. -/
def oct (H : HexPoints K) (octPtI : Fin 6) : Point K :=
  (H (vb1 octPtI) + H (vb2 octPtI) + H (vb3 octPtI) + H (vb4 octPtI)).sdiv 4

/-- The centroids `octC` of the eight octahedron faces. -/
def octC (H : HexPoints K) (octCI : Fin 8) : Point K :=
  (oct H (vc1 octCI) + oct H (vc2 octCI) + oct H (vc3 octCI)).sdiv 3

/-- The normals `octN` of the eight octahedron faces (not normalised). -/
def octN (H : HexPoints K) (ptI : Fin 8) : Point K :=
  (oct H (vc2 ptI) - oct H (vc1 ptI)).cross (oct H (vc3 ptI) - oct H (vc1 ptI))

/-- The divisor `std::sqrt(mag(octN[ptI]))` of the new-point formula. -/
def normalDivisor (ops : ScalarOps K) (H : HexPoints K) (ptI : Fin 8) : K :=
  ops.sqrt ((octN H ptI).mag ops)

/-- The new points `Hp[ptI] = octC[ptI] + cor/std::sqrt(mag(octN[ptI]))*octN[ptI]`,
before scaling. -/
def newPoints (ops : ScalarOps K) (H : HexPoints K) (cor : K) (ptI : Fin 8) : Point K :=
  octC H ptI + Point.smul (cor / normalDivisor ops H ptI) (octN H ptI)

/-- The centroid `c` of eight points: their sum divided by 8. -/
def centroid (X : HexPoints K) : Point K :=
  ((List.finRange 8).foldl (fun c ptI => c + X ptI) 0).sdiv 8

/-- The vectors `mh1`, `mh2`: the sum over the twelve edges of
`X[vd1[edgeI]] - X[vd2[edgeI]]`, divided by 12. -/
def meanEdge (X : HexPoints K) : Point K :=
  ((List.finRange 12).foldl (fun mh edgeI => mh + (X (vd1 edgeI) - X (vd2 edgeI))) 0).sdiv 12

/-- The function `geometricTransformation`.  The source divides by
`std::sqrt(mag(octN[ptI]))` and by `mag(mh2)` without a test; when one of these
divisors is zero every coordinate it returns is infinite or not a number, and
the embedding returns `none`. -/
def geometricTransformation (ops : ScalarOps K) (H : HexPoints K) (cor relaxFact : K) :
    Option (HexPoints K) :=
  if ∃ ptI, normalDivisor ops H ptI = 0 then none
  else
    let Hp := newPoints ops H cor
    let c := centroid Hp
    let mh1 := meanEdge H
    let mh2 := meanEdge Hp
    if mh2.mag ops = 0 then none
    else
      let scalingfact := mh1.mag ops / mh2.mag ops
      let Hs : HexPoints K := fun ptI => c + Point.smul scalingfact (Hp ptI - c)
      some fun ptI => Point.smul (1 - relaxFact) (H ptI) + Point.smul relaxFact (Hs ptI)

/-- Both divisors of `geometricTransformation` are non-zero: the call returns
finite points. -/
def TransformDefined (ops : ScalarOps K) (H : HexPoints K) (cor : K) : Prop :=
  (∀ ptI, normalDivisor ops H ptI ≠ 0) ∧ (meanEdge (newPoints ops H cor)).mag ops ≠ 0

/-- The scaled points `Hs = C + scalingfact*(Hp - C)`. -/
def scaledPoints (ops : ScalarOps K) (H : HexPoints K) (cor : K) : HexPoints K :=
  fun ptI => centroid (newPoints ops H cor)
    + Point.smul ((meanEdge H).mag ops / (meanEdge (newPoints ops H cor)).mag ops)
        (newPoints ops H cor ptI - centroid (newPoints ops H cor))

/-- The axis-aligned cube of side `a` with vertex 0 at `o`, in canonical brick
order. -/
def cube (o : Point K) (a : K) : HexPoints K :=
  fun ptI => o + Point.smul a (unitCube ptI)

/-- The hex all of whose vertices are at the origin. -/
def collapsedHex : HexPoints K := fun _ => 0

/-- The direction from the centre of a cube in canonical brick order to each
of its vertices. -/
def cubeDir : HexPoints K
  | 0 => ⟨-1, -1, -1⟩ | 1 => ⟨1, -1, -1⟩ | 2 => ⟨1, 1, -1⟩ | 3 => ⟨-1, 1, -1⟩
  | 4 => ⟨-1, -1, 1⟩ | 5 => ⟨1, -1, 1⟩ | 6 => ⟨1, 1, 1⟩ | 7 => ⟨-1, 1, 1⟩

/-- The axis-aligned cube with centre `ctr` and half-side `h`; a negative `h`
gives the cube reflected through its centre. -/
def boxAbout (ctr : Point K) (h : K) : HexPoints K :=
  fun ptI => ctr + Point.smul h (cubeDir ptI)

/-- The centre of `cube o a`. -/
def cubeCentre (o : Point K) (a : K) : Point K := o + Point.smul (a / 2) ⟨1, 1, 1⟩

/-- The brick with its centre at the origin and half-sides 1, 1 and 2, in
canonical brick order. -/
def tallBrick : HexPoints K
  | 0 => ⟨-1, -1, -2⟩ | 1 => ⟨1, -1, -2⟩ | 2 => ⟨1, 1, -2⟩ | 3 => ⟨-1, 1, -2⟩
  | 4 => ⟨-1, -1, 2⟩ | 5 => ⟨1, -1, 2⟩ | 6 => ⟨1, 1, 2⟩ | 7 => ⟨-1, 1, 2⟩

/-- The average length of the twelve edges of a hex, over the edge tables
`vd1` and `vd2`.  The source does not compute it; it is what its comment
"keeping avg edge lenght" names, and is defined to be compared with
`meanEdge`. -/
def averageEdgeLength (ops : ScalarOps K) (X : HexPoints K) : K :=
  (List.finRange 12).foldl (fun l edgeI => l + (X (vd1 edgeI) - X (vd2 edgeI)).mag ops) 0 / 12

/-- The hex `s*X + t`: every vertex of `X` scaled by `s` about the origin and
then moved by `t`. -/
def similar (s : K) (t : Point K) (X : HexPoints K) : HexPoints K :=
  fun ptI => Point.smul s (X ptI) + t

end Transform

/-! ## Mesh, connectivity and the simultaneous smoother -/

/-- Why a run of the embedding stops without a result. -/
inductive Fault where
  /-- A division by zero: the source goes on with infinite or not-a-number
  values, which the embedding does not follow. -/
  | nonFinite
  /-- A loop did not finish within the number of rounds allowed. -/
  | outOfFuel
  /-- The source dereferences `end()` of a container, increments an iterator
  it has just erased, or reads a variable that was never assigned. -/
  | undefinedBehaviour
deriving DecidableEq, Repr

/-- The eight point labels of a hexahedral cell (`pointsLabel()`). -/
abbrev Cell := Fin 8 → Nat

/-- The part of `blockMesh` the smoother reads: the cells and the patches,
each patch a list of faces, each face a list of point labels.  The point
positions are passed separately. -/
structure BlockMesh where
  cells : List Cell
  patches : List (List (List Nat))

section Smoother

variable {K : Type} [LinearOrderedField K]

/-- The function `pointsData`, also `cells()[cellI].points(points())`: the
positions of the labelled points. -/
def pointsData (labels : Cell) (points : List (Point K)) : HexPoints K :=
  fun pointI => points.getD (labels pointI) 0

/-- The inner loop of the connectivity build for `pl`: cell `cellI` is
appended to the list of each of its points. -/
def linkCellList (pl : Nat → List Nat) (cellI : Nat) (c : Cell) : Nat → List Nat :=
  (List.finRange 8).foldl (fun pl ptI => Function.update pl (c ptI) (pl (c ptI) ++ [cellI])) pl

/-- The list `pl` of cells linked to each point. -/
def buildPl (cells : List Cell) : Nat → List Nat :=
  cells.enum.foldl (fun pl ic => linkCellList pl ic.1 ic.2) fun _ => []

/-- The inner loop of the connectivity build for `pc`. -/
def linkCellSet (pc : Nat → Finset Nat) (cellI : Nat) (c : Cell) : Nat → Finset Nat :=
  (List.finRange 8).foldl (fun pc ptI => Function.update pc (c ptI) (insert cellI (pc (c ptI)))) pc

/-- The set `pc` of cells linked to each point. -/
def buildPc (cells : List Cell) : Nat → Finset Nat :=
  cells.enum.foldl (fun pc ic => linkCellSet pc ic.1 ic.2) fun _ => ∅

/-- The set `fixedPoints`: every point label of every face of every patch. -/
def fixedPoints (patches : List (List (List Nat))) : Finset Nat :=
  patches.foldl
    (fun s patch => patch.foldl (fun s face => face.foldl (fun s l => insert l s) s) s) ∅

/-- The set `mobilPoints`: all point labels that are not fixed. -/
def mobilPoints (nPoints : Nat) (patches : List (List (List Nat))) : Finset Nat :=
  Finset.range nPoints \ fixedPoints patches

/-- The parameters of the simultaneous smoother. -/
structure SimParams (K : Type) where
  qMin : K
  qMax : K
  relaxFact : K
  pointAvg : K

/-- The variables written by the per-cell loop of a simultaneous iteration. -/
structure CellSweep (K : Type) where
  cq : List K
  qAmin : K
  qAavg : K
  nbInvalidCells : Nat
  pp : Nat → List (Point K)

/-- The loop storing the transformed hex `Hr` in `pp`. -/
def storeTransformed (pp : Nat → List (Point K)) (c : Cell) (Hr : HexPoints K) :
    Nat → List (Point K) :=
  (List.finRange 8).foldl (fun pp ptI => Function.update pp (c ptI) (pp (c ptI) ++ [Hr ptI])) pp

/-- The body of the per-cell loop for cell `cellI`. -/
def cellSweepStep (ops : ScalarOps K) (prm : SimParams K) (points : List (Point K))
    (st : CellSweep K) (ic : Nat × Cell) : Except Fault (CellSweep K) :=
  let H := pointsData ic.2 points
  let q := meanRatio ops H
  let cor := prm.qMin + (prm.qMax - prm.qMin) * (1 - q)
  match geometricTransformation ops H cor prm.relaxFact with
  | none => .error .nonFinite
  | some Hr =>
    .ok
      { cq := st.cq.set ic.1 q
        nbInvalidCells := if q < ops.VSMALL then st.nbInvalidCells + 1 else st.nbInvalidCells
        qAmin := if q < st.qAmin then q else st.qAmin
        qAavg := st.qAavg + q
        pp := storeTransformed st.pp ic.2 Hr }

/-- The per-cell loop of a simultaneous iteration. -/
def cellSweep (ops : ScalarOps K) (prm : SimParams K) (cells : List Cell)
    (points : List (Point K)) : Except Fault (CellSweep K) :=
  cells.enum.foldlM (cellSweepStep ops prm points)
    { cq := List.replicate cells.length 0, qAmin := 1, qAavg := 0, nbInvalidCells := 0,
      pp := fun _ => [] }

/-- The accumulation of `wj` and `wp` over the cells linked to one point. -/
def weightSums (ops : ScalarOps K) (pointAvg : K) (plP : List Nat) (ppP : List (Point K))
    (cq : List K) : K × Point K :=
  (List.range plP.length).foldl
    (fun acc cellI =>
      let wji := ops.pow (1 - cq.getD (plP.getD cellI 0) 0) pointAvg
      (acc.1 + wji, acc.2 + Point.smul wji (ppP.getD cellI 0)))
    (0, 0)

/-- The new position `wp/(wj + VSMALL)` of one mobile point. -/
def weightedPosition (ops : ScalarOps K) (pointAvg : K) (plP : List Nat)
    (ppP : List (Point K)) (cq : List K) : Except Fault (Point K) :=
  let acc := weightSums ops pointAvg plP ppP cq
  if plP.length = 0 then .error .nonFinite
  else
    let wj := acc.1 / (plP.length : K)
    let wp := acc.2.sdiv (plP.length : K)
    if wj + ops.VSMALL = 0 then .error .nonFinite else .ok (wp.sdiv (wj + ops.VSMALL))

/-- The call `blocks.setPoint(*pointI, wp/(wj + VSMALL))`. -/
def writePosition (r : Except Fault (Point K)) (pts : List (Point K)) (pointI : Nat) :
    Except Fault (List (Point K)) :=
  match r with
  | .error e => .error e
  | .ok x => .ok (pts.set pointI x)

/-- The loop over `mobilPoints` writing the new positions. -/
def updateMobile (ops : ScalarOps K) (pointAvg : K) (pl : Nat → List Nat)
    (sw : CellSweep K) (mobil : Finset Nat) (points : List (Point K)) :
    Except Fault (List (Point K)) :=
  (mobil.sort (· ≤ ·)).foldlM
    (fun pts pointI =>
      writePosition (weightedPosition ops pointAvg (pl pointI) (sw.pp pointI) sw.cq) pts pointI)
    points

/-- The function `pointsToRevert`: the points of every cell whose quality is
below `VSMALL`. -/
def pointsToRevert (ops : ScalarOps K) (pts : List (Point K)) (cp : List Cell)
    (cq : List K) : Finset Nat :=
  (List.range cq.length).foldl
    (fun s cellI =>
      if meanRatio ops (pointsData (cp.getD cellI default) pts) < ops.VSMALL then
        (List.finRange 8).foldl (fun s pointI => insert ((cp.getD cellI default) pointI) s) s
      else s)
    ∅

/-- The body of the revert loop: every point of `R` is set back to `pOld`. -/
def revertPoints (pOld : List (Point K)) (R : Finset Nat) (pts : List (Point K)) :
    List (Point K) :=
  (R.sort (· ≤ ·)).foldl (fun pts l => pts.set l (pOld.getD l 0)) pts

/-- The revert loop `while (pointsToReverts.size() > nbInvalidCells)`, run for
at most `fuel` rounds. -/
def revertLoop (ops : ScalarOps K) (cp : List Cell) (cq : List K) (pOld : List (Point K))
    (nbInvalidCells : Nat) : Nat → List (Point K) → Except Fault (List (Point K))
  | 0, pts =>
    if (pointsToRevert ops pts cp cq).card > nbInvalidCells then .error .outOfFuel
    else .ok pts
  | fuel + 1, pts =>
    if (pointsToRevert ops pts cp cq).card > nbInvalidCells then
      revertLoop ops cp cq pOld nbInvalidCells fuel
        (revertPoints pOld (pointsToRevert ops pts cp cq) pts)
    else .ok pts

/-- One pass of the body of the simultaneous smoothing loop on the point
array, the revert loop being allowed `fuel` rounds. -/
def simultaneousIteration (ops : ScalarOps K) (prm : SimParams K) (mesh : BlockMesh)
    (fuel : Nat) (points : List (Point K)) : Except Fault (List (Point K)) :=
  match cellSweep ops prm mesh.cells points with
  | .error e => .error e
  | .ok sw =>
    match updateMobile ops prm.pointAvg (buildPl mesh.cells) sw
        (mobilPoints points.length mesh.patches) points with
    | .error e => .error e
    | .ok pts => revertLoop ops mesh.cells sw.cq points sw.nbInvalidCells fuel pts

/-- The simultaneous smoothing loop `while (nbIterations < maxSimultaneousIter)`
with `remaining` passes still to run, that is `maxSimultaneousIter -
nbIterations`; the revert loop of each pass is allowed `fuel` rounds. -/
def simultaneousSmoothing (ops : ScalarOps K) (prm : SimParams K) (mesh : BlockMesh)
    (fuel : Nat) : Nat → List (Point K) → Except Fault (List (Point K))
  | 0, points => .ok points
  | remaining + 1, points =>
    match simultaneousIteration ops prm mesh fuel points with
    | .error e => .error e
    | .ok pts => simultaneousSmoothing ops prm mesh fuel remaining pts

/-- The labels below the length of the point array at which `pts` differs
from `pOld`. -/
def movedPoints (pOld pts : List (Point K)) : Finset Nat :=
  (Finset.range pts.length).filter fun j => pts[j]? ≠ pOld[j]?

/-- The cell whose eight points are the points 0..7 of the mesh, in this
order. -/
def idCell : Cell := fun pointI => pointI.val

/-- A mesh of one cell with three patch faces, `(0 1 2 3)`, `(0 1 5 4)` and
`(0 3 7 4)`: every point but point 6 is on a patch. -/
def cubeMesh : BlockMesh :=
  ⟨[idCell], [[[0, 1, 2, 3], [0, 1, 5, 4], [0, 3, 7, 4]]]⟩

/-- A mesh of one cell with two patch faces, `(0 1 2 3)` and `(4 5 6 7)`:
every point is on a patch. -/
def fixedCubeMesh : BlockMesh :=
  ⟨[idCell], [[[0, 1, 2, 3], [4, 5, 6, 7]]]⟩

/-- The point array of the unit cube. -/
def cubePoints : List (Point K) :=
  [unitCube 0, unitCube 1, unitCube 2, unitCube 3, unitCube 4, unitCube 5, unitCube 6,
    unitCube 7]

/-- The unit cube with vertex 6 moved to the origin. -/
def dentedCube : HexPoints K
  | 0 => ⟨0, 0, 0⟩ | 1 => ⟨1, 0, 0⟩ | 2 => ⟨1, 1, 0⟩ | 3 => ⟨0, 1, 0⟩
  | 4 => ⟨0, 0, 1⟩ | 5 => ⟨1, 0, 1⟩ | 6 => ⟨0, 0, 0⟩ | 7 => ⟨0, 1, 1⟩

end Smoother

/-! ## The priority structures and the sequential smoother -/

section Sequential

variable {K : Type} [LinearOrderedField K]

/-- The container `std::multimap<scalar, label>`: its entries in iteration
order, that is by ascending key.  An iterator is a position in the list, and
`end()` is the length of the list. -/
abbrev QualityMap (K : Type) := List (K × Nat)

/-- The container `std::map<label, scalar>`; `none` is `find(c) == end()`. -/
abbrev CellMap (K : Type) := Nat → Option K

/-- The call `container.lower_bound(x)`: the first entry whose key is not
less than `x`. -/
def lowerBound (m : QualityMap K) (x : K) : Nat :=
  (m.takeWhile fun e => decide (e.1 < x)).length

/-- The call `container.upper_bound(x)`: the first entry whose key is greater
than `x`. -/
def upperBound (m : QualityMap K) (x : K) : Nat :=
  (m.takeWhile fun e => decide (e.1 ≤ x)).length

/-- The call `qualityMap.insert(e)`: the entry goes after the entries whose
key is not greater than its own. -/
def multimapInsert (m : QualityMap K) (e : K × Nat) : QualityMap K :=
  (m.takeWhile fun x => decide (x.1 ≤ e.1)) ++ e :: m.dropWhile fun x => decide (x.1 ≤ e.1)

/-- The function `my_equal_range`. -/
def my_equal_range (m : QualityMap K) (target epsilon : K) : Nat × Nat :=
  (lowerBound m (target - epsilon), upperBound m (target + epsilon))

/-- The call `cellMap.insert(pair(c, q))`, which keeps an entry already
there. -/
def cellMapInsert (cm : CellMap K) (c : Nat) (q : K) : CellMap K :=
  match cm c with
  | none => Function.update cm c (some q)
  | some _ => cm

/-- The loop building `qualityMap` and `cellMap` from the cell qualities. -/
def buildMaps (ops : ScalarOps K) (cells : List Cell) (points : List (Point K)) :
    QualityMap K × CellMap K :=
  cells.enum.foldl
    (fun st ic =>
      let qual := meanRatio ops (pointsData ic.2 points)
      (multimapInsert st.1 (qual, ic.1), cellMapInsert st.2 ic.1 qual))
    ([], fun _ => none)

/-- The parameters of the sequential smoother. -/
structure SeqParams (K : Type) where
  seqTransform : K
  seqRelax : K
  deltaPiI : K
  deltaPiR : K
  deltaPiS : K
  seqMinCh : K

/-- The variables of the sequential smoothing loop. -/
structure SeqState (K : Type) where
  points : List (Point K)
  qualityMap : QualityMap K
  cellMap : CellMap K
  oldMinQual : K
  cellNb : Nat
  previous : Int
  noEffStep : Nat
  maxNoEffStep : Nat
  nbIterations : Nat

/-- The state on entry to the sequential loop; `qualityMap.begin()` is
dereferenced, which an empty map does not allow. -/
def seqInit (ops : ScalarOps K) (mesh : BlockMesh) (points : List (Point K)) :
    Except Fault (SeqState K) :=
  match (buildMaps ops mesh.cells points).1 with
  | [] => .error .undefinedBehaviour
  | e :: _ =>
    .ok
      { points := points
        qualityMap := (buildMaps ops mesh.cells points).1
        cellMap := (buildMaps ops mesh.cells points).2
        oldMinQual := e.1
        cellNb := e.2
        previous := -1
        noEffStep := 0
        maxNoEffStep := 0
        nbIterations := 0 }

/-- What the first half of a sequential step computes: the labels and old
positions of the target, the point array with the transformed target, the
impacted cells, the lowest quality among them and the new quality of the
target (unassigned when the target is not among the impacted cells). -/
structure SeqTrial (K : Type) where
  ptLabels : Cell
  H : HexPoints K
  points : List (Point K)
  impactedCell : Finset Nat
  lowerQual : K
  nQual : Option K

/-- The loop `forAll (ptLabels, pointI)` that writes the transformed target
and collects the impacted cells. -/
def movePoints (pc : Nat → Finset Nat) (ptLabels : Cell) (Hp : HexPoints K)
    (points : List (Point K)) : List (Point K) × Finset Nat :=
  (List.finRange 8).foldl
    (fun st pointI => (st.1.set (ptLabels pointI) (Hp pointI), st.2 ∪ pc (ptLabels pointI)))
    (points, ∅)

/-- The loop over `impactedCell` computing `lowerQual` and `nQual`. -/
def evalImpacted (ops : ScalarOps K) (cells : List Cell) (points : List (Point K))
    (cellNb : Nat) (impactedCell : Finset Nat) : K × Option K :=
  (impactedCell.sort (· ≤ ·)).foldl
    (fun acc c =>
      let cQual := meanRatio ops (pointsData (cells.getD c default) points)
      (if cQual < acc.1 then cQual else acc.1, if c = cellNb then some cQual else acc.2))
    (1, none)

/-- The first half of a sequential step, up to the test `lowerQual < VSMALL`. -/
def seqTrial (ops : ScalarOps K) (prm : SeqParams K) (mesh : BlockMesh) (s : SeqState K) :
    Option (SeqTrial K) :=
  let ptLabels := mesh.cells.getD s.cellNb default
  let H := pointsData ptLabels s.points
  match geometricTransformation ops H prm.seqTransform prm.seqRelax with
  | none => none
  | some Hp =>
    let moved := movePoints (buildPc mesh.cells) ptLabels Hp s.points
    let ev := evalImpacted ops mesh.cells moved.1 s.cellNb moved.2
    some
      { ptLabels := ptLabels, H := H, points := moved.1, impactedCell := moved.2,
        lowerQual := ev.1, nQual := ev.2 }

/-- The loop `forAll (ptLabels, pointI)` of the invalid branch, which puts the
target back. -/
def restorePoints (ptLabels : Cell) (H : HexPoints K) (points : List (Point K)) :
    List (Point K) :=
  (List.finRange 8).foldl (fun pts pointI => pts.set (ptLabels pointI) (H pointI)) points

/-- The scan `for (it = first; it != second && it != end(); ++it)` up to the
first entry whose value is the cell `c`: the position of that entry, or `none`
when the loop runs to its end without meeting one. -/
def scanRange (m : QualityMap K) (c : Nat) (first second : Nat) : Option Nat :=
  ((List.range (if first ≤ second then second else m.length)).filter fun it =>
    decide (first ≤ it)).find? fun it => decide ((m.getD it (0, 0)).2 = c)

/-- The statements run on the entry at `it`: it is erased, the new key
`upQual` is `nQual + penalty` for the target and the old key for any other
cell, and the cell is inserted again with that key in both containers. -/
def replaceEntry (cellNb : Nat) (nQual : Option K) (penalty oldQual : K)
    (st : QualityMap K × CellMap K) (c it : Nat) : Except Fault (QualityMap K × CellMap K) :=
  match (if c = cellNb then nQual.map (· + penalty) else some oldQual) with
  | none => .error .undefinedBehaviour
  | some upQual =>
    .ok (multimapInsert (st.1.eraseIdx it) (upQual, c), Function.update st.2 c (some upQual))

/-- The body of the loop refreshing the entry of one impacted cell `c`.  In
the branch `Case multiple cells found` the source erases the entry it finds
with `qualityMap.erase(it)` inside the `for` loop, and the loop then runs
`++it` on the erased iterator, which C++ leaves undefined: the embedding stops
there with `undefinedBehaviour`. -/
def refreshCell (ops : ScalarOps K) (cellNb : Nat) (nQual : Option K) (penalty : K)
    (st : QualityMap K × CellMap K) (c : Nat) : Except Fault (QualityMap K × CellMap K) :=
  match st.2 c with
  | none => .error .undefinedBehaviour
  | some oldQual =>
    let equalCells := my_equal_range st.1 oldQual ops.VSMALL
    if equalCells.1 = st.1.length then .ok st
    else if equalCells.1 = equalCells.2 then
      replaceEntry cellNb nQual penalty oldQual st c equalCells.1
    else
      match scanRange st.1 c equalCells.1 equalCells.2 with
      | none => .ok st
      | some _ => .error .undefinedBehaviour

/-- The end of a sequential step: the progress test and the values for the
next step. -/
def seqFinish (prm : SeqParams K) (s : SeqState K) (points : List (Point K))
    (qm : QualityMap K) (cm : CellMap K) : Except Fault (SeqState K) :=
  match qm with
  | [] => .error .undefinedBehaviour
  | e :: _ =>
    .ok
      { points := points
        qualityMap := qm
        cellMap := cm
        oldMinQual := e.1 + prm.seqMinCh
        cellNb := e.2
        previous := s.cellNb
        noEffStep := if e.1 ≥ s.oldMinQual then 0 else s.noEffStep + 1
        maxNoEffStep :=
          if e.1 ≥ s.oldMinQual then s.maxNoEffStep
          else if s.noEffStep + 1 > s.maxNoEffStep then s.maxNoEffStep + 1
          else s.maxNoEffStep
        nbIterations := s.nbIterations + 1 }

/-- One pass of the body of the sequential smoothing loop. -/
def seqStep (ops : ScalarOps K) (prm : SeqParams K) (mesh : BlockMesh) (s : SeqState K) :
    Except Fault (SeqState K) :=
  match seqTrial ops prm mesh s with
  | none => .error .nonFinite
  | some t =>
    if t.lowerQual < ops.VSMALL then
      seqFinish prm s (restorePoints t.ptLabels t.H t.points) s.qualityMap s.cellMap
    else
      match (t.impactedCell.sort (· ≤ ·)).foldlM
          (refreshCell ops s.cellNb t.nQual
            (if s.previous = s.cellNb then prm.deltaPiR else prm.deltaPiS))
          (s.qualityMap, s.cellMap) with
      | .error e => .error e
      | .ok st => seqFinish prm s t.points st.1 st.2

/-- The sequential smoothing loop `while (noEffStep < 10)`, allowed `fuel`
passes of its body: the state on exit, or `outOfFuel` when the guard still
holds after `fuel` passes. -/
def seqLoop (ops : ScalarOps K) (prm : SeqParams K) (mesh : BlockMesh) :
    Nat → SeqState K → Except Fault (SeqState K)
  | 0, s => if s.noEffStep < 10 then .error .outOfFuel else .ok s
  | fuel + 1, s =>
    if s.noEffStep < 10 then
      match seqStep ops prm mesh s with
      | .error e => .error e
      | .ok s1 => seqLoop ops prm mesh fuel s1
    else .ok s

/-- The state after `n` passes of the body of the sequential loop, the guard
of the loop left aside. -/
def seqIterate (ops : ScalarOps K) (prm : SeqParams K) (mesh : BlockMesh) :
    Nat → SeqState K → Except Fault (SeqState K)
  | 0, s => .ok s
  | n + 1, s =>
    match seqStep ops prm mesh s with
    | .error e => .error e
    | .ok s1 => seqIterate ops prm mesh n s1

/-- A sequential step from `s` takes the invalid branch. -/
def TakesInvalidBranch (ops : ScalarOps K) (prm : SeqParams K) (mesh : BlockMesh)
    (s : SeqState K) : Prop :=
  ∃ t, seqTrial ops prm mesh s = some t ∧ t.lowerQual < ops.VSMALL

/-- Priority-structure consistency for the cells `0 .. nCells - 1`: each has
exactly one entry in `qualityMap`, and the key of that entry is its value in
`cellMap`. -/
def PriorityConsistent (nCells : Nat) (qm : QualityMap K) (cm : CellMap K) : Prop :=
  ∀ c, c < nCells → ∃ k, cm c = some k ∧ qm.filter (fun e => decide (e.2 = c)) = [(k, c)]

/-- The entries of `qualityMap` are in ascending key order. -/
def KeysSorted (qm : QualityMap K) : Prop := qm.Pairwise fun a b => a.1 ≤ b.1

/-- The states of the sequential phase started on the point array `points`:
the state on entry to the loop, and every state a pass of the loop body
reaches from such a state. -/
inductive SeqReachable (ops : ScalarOps K) (prm : SeqParams K) (mesh : BlockMesh)
    (points : List (Point K)) : SeqState K → Prop where
  | init (s : SeqState K) (h : seqInit ops mesh points = .ok s) :
      SeqReachable ops prm mesh points s
  | step (s s1 : SeqState K) (hs : SeqReachable ops prm mesh points s)
      (h : seqStep ops prm mesh s = .ok s1) : SeqReachable ops prm mesh points s1

/-- The state on entry to the sequential loop for the one-cell mesh with the
points `cubePoints`: the cell has quality 1. -/
def cubeState : SeqState K :=
  { points := cubePoints
    qualityMap := [(1, 0)]
    cellMap := Function.update (fun _ => none) 0 (some 1)
    oldMinQual := 1
    cellNb := 0
    previous := -1
    noEffStep := 0
    maxNoEffStep := 0
    nbIterations := 0 }

/-- The point array of the unit cube reflected through its centre: point `k`
is at the vertex opposite to vertex `k`. -/
def invertedPoints : List (Point K) :=
  [unitCube 6, unitCube 7, unitCube 4, unitCube 5, unitCube 2, unitCube 3, unitCube 0,
    unitCube 1]

/-- The state on entry to the sequential loop for the one-cell mesh with the
points `invertedPoints`: the cell has quality 0. -/
def invertedState : SeqState K :=
  { points := invertedPoints
    qualityMap := [(0, 0)]
    cellMap := Function.update (fun _ => none) 0 (some 0)
    oldMinQual := 0
    cellNb := 0
    previous := -1
    noEffStep := 0
    maxNoEffStep := 0
    nbIterations := 0 }

/-- The variables of the sequential loop for three cells with the keys 2/10,
5/10 and 8/10, the first cell being the target; the point array plays no part
in the refresh of the priority structures. -/
def threeCellState : SeqState K :=
  { points := []
    qualityMap := [(2 / 10, 0), (5 / 10, 1), (8 / 10, 2)]
    cellMap := fun c =>
      match c with
      | 0 => some (2 / 10)
      | 1 => some (5 / 10)
      | 2 => some (8 / 10)
      | _ => none
    oldMinQual := 2 / 10
    cellNb := 0
    previous := -1
    noEffStep := 0
    maxNoEffStep := 0
    nbIterations := 0 }

end Sequential

/-! ## Components of the vector operations -/

section PointLemmas

variable {K : Type} [LinearOrderedField K]

@[simp] theorem Point.zero_x : (0 : Point K).x = 0 := rfl

@[simp] theorem Point.zero_y : (0 : Point K).y = 0 := rfl

@[simp] theorem Point.zero_z : (0 : Point K).z = 0 := rfl

@[simp] theorem Point.add_x (a b : Point K) : (a + b).x = a.x + b.x := rfl

@[simp] theorem Point.add_y (a b : Point K) : (a + b).y = a.y + b.y := rfl

@[simp] theorem Point.add_z (a b : Point K) : (a + b).z = a.z + b.z := rfl

@[simp] theorem Point.sub_x (a b : Point K) : (a - b).x = a.x - b.x := rfl

@[simp] theorem Point.sub_y (a b : Point K) : (a - b).y = a.y - b.y := rfl

@[simp] theorem Point.sub_z (a b : Point K) : (a - b).z = a.z - b.z := rfl

@[simp] theorem Point.smul_x (s : K) (a : Point K) : (Point.smul s a).x = s * a.x := rfl

@[simp] theorem Point.smul_y (s : K) (a : Point K) : (Point.smul s a).y = s * a.y := rfl

@[simp] theorem Point.smul_z (s : K) (a : Point K) : (Point.smul s a).z = s * a.z := rfl

@[simp] theorem Point.sdiv_x (a : Point K) (s : K) : (a.sdiv s).x = a.x / s := rfl

@[simp] theorem Point.sdiv_y (a : Point K) (s : K) : (a.sdiv s).y = a.y / s := rfl

@[simp] theorem Point.sdiv_z (a : Point K) (s : K) : (a.sdiv s).z = a.z / s := rfl

end PointLemmas

/-! ## Lemmas on the quality kernel -/

section MeanRatioLemmas

variable {K : Type} [LinearOrderedField K]

theorem finRange_eight :
    List.finRange 8 = [(0 : Fin 8), 1, 2, 3, 4, 5, 6, 7] := by
  decide

theorem meanRatioStep_eq (ops : ScalarOps K) (H : HexPoints K) (cQa : K) (ptI : Fin 8) :
    meanRatioStep ops H cQa ptI = cQa + cornerTerm ops H ptI := by
  unfold meanRatioStep cornerTerm cornerSigma
  by_cases h : (cornerTensor H ptI).det > ops.VSMALL <;> simp [h]

theorem meanRatio_eq_sum (ops : ScalarOps K) (H : HexPoints K) :
    meanRatio ops H =
      (cornerTerm ops H 0 + cornerTerm ops H 1 + cornerTerm ops H 2 + cornerTerm ops H 3
        + cornerTerm ops H 4 + cornerTerm ops H 5 + cornerTerm ops H 6
        + cornerTerm ops H 7) / 8 := by
  unfold meanRatio
  rw [finRange_eight]
  simp only [List.foldl, meanRatioStep_eq, zero_add]

theorem cornerTerm_of_le (ops : ScalarOps K) (H : HexPoints K) (ptI : Fin 8)
    (h : cornerSigma H ptI ≤ ops.VSMALL) : cornerTerm ops H ptI = 0 := by
  unfold cornerTerm
  rw [if_neg (not_lt.mpr h)]

theorem meanRatio_fully_inverted_aux (ops : ScalarOps K) (H : HexPoints K)
    (h : ∀ ptI, cornerSigma H ptI ≤ ops.VSMALL) : meanRatio ops H = 0 := by
  rw [meanRatio_eq_sum]
  simp only [cornerTerm_of_le ops H _ (h _)]
  norm_num

theorem cornerSigma_unitCube (ptI : Fin 8) : cornerSigma (unitCube : HexPoints K) ptI = 1 := by
  fin_cases ptI <;>
    simp [cornerSigma, cornerTensor, Tensor.det, unitCube, v1, v2, v3]

theorem magSqr_unitCube (ptI : Fin 8) :
    (cornerTensor (unitCube : HexPoints K) ptI).magSqr = 3 := by
  fin_cases ptI <;>
    simp [cornerTensor, Tensor.magSqr, Point.magSqr, unitCube, v1, v2, v3] <;>
    norm_num

theorem cornerSigma_reflectedCube (ptI : Fin 8) :
    cornerSigma (reflectedCube : HexPoints K) ptI = -1 := by
  fin_cases ptI <;>
    simp [cornerSigma, cornerTensor, Tensor.det, reflectedCube, v1, v2, v3]

/-- Hadamard bound for three row vectors: the squared determinant is at most
the product of the squared row lengths. -/
theorem det_sq_le (t : Tensor K) :
    t.det ^ 2 ≤ t.r1.magSqr * t.r2.magSqr * t.r3.magSqr := by
  obtain ⟨⟨a1, a2, a3⟩, ⟨b1, b2, b3⟩, ⟨c1, c2, c3⟩⟩ := t
  simp only [Tensor.det, Point.magSqr]
  have key : (a1 * a1 + a2 * a2 + a3 * a3) * (b1 * b1 + b2 * b2 + b3 * b3)
        * (c1 * c1 + c2 * c2 + c3 * c3)
      - (a1 * b2 * c3 + a2 * b3 * c1 + a3 * b1 * c2 - a1 * b3 * c2 - a2 * b1 * c3
          - a3 * b2 * c1) ^ 2
      = (a1 * a1 + a2 * a2 + a3 * a3) * (b1 * c1 + b2 * c2 + b3 * c3) ^ 2
        + (a2 * (b1 * c2 - b2 * c1) - a3 * (b3 * c1 - b1 * c3)) ^ 2
        + (a3 * (b2 * c3 - b3 * c2) - a1 * (b1 * c2 - b2 * c1)) ^ 2
        + (a1 * (b3 * c1 - b1 * c3) - a2 * (b2 * c3 - b3 * c2)) ^ 2 := by
    ring
  have h0 : 0 ≤ (a1 * a1 + a2 * a2 + a3 * a3) * (b1 * c1 + b2 * c2 + b3 * c3) ^ 2
        + (a2 * (b1 * c2 - b2 * c1) - a3 * (b3 * c1 - b1 * c3)) ^ 2
        + (a3 * (b2 * c3 - b3 * c2) - a1 * (b1 * c2 - b2 * c1)) ^ 2
        + (a1 * (b3 * c1 - b1 * c3) - a2 * (b2 * c3 - b3 * c2)) ^ 2 := by
    have ha : 0 ≤ a1 * a1 + a2 * a2 + a3 * a3 :=
      add_nonneg (add_nonneg (mul_self_nonneg a1) (mul_self_nonneg a2)) (mul_self_nonneg a3)
    exact add_nonneg (add_nonneg (add_nonneg (mul_nonneg ha (sq_nonneg _)) (sq_nonneg _))
      (sq_nonneg _)) (sq_nonneg _)
  linarith

theorem Point.magSqr_nonneg (a : Point K) : 0 ≤ a.magSqr :=
  add_nonneg (add_nonneg (mul_self_nonneg a.x) (mul_self_nonneg a.y)) (mul_self_nonneg a.z)

/-- The cube of a sum of three non-negative scalars is at least 27 times their
product (arithmetic and geometric mean), by an explicit sum of squares. -/
theorem geom_le_arith_cubed (x y z : K) (hx : 0 ≤ x) (hy : 0 ≤ y) (hz : 0 ≤ z) :
    x * y * z * 27 ≤ (x + y + z) ^ 3 := by
  have hid : (x + y + z) ^ 3 - x * y * z * 27
      = (x + y + z) * ((x - y) ^ 2 + (y - z) ^ 2 + (z - x) ^ 2) / 2
        + 3 * (x * (y - z) ^ 2 + y * (z - x) ^ 2 + z * (x - y) ^ 2) := by
    ring
  have hsum : 0 ≤ x + y + z := add_nonneg (add_nonneg hx hy) hz
  have h1 : 0 ≤ (x + y + z) * ((x - y) ^ 2 + (y - z) ^ 2 + (z - x) ^ 2) / 2 :=
    div_nonneg (mul_nonneg hsum
      (add_nonneg (add_nonneg (sq_nonneg _) (sq_nonneg _)) (sq_nonneg _))) (by norm_num)
  have h2 : 0 ≤ 3 * (x * (y - z) ^ 2 + y * (z - x) ^ 2 + z * (x - y) ^ 2) :=
    mul_nonneg (by norm_num)
      (add_nonneg (add_nonneg (mul_nonneg hx (sq_nonneg _)) (mul_nonneg hy (sq_nonneg _)))
        (mul_nonneg hz (sq_nonneg _)))
  linarith

/-- A tensor with a positive determinant has a positive squared magnitude, so
the division in `meanRatio` is by a non-zero scalar. -/
theorem magSqr_pos_of_det_pos (t : Tensor K) (h : 0 < t.det) : 0 < t.magSqr := by
  have h1 := det_sq_le t
  have h2 := geom_le_arith_cubed _ _ _ t.r1.magSqr_nonneg t.r2.magSqr_nonneg t.r3.magSqr_nonneg
  have h3 : 0 < t.det ^ 2 := by positivity
  have h4 : 0 < (t.r1.magSqr + t.r2.magSqr + t.r3.magSqr) ^ 3 := by linarith
  have h5 : 0 ≤ t.r1.magSqr + t.r2.magSqr + t.r3.magSqr :=
    add_nonneg (add_nonneg t.r1.magSqr_nonneg t.r2.magSqr_nonneg) t.r3.magSqr_nonneg
  unfold Tensor.magSqr
  rcases h5.lt_or_eq with h6 | h6
  · exact h6
  · rw [← h6] at h4
    norm_num at h4

end MeanRatioLemmas

/-- In exact real arithmetic a corner with a positive determinant contributes
at most 1: `3*sigma^(2/3) <= magSqr(mA)`. -/
theorem three_rpow_le_magSqr (t : Tensor ℝ) (h : 0 < t.det) :
    3 * t.det ^ (2 / 3 : ℝ) ≤ t.magSqr := by
  have hm := magSqr_pos_of_det_pos t h
  have h1 := det_sq_le t
  have h2 := geom_le_arith_cubed _ _ _ t.r1.magSqr_nonneg t.r2.magSqr_nonneg t.r3.magSqr_nonneg
  have h3 : t.det ^ 2 ≤ (t.magSqr / 3) ^ 3 := by
    have : (t.magSqr / 3) ^ 3 = (t.r1.magSqr + t.r2.magSqr + t.r3.magSqr) ^ 3 / 27 := by
      unfold Tensor.magSqr
      ring
    rw [this]
    linarith
  have h4 : t.det ^ (2 / 3 : ℝ) = (t.det ^ 2) ^ (1 / 3 : ℝ) := by
    rw [← Real.rpow_natCast, ← Real.rpow_mul h.le]
    norm_num
  have h5 : ((t.magSqr / 3) ^ 3) ^ (1 / 3 : ℝ) = t.magSqr / 3 := by
    rw [← Real.rpow_natCast, ← Real.rpow_mul (by positivity)]
    norm_num
  have h6 : (t.det ^ 2) ^ (1 / 3 : ℝ) ≤ ((t.magSqr / 3) ^ 3) ^ (1 / 3 : ℝ) :=
    Real.rpow_le_rpow (by positivity) h3 (by norm_num)
  rw [h4]
  linarith

/-! ## Lemmas on the transform kernel -/

section TransformLemmas

variable {K : Type} [LinearOrderedField K]

theorem finRange_twelve :
    List.finRange 12 = [(0 : Fin 12), 1, 2, 3, 4, 5, 6, 7, 8, 9, 10, 11] := by
  decide

theorem geometricTransformation_of_defined (ops : ScalarOps K) (H : HexPoints K)
    (cor relaxFact : K) (h : TransformDefined ops H cor) :
    geometricTransformation ops H cor relaxFact
      = some fun ptI => Point.smul (1 - relaxFact) (H ptI)
          + Point.smul relaxFact (scaledPoints ops H cor ptI) := by
  unfold geometricTransformation
  rw [if_neg (by simpa using h.1), if_neg h.2]
  rfl

theorem geometricTransformation_of_not_defined (ops : ScalarOps K) (H : HexPoints K)
    (cor relaxFact : K) (h : ¬ TransformDefined ops H cor) :
    geometricTransformation ops H cor relaxFact = none := by
  unfold geometricTransformation
  by_cases h1 : ∃ ptI, normalDivisor ops H ptI = 0
  · rw [if_pos h1]
  · rw [if_neg h1]
    have h2 : (meanEdge (newPoints ops H cor)).mag ops = 0 := by
      by_contra h2
      exact h ⟨by simpa using h1, h2⟩
    simp only [h2, if_true]

theorem cube_eq_boxAbout (o : Point K) (a : K) :
    cube o a = boxAbout (cubeCentre o a) (a / 2) := by
  funext ptI
  fin_cases ptI <;> ext <;> simp [cube, boxAbout, cubeCentre, unitCube, cubeDir] <;> ring

theorem octN_boxAbout (ctr : Point K) (h : K) (ptI : Fin 8) :
    octN (boxAbout ctr h) ptI = Point.smul (h * h) (cubeDir ptI) := by
  fin_cases ptI <;> ext <;>
    simp [octN, oct, boxAbout, cubeDir, Point.cross, vb1, vb2, vb3, vb4, vc1, vc2, vc3] <;>
    ring

theorem octC_boxAbout (ctr : Point K) (h : K) (ptI : Fin 8) :
    octC (boxAbout ctr h) ptI = ctr + Point.smul (h / 3) (cubeDir ptI) := by
  fin_cases ptI <;> ext <;>
    simp [octC, oct, boxAbout, cubeDir, vb1, vb2, vb3, vb4, vc1, vc2, vc3] <;>
    ring

theorem magSqr_smul_cubeDir (s : K) (ptI : Fin 8) :
    (Point.smul s (cubeDir ptI)).magSqr = 3 * (s * s) := by
  fin_cases ptI <;> simp [Point.magSqr, cubeDir] <;> ring

theorem normalDivisor_boxAbout (ops : ScalarOps K) (ctr : Point K) (h : K) (ptI : Fin 8) :
    normalDivisor ops (boxAbout ctr h) ptI = ops.sqrt (ops.sqrt (3 * (h * h * (h * h)))) := by
  unfold normalDivisor Point.mag
  rw [octN_boxAbout, magSqr_smul_cubeDir]

theorem newPoints_boxAbout (ops : ScalarOps K) (ctr : Point K) (h cor : K) :
    newPoints ops (boxAbout ctr h) cor
      = boxAbout ctr (h / 3 + cor / ops.sqrt (ops.sqrt (3 * (h * h * (h * h)))) * (h * h)) := by
  funext ptI
  unfold newPoints
  rw [normalDivisor_boxAbout, octN_boxAbout, octC_boxAbout]
  ext <;> simp [boxAbout] <;> ring

theorem centroid_boxAbout (ctr : Point K) (h : K) : centroid (boxAbout ctr h) = ctr := by
  unfold centroid
  rw [finRange_eight]
  ext <;> simp [List.foldl, boxAbout, cubeDir] <;> ring

theorem meanEdge_boxAbout (ctr : Point K) (h : K) :
    meanEdge (boxAbout ctr h) = ⟨0, 0, -(2 / 3 * h)⟩ := by
  unfold meanEdge
  rw [finRange_twelve]
  ext
  · simp [List.foldl, boxAbout, cubeDir, vd1, vd2]
  · simp [List.foldl, boxAbout, cubeDir, vd1, vd2]
  · simp [List.foldl, boxAbout, cubeDir, vd1, vd2]
    ring

theorem unitCube_eq_boxAbout {K : Type} [LinearOrderedField K] :
    (unitCube : HexPoints K) = boxAbout ⟨1 / 2, 1 / 2, 1 / 2⟩ (1 / 2) := by
  funext ptI
  fin_cases ptI <;> ext <;> simp [boxAbout, unitCube, cubeDir] <;> norm_num

end TransformLemmas

/-- The exact real operations used in the closed examples: `VSMALL = 1e-300`,
the real square root and the real power. -/
theorem exact_real :
    (ScalarOps.mk (1 / 10 ^ 300) Real.sqrt (fun x y => x ^ y) : ScalarOps ℝ).Exact where
  vsmall_pos := by positivity
  vsmall_lt_one := by
    rw [div_lt_one (by positivity)]
    exact one_lt_pow₀ (by norm_num) (by norm_num)
  vsmall_le_half := by
    rw [div_le_div_iff₀ (by positivity) (by norm_num), one_mul, one_mul]
    calc (2 : ℝ) = 2 ^ 1 := by norm_num
      _ ≤ 10 ^ 1 := by norm_num
      _ ≤ 10 ^ 300 := pow_le_pow_right₀ (by norm_num) (by norm_num)
  sqrt_eq := fun _ _ => rfl
  pow_eq := fun _ _ _ => rfl
  pow_zero_base := fun y hy => Real.zero_rpow hy.ne.symm

/-! ## The transform of a cube in exact real arithmetic -/

theorem mag_exact (ops : ScalarOps ℝ) (hops : ops.Exact) (a : Point ℝ) :
    a.mag ops = Real.sqrt a.magSqr :=
  hops.sqrt_eq _ a.magSqr_nonneg

theorem mag_vertical (ops : ScalarOps ℝ) (hops : ops.Exact) (w : ℝ) :
    (Point.mk 0 0 w).mag ops = |w| := by
  rw [mag_exact ops hops]
  simp [Point.magSqr, Real.sqrt_mul_self_eq_abs]

/-- For a cube of half-side `h` the divisor `sqrt(mag(octN))` is
`|h| * sqrt(sqrt 3)`. -/
theorem normalDivisor_exact (ops : ScalarOps ℝ) (hops : ops.Exact) (h : ℝ) :
    ops.sqrt (ops.sqrt (3 * (h * h * (h * h)))) = |h| * Real.sqrt (Real.sqrt 3) := by
  have h0 : h * h = |h| * |h| := (abs_mul_abs_self h).symm
  have h1 : ops.sqrt (3 * (|h| * |h| * (|h| * |h|))) = |h| * |h| * Real.sqrt 3 := by
    rw [hops.sqrt_eq _ (by positivity), mul_comm (3 : ℝ), Real.sqrt_mul (by positivity),
      Real.sqrt_mul_self (by positivity)]
  rw [h0, h1, hops.sqrt_eq _ (by positivity), Real.sqrt_mul (by positivity),
    Real.sqrt_mul_self (abs_nonneg h)]

theorem sqrt_sqrt_three_pos : 0 < Real.sqrt (Real.sqrt 3) :=
  Real.sqrt_pos.mpr (Real.sqrt_pos.mpr (by norm_num))

/-- The half-side of the unscaled transform of a cube of half-side `h`; a
negative half-side is a cube turned inside out. -/
theorem newPoints_exact (ops : ScalarOps ℝ) (hops : ops.Exact) (ctr : Point ℝ)
    (h cor : ℝ) (hh : h ≠ 0) :
    newPoints ops (boxAbout ctr h) cor
      = boxAbout ctr (h / 3 + cor * |h| / Real.sqrt (Real.sqrt 3)) := by
  rw [newPoints_boxAbout, normalDivisor_exact ops hops h]
  have h3 := sqrt_sqrt_three_pos
  have habs : 0 < |h| := abs_pos.mpr hh
  have e0 : h * h = |h| * |h| := (abs_mul_abs_self h).symm
  have e : h / 3 + cor / (|h| * Real.sqrt (Real.sqrt 3)) * (|h| * |h|)
      = h / 3 + cor * |h| / Real.sqrt (Real.sqrt 3) := by
    rw [div_mul_eq_mul_div, ← mul_assoc, mul_comm |h| (Real.sqrt (Real.sqrt 3)),
      mul_div_mul_right _ _ habs.ne.symm]
  rw [e0, e]

theorem transformDefined_boxAbout (ops : ScalarOps ℝ) (hops : ops.Exact) (ctr : Point ℝ)
    (h cor : ℝ) (hh : h ≠ 0) (hne : h / 3 + cor * |h| / Real.sqrt (Real.sqrt 3) ≠ 0) :
    TransformDefined ops (boxAbout ctr h) cor := by
  constructor
  · intro ptI
    rw [normalDivisor_boxAbout, normalDivisor_exact ops hops h]
    exact (mul_pos (abs_pos.mpr hh) sqrt_sqrt_three_pos).ne.symm
  · rw [newPoints_exact ops hops ctr h cor hh, meanEdge_boxAbout, mag_vertical ops hops]
    simp only [ne_eq, abs_eq_zero, neg_eq_zero, mul_eq_zero, not_or]
    exact ⟨by norm_num, hne⟩

/-- The scaled transform of a cube of half-side `h` has half-side `|h|` when
the unscaled transform is properly oriented and `-|h|` when it is turned
inside out. -/
theorem scaledPoints_boxAbout (ops : ScalarOps ℝ) (hops : ops.Exact) (ctr : Point ℝ)
    (h cor : ℝ) (hh : h ≠ 0) (hne : h / 3 + cor * |h| / Real.sqrt (Real.sqrt 3) ≠ 0) :
    scaledPoints ops (boxAbout ctr h) cor
      = boxAbout ctr
          (if 0 < h / 3 + cor * |h| / Real.sqrt (Real.sqrt 3) then |h| else -|h|) := by
  funext ptI
  unfold scaledPoints
  rw [newPoints_exact ops hops ctr h cor hh, centroid_boxAbout, meanEdge_boxAbout,
    meanEdge_boxAbout, mag_vertical ops hops, mag_vertical ops hops]
  set u := h / 3 + cor * |h| / Real.sqrt (Real.sqrt 3) with hu
  have habs : 0 < |h| := abs_pos.mpr hh
  have e1 : |-(2 / 3 * h)| = 2 / 3 * |h| := by
    rw [abs_neg, abs_mul, abs_of_pos (by norm_num : (0 : ℝ) < 2 / 3)]
  rcases lt_or_gt_of_ne hne with hneg | hpos
  · have e2 : |-(2 / 3 * u)| = -(2 / 3 * u) := by
      rw [abs_neg, abs_of_neg (mul_neg_of_pos_of_neg (by norm_num) hneg)]
    rw [e1, e2, if_neg (not_lt.mpr hneg.le)]
    have hu0 : u ≠ 0 := hneg.ne
    ext <;> simp [boxAbout] <;> field_simp <;> ring
  · have e2 : |-(2 / 3 * u)| = 2 / 3 * u := by
      rw [abs_neg, abs_of_pos (by positivity)]
    rw [e1, e2, if_pos hpos]
    have hu0 : u ≠ 0 := hpos.ne.symm
    ext <;> simp [boxAbout] <;> field_simp <;> ring

/-- In exact real arithmetic a properly oriented cube of half-side `h > 0` is
a fixed point of the transform as soon as `1/3 + c_or/sqrt(sqrt 3) > 0`. -/
theorem geometricTransformation_boxAbout_fixed (ops : ScalarOps ℝ) (hops : ops.Exact)
    (ctr : Point ℝ) (h cor relaxFact : ℝ) (hh : 0 < h)
    (hcor : 0 < 1 / 3 + cor / Real.sqrt (Real.sqrt 3)) :
    geometricTransformation ops (boxAbout ctr h) cor relaxFact = some (boxAbout ctr h) := by
  have habs : |h| = h := abs_of_pos hh
  have hu : 0 < h / 3 + cor * |h| / Real.sqrt (Real.sqrt 3) := by
    have h2 : h / 3 + cor * |h| / Real.sqrt (Real.sqrt 3)
        = h * (1 / 3 + cor / Real.sqrt (Real.sqrt 3)) := by
      rw [habs]
      ring
    rw [h2]
    exact mul_pos hh hcor
  rw [geometricTransformation_of_defined ops _ cor relaxFact
      (transformDefined_boxAbout ops hops _ _ cor hh.ne.symm hu.ne.symm),
    scaledPoints_boxAbout ops hops _ _ cor hh.ne.symm hu.ne.symm, if_pos hu, habs]
  congr 1
  funext ptI
  ext <;> simp <;> ring

/-- The quality of the unit cube is 1. -/
theorem meanRatio_unitCube_eq_one {K : Type} [LinearOrderedField K] (ops : ScalarOps K)
    (hv : ops.VSMALL < 1) (hp : ops.pow 1 (2 / 3) = 1) : meanRatio ops unitCube = 1 := by
  have hterm : ∀ ptI, cornerTerm ops unitCube ptI = 1 := by
    intro ptI
    unfold cornerTerm
    rw [cornerSigma_unitCube, magSqr_unitCube, if_pos hv, hp]
    norm_num
  rw [meanRatio_eq_sum]
  simp only [hterm]
  norm_num

/-! ## Claims on the quality kernel -/

/-- C1, amended: in exact real arithmetic, with `std::pow` the real power and
the exponent exactly 2/3, for every 8-point input `H` each corner contributes
either 0 or `3*sigma^(2/3)/magSqr(mA)` with `sigma > VSMALL`, no contribution
exceeds 1, `meanRatio H` is the eighth of the sum of the eight contributions,
and it lies in the closed interval `[0, 1]`. -/
theorem meanRatio_mem_unit_interval (ops : ScalarOps ℝ) (hops : ops.Exact)
    (H : HexPoints ℝ) :
    (∀ ptI, cornerTerm ops H ptI = 0 ∨
      (cornerSigma H ptI > ops.VSMALL ∧
        cornerTerm ops H ptI
          = 3 * cornerSigma H ptI ^ (2 / 3 : ℝ) / (cornerTensor H ptI).magSqr)) ∧
    (∀ ptI, 0 ≤ cornerTerm ops H ptI ∧ cornerTerm ops H ptI ≤ 1) ∧
    meanRatio ops H
      = (cornerTerm ops H 0 + cornerTerm ops H 1 + cornerTerm ops H 2 + cornerTerm ops H 3
          + cornerTerm ops H 4 + cornerTerm ops H 5 + cornerTerm ops H 6
          + cornerTerm ops H 7) / 8 ∧
    meanRatioExp ops (2 / 3) H = meanRatio ops H ∧
    0 ≤ meanRatio ops H ∧ meanRatio ops H ≤ 1 := by
  have hform : ∀ ptI, cornerTerm ops H ptI = 0 ∨
      (cornerSigma H ptI > ops.VSMALL ∧
        cornerTerm ops H ptI
          = 3 * cornerSigma H ptI ^ (2 / 3 : ℝ) / (cornerTensor H ptI).magSqr) := by
    intro ptI
    by_cases h : cornerSigma H ptI > ops.VSMALL
    · right
      refine ⟨h, ?_⟩
      unfold cornerTerm
      rw [if_pos h, hops.pow_eq _ _ (lt_trans hops.vsmall_pos h)]
    · left
      exact cornerTerm_of_le ops H ptI (not_lt.mp h)
  have hbound : ∀ ptI, 0 ≤ cornerTerm ops H ptI ∧ cornerTerm ops H ptI ≤ 1 := by
    intro ptI
    rcases hform ptI with h | ⟨hs, h⟩
    · rw [h]
      exact ⟨le_refl 0, zero_le_one⟩
    · have hpos : 0 < (cornerTensor H ptI).det := lt_trans hops.vsmall_pos hs
      have hm := magSqr_pos_of_det_pos _ hpos
      have hle := three_rpow_le_magSqr _ hpos
      rw [h]
      constructor
      · have : 0 ≤ cornerSigma H ptI ^ (2 / 3 : ℝ) := Real.rpow_nonneg hpos.le _
        positivity
      · rw [div_le_one hm]
        exact hle
  refine ⟨hform, hbound, meanRatio_eq_sum ops H, rfl, ?_, ?_⟩
  · rw [meanRatio_eq_sum]
    have := fun k => (hbound k).1
    have h0 := this 0
    have h1 := this 1
    have h2 := this 2
    have h3 := this 3
    have h4 := this 4
    have h5 := this 5
    have h6 := this 6
    have h7 := this 7
    positivity
  · rw [meanRatio_eq_sum, div_le_one (by norm_num)]
    have := fun k => (hbound k).2
    linarith [this 0, this 1, this 2, this 3, this 4, this 5, this 6, this 7]

/-- Witness for C1: the bound at the unit cube with the exact real
operations. -/
theorem meanRatio_mem_unit_interval_witness :
    0 ≤ meanRatio (ScalarOps.mk (1 / 10 ^ 300) Real.sqrt (fun x y => x ^ y)) unitCube ∧
    meanRatio (ScalarOps.mk (1 / 10 ^ 300) Real.sqrt (fun x y => x ^ y)) unitCube ≤ 1 :=
  (meanRatio_mem_unit_interval _ exact_real unitCube).2.2.2.2

/-- C2: for the unit cube in canonical brick order every corner determinant
is `+1`, every corner contributes 1 and `meanRatio` returns exactly 1,
whenever `VSMALL < 1` and `pow(1, 2/3) = 1`. -/
theorem meanRatio_unitCube {K : Type} [LinearOrderedField K] (ops : ScalarOps K)
    (hv : ops.VSMALL < 1) (hp : ops.pow 1 (2 / 3) = 1) :
    (∀ ptI, cornerSigma (unitCube : HexPoints K) ptI = 1) ∧
    (∀ ptI, cornerTerm ops unitCube ptI = 1) ∧
    meanRatio ops unitCube = 1 := by
  have hterm : ∀ ptI, cornerTerm ops unitCube ptI = 1 := by
    intro ptI
    unfold cornerTerm
    rw [cornerSigma_unitCube, magSqr_unitCube, if_pos hv, hp]
    norm_num
  refine ⟨cornerSigma_unitCube, hterm, ?_⟩
  rw [meanRatio_eq_sum]
  simp only [hterm]
  norm_num

/-- Witness for C2: the exact real operations satisfy both hypotheses. -/
theorem meanRatio_unitCube_witness :
    meanRatio (ScalarOps.mk (1 / 10 ^ 300) Real.sqrt (fun x y => x ^ y))
      (unitCube : HexPoints ℝ) = 1 :=
  (meanRatio_unitCube (ScalarOps.mk (1 / 10 ^ 300) Real.sqrt (fun x y => x ^ y))
    exact_real.vsmall_lt_one (Real.one_rpow _)).2.2

/-- C3: a hex all of whose eight corner determinants are at most `VSMALL` has
`meanRatio` exactly 0; the unit cube reflected through a face has all eight
determinants equal to `-1`, so for it `meanRatio` is 0 as soon as
`-1 <= VSMALL`. -/
theorem meanRatio_fully_inverted {K : Type} [LinearOrderedField K] (ops : ScalarOps K) :
    (∀ H : HexPoints K, (∀ ptI, cornerSigma H ptI ≤ ops.VSMALL) → meanRatio ops H = 0) ∧
    (∀ ptI, cornerSigma (reflectedCube : HexPoints K) ptI = -1) ∧
    (-1 ≤ ops.VSMALL → meanRatio ops reflectedCube = 0) := by
  have hall := meanRatio_fully_inverted_aux ops
  refine ⟨hall, cornerSigma_reflectedCube, fun hv => hall _ fun ptI => ?_⟩
  rw [cornerSigma_reflectedCube]
  exact hv

/-! ## Claims on the transform kernel -/

theorem normalDivisor_collapsedHex (ops : ScalarOps ℝ) (hops : ops.Exact) (ptI : Fin 8) :
    normalDivisor ops collapsedHex ptI = 0 := by
  have h0 : octN (collapsedHex : HexPoints ℝ) ptI = 0 := by
    ext <;> simp [octN, oct, collapsedHex, Point.cross]
  unfold normalDivisor
  rw [mag_exact ops hops, h0]
  simp [Point.magSqr, hops.sqrt_eq]

theorem sqrt_sqrt_three_lt : Real.sqrt (Real.sqrt 3) < 3 := by
  have h1 : Real.sqrt 3 < 9 := by
    rw [Real.sqrt_lt (by norm_num) (by norm_num)]
    norm_num
  rw [Real.sqrt_lt (Real.sqrt_nonneg 3) (by norm_num)]
  linarith

/-- C4, amended: when both divisors of the transform are non-zero, zero
relaxation is the identity: `geometricTransformation(H, c_or, 0)` equals `H`
vertex for vertex. -/
theorem geometricTransformation_zero_relax {K : Type} [LinearOrderedField K]
    (ops : ScalarOps K) (H : HexPoints K) (cor : K) (h : TransformDefined ops H cor) :
    geometricTransformation ops H cor 0 = some H := by
  rw [geometricTransformation_of_defined ops H cor 0 h]
  congr 1
  funext ptI
  ext <;> simp

/-- Witness for C4: the unit cube with `c_or = 1` in exact real arithmetic. -/
theorem geometricTransformation_zero_relax_witness :
    geometricTransformation (ScalarOps.mk (1 / 10 ^ 300) Real.sqrt (fun x y => x ^ y))
      (boxAbout ⟨1 / 2, 1 / 2, 1 / 2⟩ (1 / 2)) 1 0
      = some (boxAbout ⟨1 / 2, 1 / 2, 1 / 2⟩ (1 / 2)) :=
  geometricTransformation_zero_relax _ _ 1
    (transformDefined_boxAbout _ exact_real _ (1 / 2) 1 (by norm_num)
      (by have := sqrt_sqrt_three_pos; positivity))

/-- Counterexample to C4 as stated: for the hex with all eight vertices at the
origin the octahedron normals vanish, the transform divides by zero and its
result with zero relaxation is not the input. -/
theorem geometricTransformation_zero_relax_counterexample :
    geometricTransformation (ScalarOps.mk (1 / 10 ^ 300) Real.sqrt (fun x y => x ^ y))
        (collapsedHex : HexPoints ℝ) 1 0 = none ∧
    geometricTransformation (ScalarOps.mk (1 / 10 ^ 300) Real.sqrt (fun x y => x ^ y))
        (collapsedHex : HexPoints ℝ) 1 0 ≠ some collapsedHex := by
  have hnone : geometricTransformation
      (ScalarOps.mk (1 / 10 ^ 300) Real.sqrt (fun x y => x ^ y))
      (collapsedHex : HexPoints ℝ) 1 0 = none :=
    geometricTransformation_of_not_defined _ _ _ _
      fun h => h.1 0 (normalDivisor_collapsedHex _ exact_real 0)
  refine ⟨hnone, ?_⟩
  rw [hnone]
  exact fun h => Option.noConfusion h

/-- C5, amended: in exact real arithmetic an axis-aligned cube of side `a > 0`
in canonical vertex order is a fixed point of the transform for every
relaxation factor and every `c_or > -sqrt(sqrt 3)/3`, in particular for every
`c_or >= 0`. -/
theorem geometricTransformation_cube (ops : ScalarOps ℝ) (hops : ops.Exact)
    (o : Point ℝ) (a cor relaxFact : ℝ) (ha : 0 < a)
    (hcor : -(Real.sqrt (Real.sqrt 3) / 3) < cor) :
    geometricTransformation ops (cube o a) cor relaxFact = some (cube o a) := by
  have h3 := sqrt_sqrt_three_pos
  have h1 : -(1 / 3) < cor / Real.sqrt (Real.sqrt 3) := by
    rw [lt_div_iff₀ h3]
    linarith
  rw [cube_eq_boxAbout]
  exact geometricTransformation_boxAbout_fixed ops hops _ (a / 2) cor relaxFact (by positivity)
    (by linarith)

/-- Witness for C5: the unit cube at the origin with `c_or = 1` and relaxation
`1/2`. -/
theorem geometricTransformation_cube_witness :
    geometricTransformation (ScalarOps.mk (1 / 10 ^ 300) Real.sqrt (fun x y => x ^ y))
      (cube 0 1) 1 (1 / 2) = some (cube 0 1) :=
  geometricTransformation_cube _ exact_real 0 1 1 (1 / 2) one_pos
    (by have := sqrt_sqrt_three_pos; linarith)

/-- Counterexample to C5 as stated: with `c_or = -1` and relaxation 1 the unit
cube is sent to its reflection through its centre, vertex 0 landing on
`(1, 1, 1)`. -/
theorem geometricTransformation_cube_counterexample :
    geometricTransformation (ScalarOps.mk (1 / 10 ^ 300) Real.sqrt (fun x y => x ^ y))
        (unitCube : HexPoints ℝ) (-1) 1
      = some (boxAbout ⟨1 / 2, 1 / 2, 1 / 2⟩ (-(1 / 2))) ∧
    geometricTransformation (ScalarOps.mk (1 / 10 ^ 300) Real.sqrt (fun x y => x ^ y))
        (unitCube : HexPoints ℝ) (-1) 1 ≠ some unitCube := by
  have h3 := sqrt_sqrt_three_pos
  have habs : |(1 / 2 : ℝ)| = 1 / 2 := abs_of_pos (by norm_num)
  have hu : (1 / 2 : ℝ) / 3 + (-1) * |(1 / 2 : ℝ)| / Real.sqrt (Real.sqrt 3) < 0 := by
    have : (-1) * (1 / 2 : ℝ) / Real.sqrt (Real.sqrt 3) < -(1 / 6) := by
      rw [div_lt_iff₀ h3]
      linarith [sqrt_sqrt_three_lt]
    rw [habs]
    linarith
  have hval : geometricTransformation
      (ScalarOps.mk (1 / 10 ^ 300) Real.sqrt (fun x y => x ^ y))
      (unitCube : HexPoints ℝ) (-1) 1
      = some (boxAbout ⟨1 / 2, 1 / 2, 1 / 2⟩ (-(1 / 2))) := by
    rw [unitCube_eq_boxAbout,
      geometricTransformation_of_defined _ _ (-1) 1
        (transformDefined_boxAbout _ exact_real _ _ (-1) (by norm_num) hu.ne),
      scaledPoints_boxAbout _ exact_real _ _ (-1) (by norm_num) hu.ne,
      if_neg (not_lt.mpr hu.le), habs]
    congr 1
    funext ptI
    ext <;> simp
  refine ⟨hval, ?_⟩
  rw [hval]
  intro h
  have h0 := congrFun (Option.some.inj h) 0
  have hx := congrArg Point.x h0
  simp [boxAbout, cubeDir, unitCube] at hx

/-! ## Lemmas on the simultaneous smoother -/

section SmootherLemmas

variable {K : Type} [LinearOrderedField K]

theorem foldl_insert_mem (l : List Nat) (s : Finset Nat) (p : Nat) :
    p ∈ l.foldl (fun s x => insert x s) s ↔ p ∈ s ∨ p ∈ l := by
  induction l generalizing s with
  | nil => simp
  | cons a l ih =>
    simp only [List.foldl_cons, ih, Finset.mem_insert, List.mem_cons]
    tauto

theorem foldl_faces_mem (patch : List (List Nat)) (s : Finset Nat) (p : Nat) :
    p ∈ patch.foldl (fun s face => face.foldl (fun s l => insert l s) s) s
      ↔ p ∈ s ∨ ∃ face ∈ patch, p ∈ face := by
  induction patch generalizing s with
  | nil => simp
  | cons a l ih =>
    simp only [List.foldl_cons, ih, foldl_insert_mem, List.mem_cons, exists_eq_or_imp]
    exact or_assoc

theorem foldl_patches_mem (patches : List (List (List Nat))) (s : Finset Nat) (p : Nat) :
    p ∈ patches.foldl
        (fun s patch => patch.foldl (fun s face => face.foldl (fun s l => insert l s) s) s) s
      ↔ p ∈ s ∨ ∃ patch ∈ patches, ∃ face ∈ patch, p ∈ face := by
  induction patches generalizing s with
  | nil => simp
  | cons a l ih =>
    simp only [List.foldl_cons, ih, foldl_faces_mem, List.mem_cons, exists_eq_or_imp]
    exact or_assoc

/-- The fixed points are exactly the point labels that appear in some patch
face. -/
theorem mem_fixedPoints (patches : List (List (List Nat))) (p : Nat) :
    p ∈ fixedPoints patches ↔ ∃ patch ∈ patches, ∃ face ∈ patch, p ∈ face := by
  unfold fixedPoints
  rw [foldl_patches_mem]
  simp

/-- A loop of `setPoint` calls whose value depends on the label only: the
entry at `j` is the value for `j` if `j` was written, and the old entry if
not. -/
theorem foldl_set_getElem? {α : Type} (ls : List Nat) (f : Nat → α) (pts : List α) (j : Nat) :
    (ls.foldl (fun pts l => pts.set l (f l)) pts)[j]?
      = if j ∈ ls ∧ j < pts.length then some (f j) else pts[j]? := by
  induction ls generalizing pts with
  | nil => simp
  | cons a ls ih =>
    rw [List.foldl_cons, ih, List.length_set, List.getElem?_set]
    by_cases hj : j < pts.length
    · by_cases h1 : j ∈ ls
      · simp [h1, hj]
      · by_cases h2 : a = j
        · subst h2
          simp [h1, hj]
        · have h3 : ¬ j = a := fun h => h2 h.symm
          simp [h1, h2, h3]
    · have h4 : pts[j]? = none := List.getElem?_eq_none (not_lt.mp hj)
      simp only [hj, and_false, if_false, h4]
      split
      · rw [if_neg (by omega)]
      · rfl

theorem foldl_set_length {α : Type} (ls : List Nat) (f : Nat → α) (pts : List α) :
    (ls.foldl (fun pts l => pts.set l (f l)) pts).length = pts.length := by
  induction ls generalizing pts with
  | nil => rfl
  | cons a ls ih => rw [List.foldl_cons, ih, List.length_set]

/-- The loop over the mobile points changes no other entry of the point
array and keeps its length. -/
theorem foldlM_update_frame {F : Type} (g : Nat → Except Fault (Point F)) (ls : List Nat)
    (pts pts1 : List (Point F))
    (h : ls.foldlM (fun pts pointI => writePosition (g pointI) pts pointI) pts = .ok pts1) :
    pts1.length = pts.length ∧ ∀ j, j ∉ ls → pts1[j]? = pts[j]? := by
  induction ls generalizing pts with
  | nil =>
    simp only [List.foldlM_nil, pure, Except.pure, Except.ok.injEq] at h
    subst h
    exact ⟨rfl, fun _ _ => rfl⟩
  | cons a ls ih =>
    rw [List.foldlM_cons] at h
    cases hg : g a with
    | error e =>
      simp only [hg, writePosition, bind, Except.bind] at h
      exact absurd h (by simp)
    | ok x =>
      simp only [hg, writePosition, bind, Except.bind] at h
      obtain ⟨h1, h2⟩ := ih _ h
      refine ⟨by rw [h1, List.length_set], fun j hj => ?_⟩
      rw [h2 j (fun hm => hj (List.mem_cons_of_mem _ hm)),
        List.getElem?_set_ne (fun (e : a = j) => hj (by rw [← e]; exact List.mem_cons_self _ _))]

theorem updateMobile_frame (ops : ScalarOps K) (pointAvg : K) (pl : Nat → List Nat)
    (sw : CellSweep K) (mobil : Finset Nat) (points pts1 : List (Point K))
    (h : updateMobile ops pointAvg pl sw mobil points = .ok pts1) :
    pts1.length = points.length ∧ ∀ j, j ∉ mobil → pts1[j]? = points[j]? := by
  obtain ⟨h1, h2⟩ := foldlM_update_frame
    (fun pointI => weightedPosition ops pointAvg (pl pointI) (sw.pp pointI) sw.cq) _ _ _ h
  exact ⟨h1, fun j hj => h2 j (fun hm => hj ((Finset.mem_sort (· ≤ ·)).mp hm))⟩

theorem revertPoints_getElem? (pOld : List (Point K)) (R : Finset Nat)
    (pts : List (Point K)) (j : Nat) :
    (revertPoints pOld R pts)[j]?
      = if j ∈ R ∧ j < pts.length then some (pOld.getD j 0) else pts[j]? := by
  unfold revertPoints
  rw [foldl_set_getElem?]
  simp only [Finset.mem_sort]

theorem revertPoints_length (pOld : List (Point K)) (R : Finset Nat) (pts : List (Point K)) :
    (revertPoints pOld R pts).length = pts.length :=
  foldl_set_length _ _ _

/-- A point that is at its old position stays there through one round of the
revert loop. -/
theorem revertPoints_agree (pOld : List (Point K)) (R : Finset Nat) (pts : List (Point K))
    (j : Nat) (h : pts[j]? = pOld[j]?) : (revertPoints pOld R pts)[j]? = pOld[j]? := by
  rw [revertPoints_getElem?]
  by_cases hj : j ∈ R ∧ j < pts.length
  · rw [if_pos hj]
    obtain ⟨v, hv⟩ : ∃ v, pts[j]? = some v := ⟨pts[j], List.getElem?_eq_getElem hj.2⟩
    rw [← h, hv, List.getD_eq_getElem?_getD, ← h, hv]
    rfl
  · rw [if_neg hj, h]

/-- A point that is at its old position before the revert loop is there when
the loop ends. -/
theorem revertLoop_agree (ops : ScalarOps K) (cp : List Cell) (cq : List K)
    (pOld : List (Point K)) (nb fuel : Nat) (pts pts1 : List (Point K))
    (h : revertLoop ops cp cq pOld nb fuel pts = .ok pts1) (j : Nat)
    (hj : pts[j]? = pOld[j]?) : pts1[j]? = pOld[j]? := by
  induction fuel generalizing pts with
  | zero =>
    unfold revertLoop at h
    split at h
    · exact absurd h (by simp)
    · rw [← Except.ok.inj h]
      exact hj
  | succ fuel ih =>
    unfold revertLoop at h
    split at h
    · exact ih _ h (revertPoints_agree pOld _ pts j hj)
    · rw [← Except.ok.inj h]
      exact hj

theorem foldl_insert_labels_mem (c : Cell) (ls : List (Fin 8)) (s : Finset Nat) (j : Nat) :
    j ∈ ls.foldl (fun s pointI => insert (c pointI) s) s ↔ j ∈ s ∨ ∃ pointI ∈ ls, c pointI = j := by
  induction ls generalizing s with
  | nil => simp
  | cons a ls ih =>
    simp only [List.foldl_cons, ih, Finset.mem_insert, List.mem_cons, exists_eq_or_imp]
    constructor
    · rintro ((h | h) | h)
      · exact Or.inr (Or.inl h.symm)
      · exact Or.inl h
      · exact Or.inr (Or.inr h)
    · rintro (h | h | h)
      · exact Or.inl (Or.inr h)
      · exact Or.inl (Or.inl h.symm)
      · exact Or.inr h

theorem foldl_revert_mem (ops : ScalarOps K) (pts : List (Point K)) (cp : List Cell)
    (ls : List Nat) (s : Finset Nat) (j : Nat) :
    j ∈ ls.foldl
        (fun s cellI =>
          if meanRatio ops (pointsData (cp.getD cellI default) pts) < ops.VSMALL then
            (List.finRange 8).foldl (fun s pointI => insert ((cp.getD cellI default) pointI) s) s
          else s) s
      ↔ j ∈ s ∨ ∃ cellI ∈ ls,
          meanRatio ops (pointsData (cp.getD cellI default) pts) < ops.VSMALL ∧
          ∃ pointI, (cp.getD cellI default) pointI = j := by
  induction ls generalizing s with
  | nil => simp
  | cons a ls ih =>
    rw [List.foldl_cons, ih]
    by_cases ha : meanRatio ops (pointsData (cp.getD a default) pts) < ops.VSMALL
    · rw [if_pos ha]
      simp only [foldl_insert_labels_mem, List.mem_finRange, true_and, List.mem_cons,
        exists_eq_or_imp, ha]
      exact or_assoc
    · rw [if_neg ha]
      simp only [List.mem_cons, exists_eq_or_imp, ha, false_and, false_or]

/-- The set returned by `pointsToRevert`: the labels of the points of the
cells whose quality at `pts` is below `VSMALL`. -/
theorem mem_pointsToRevert (ops : ScalarOps K) (pts : List (Point K)) (cp : List Cell)
    (cq : List K) (j : Nat) :
    j ∈ pointsToRevert ops pts cp cq
      ↔ ∃ cellI, cellI < cq.length ∧
          meanRatio ops (pointsData (cp.getD cellI default) pts) < ops.VSMALL ∧
          ∃ pointI, (cp.getD cellI default) pointI = j := by
  unfold pointsToRevert
  rw [foldl_revert_mem]
  simp only [Finset.not_mem_empty, false_or, List.mem_range]

theorem pointsData_congr (c : Cell) (pts pts1 : List (Point K))
    (h : ∀ pointI, pts[c pointI]? = pts1[c pointI]?) : pointsData c pts = pointsData c pts1 := by
  funext pointI
  unfold pointsData
  rw [List.getD_eq_getElem?_getD, List.getD_eq_getElem?_getD, h]

/-- The per-cell loop keeps the length of `cq`, and counts no invalid cell
when every cell it visits has a quality of at least `VSMALL`. -/
theorem foldlM_cellSweepStep (ops : ScalarOps K) (prm : SimParams K) (points : List (Point K))
    (ics : List (Nat × Cell)) (st st1 : CellSweep K)
    (h : ics.foldlM (cellSweepStep ops prm points) st = .ok st1) :
    st1.cq.length = st.cq.length ∧
    ((∀ ic ∈ ics, ¬ meanRatio ops (pointsData ic.2 points) < ops.VSMALL) →
      st1.nbInvalidCells = st.nbInvalidCells) := by
  induction ics generalizing st with
  | nil =>
    simp only [List.foldlM_nil, pure, Except.pure, Except.ok.injEq] at h
    subst h
    exact ⟨rfl, fun _ => rfl⟩
  | cons a ics ih =>
    rw [List.foldlM_cons] at h
    cases hstep : cellSweepStep ops prm points st a with
    | error e =>
      simp only [hstep, bind, Except.bind] at h
      exact absurd h (by simp)
    | ok st2 =>
      simp only [hstep, bind, Except.bind] at h
      obtain ⟨h1, h2⟩ := ih _ h
      unfold cellSweepStep at hstep
      cases hg : geometricTransformation ops (pointsData a.2 points)
          (prm.qMin + (prm.qMax - prm.qMin) * (1 - meanRatio ops (pointsData a.2 points)))
          prm.relaxFact with
      | none =>
        simp only [hg] at hstep
        exact absurd hstep (by simp)
      | some Hr =>
        simp only [hg, Except.ok.injEq] at hstep
        subst hstep
        refine ⟨by rw [h1]; simp, fun hv => ?_⟩
        rw [h2 fun ic hic => hv ic (List.mem_cons_of_mem _ hic)]
        simp only [if_neg (hv a (List.mem_cons_self _ _))]

theorem cellSweep_valid (ops : ScalarOps K) (prm : SimParams K) (cells : List Cell)
    (points : List (Point K)) (sw : CellSweep K)
    (h : cellSweep ops prm cells points = .ok sw) :
    sw.cq.length = cells.length ∧
    ((∀ c ∈ cells, ¬ meanRatio ops (pointsData c points) < ops.VSMALL) →
      sw.nbInvalidCells = 0) := by
  obtain ⟨h1, h2⟩ := foldlM_cellSweepStep ops prm points _ _ _ h
  refine ⟨by rw [h1]; simp, fun hv => ?_⟩
  rw [h2 fun ic hic => hv ic.2 (List.snd_mem_of_mem_enum hic)]

/-- When every cell is valid at the old positions, a non-empty set of points
to revert contains a point that is not at its old position, so a round of the
revert loop strictly shrinks the set of moved points. -/
theorem movedPoints_revert_lt (ops : ScalarOps K) (cp : List Cell) (cq : List K)
    (pOld pts : List (Point K)) (hlen : pts.length = pOld.length)
    (hcq : cq.length = cp.length)
    (hvalid : ∀ c ∈ cp, ¬ meanRatio ops (pointsData c pOld) < ops.VSMALL)
    (hR : 0 < (pointsToRevert ops pts cp cq).card) :
    (movedPoints pOld (revertPoints pOld (pointsToRevert ops pts cp cq) pts)).card
      < (movedPoints pOld pts).card := by
  obtain ⟨j0, hj0⟩ := Finset.card_pos.mp hR
  obtain ⟨cellI, hlt, hbad, -⟩ := (mem_pointsToRevert ops pts cp cq j0).mp hj0
  have hmem : cp.getD cellI default ∈ cp := by
    rw [List.getD_eq_getElem?_getD, List.getElem?_eq_getElem (hcq ▸ hlt)]
    exact List.getElem_mem _
  have hex : ∃ pointI, pts[(cp.getD cellI default) pointI]?
      ≠ pOld[(cp.getD cellI default) pointI]? := by
    by_contra hall
    push_neg at hall
    rw [pointsData_congr _ pts pOld hall] at hbad
    exact hvalid _ hmem hbad
  obtain ⟨pointI, hne⟩ := hex
  set j := (cp.getD cellI default) pointI with hjdef
  have hjR : j ∈ pointsToRevert ops pts cp cq :=
    (mem_pointsToRevert ops pts cp cq j).mpr ⟨cellI, hlt, hbad, pointI, rfl⟩
  have hjlen : j < pts.length := by
    by_contra hge
    apply hne
    rw [List.getElem?_eq_none (not_lt.mp hge), List.getElem?_eq_none (hlen ▸ not_lt.mp hge)]
  apply Finset.card_lt_card
  rw [Finset.ssubset_iff_of_subset]
  · refine ⟨j, ?_, ?_⟩
    · simp only [movedPoints, Finset.mem_filter, Finset.mem_range]
      exact ⟨hjlen, hne⟩
    · simp only [movedPoints, Finset.mem_filter, Finset.mem_range, not_and, not_not]
      intro _
      rw [revertPoints_getElem?, if_pos ⟨hjR, hjlen⟩, List.getD_eq_getElem?_getD,
        List.getElem?_eq_getElem (hlen ▸ hjlen)]
      rfl
  · intro k hk
    simp only [movedPoints, Finset.mem_filter, Finset.mem_range, revertPoints_length] at hk ⊢
    exact ⟨hk.1, fun hagree => hk.2 (revertPoints_agree pOld _ pts k hagree)⟩

/-- When every cell is valid at the old positions and no cell was counted
invalid, the revert loop ends within as many rounds as there are moved points,
and ends with no point left to revert. -/
theorem revertLoop_terminates (ops : ScalarOps K) (cp : List Cell) (cq : List K)
    (pOld : List (Point K)) (hcq : cq.length = cp.length)
    (hvalid : ∀ c ∈ cp, ¬ meanRatio ops (pointsData c pOld) < ops.VSMALL)
    (fuel : Nat) (pts : List (Point K)) (hlen : pts.length = pOld.length)
    (hfuel : (movedPoints pOld pts).card ≤ fuel) :
    ∃ pts1, revertLoop ops cp cq pOld 0 fuel pts = .ok pts1 ∧
      pointsToRevert ops pts1 cp cq = ∅ := by
  induction fuel generalizing pts with
  | zero =>
    unfold revertLoop
    by_cases hR : (pointsToRevert ops pts cp cq).card > 0
    · have := movedPoints_revert_lt ops cp cq pOld pts hlen hcq hvalid hR
      omega
    · rw [if_neg hR]
      exact ⟨pts, rfl, Finset.card_eq_zero.mp (by omega)⟩
  | succ fuel ih =>
    unfold revertLoop
    by_cases hR : (pointsToRevert ops pts cp cq).card > 0
    · rw [if_pos hR]
      have hlt := movedPoints_revert_lt ops cp cq pOld pts hlen hcq hvalid hR
      exact ih _ (by rw [revertPoints_length, hlen]) (by omega)
    · rw [if_neg hR]
      exact ⟨pts, rfl, Finset.card_eq_zero.mp (by omega)⟩

theorem movedPoints_card_le (pOld pts : List (Point K)) :
    (movedPoints pOld pts).card ≤ pts.length := by
  unfold movedPoints
  exact le_trans (Finset.card_filter_le _ _) (by simp)

/-- No point to revert means no cell with a quality below `VSMALL`. -/
theorem valid_of_pointsToRevert_empty (ops : ScalarOps K) (pts : List (Point K))
    (cp : List Cell) (cq : List K) (hcq : cq.length = cp.length)
    (h : pointsToRevert ops pts cp cq = ∅) :
    ∀ c ∈ cp, ¬ meanRatio ops (pointsData c pts) < ops.VSMALL := by
  intro c hc hbad
  obtain ⟨cellI, hlt, hget⟩ := List.getElem_of_mem hc
  have hd : cp.getD cellI default = c := by
    rw [List.getD_eq_getElem?_getD, List.getElem?_eq_getElem hlt, hget]
    rfl
  have : c 0 ∈ pointsToRevert ops pts cp cq :=
    (mem_pointsToRevert ops pts cp cq (c 0)).mpr
      ⟨cellI, hcq ▸ hlt, by rw [hd]; exact hbad, 0, by rw [hd]⟩
  rw [h] at this
  exact Finset.not_mem_empty _ this

end SmootherLemmas

/-! ## Claims on the simultaneous smoother -/

/-- C6: a simultaneous-smoothing iteration (per-point update followed by the
revert loop) that runs to its end leaves every point whose label appears in
some patch face exactly where it was, and leaves the whole point array
unchanged when the mobile set is empty. -/
theorem simultaneousIteration_fixed {K : Type} [LinearOrderedField K] (ops : ScalarOps K)
    (prm : SimParams K) (mesh : BlockMesh) (fuel : Nat) (points pts1 : List (Point K))
    (h : simultaneousIteration ops prm mesh fuel points = .ok pts1) :
    (∀ p, (∃ patch ∈ mesh.patches, ∃ face ∈ patch, p ∈ face) → pts1[p]? = points[p]?) ∧
    (mobilPoints points.length mesh.patches = ∅ → pts1 = points) := by
  unfold simultaneousIteration at h
  cases hsw : cellSweep ops prm mesh.cells points with
  | error e =>
    simp only [hsw] at h
    exact absurd h (by simp)
  | ok sw =>
    simp only [hsw] at h
    cases hup : updateMobile ops prm.pointAvg (buildPl mesh.cells) sw
        (mobilPoints points.length mesh.patches) points with
    | error e =>
      simp only [hup] at h
      exact absurd h (by simp)
    | ok pts =>
      simp only [hup] at h
      obtain ⟨-, hframe⟩ := updateMobile_frame _ _ _ _ _ _ _ hup
      constructor
      · intro p hp
        refine revertLoop_agree _ _ _ _ _ _ _ _ h p (hframe p ?_)
        intro hm
        exact (Finset.mem_sdiff.mp hm).2 ((mem_fixedPoints _ _).mpr hp)
      · intro hempty
        apply List.ext_getElem?
        intro j
        refine revertLoop_agree _ _ _ _ _ _ _ _ h j (hframe j ?_)
        rw [hempty]
        exact Finset.not_mem_empty j

/-- C8: if no cell has `meanRatio < VSMALL` before a simultaneous iteration,
and the per-cell pass and the per-point update of that iteration stay finite,
then its revert loop ends within as many rounds as the mesh has points, and
afterwards no cell has `meanRatio < VSMALL`. -/
theorem simultaneousIteration_no_inverted {K : Type} [LinearOrderedField K]
    (ops : ScalarOps K) (prm : SimParams K) (mesh : BlockMesh) (points : List (Point K))
    (sw : CellSweep K) (pts : List (Point K))
    (hvalid : ∀ c ∈ mesh.cells, ¬ meanRatio ops (pointsData c points) < ops.VSMALL)
    (hsw : cellSweep ops prm mesh.cells points = .ok sw)
    (hup : updateMobile ops prm.pointAvg (buildPl mesh.cells) sw
      (mobilPoints points.length mesh.patches) points = .ok pts) :
    sw.nbInvalidCells = 0 ∧
    ∃ pts1, revertLoop ops mesh.cells sw.cq points sw.nbInvalidCells points.length pts
        = .ok pts1 ∧
      simultaneousIteration ops prm mesh points.length points = .ok pts1 ∧
      ∀ c ∈ mesh.cells, ¬ meanRatio ops (pointsData c pts1) < ops.VSMALL := by
  obtain ⟨hcq, hnb⟩ := cellSweep_valid ops prm mesh.cells points sw hsw
  have hnb0 := hnb hvalid
  obtain ⟨hlen, -⟩ := updateMobile_frame _ _ _ _ _ _ _ hup
  obtain ⟨pts1, hloop, hempty⟩ := revertLoop_terminates ops mesh.cells sw.cq points hcq hvalid
    points.length pts hlen (hlen ▸ movedPoints_card_le points pts)
  refine ⟨hnb0, pts1, by rw [hnb0]; exact hloop, ?_,
    valid_of_pointsToRevert_empty ops pts1 mesh.cells sw.cq hcq hempty⟩
  unfold simultaneousIteration
  simp only [hsw, hup, hnb0]
  exact hloop

/-! ## A simultaneous iteration on a one-cube mesh -/

section CubeMesh

variable {K : Type} [LinearOrderedField K]

theorem pointsData_cubePoints :
    pointsData idCell (cubePoints : List (Point K)) = unitCube := by
  funext pointI
  fin_cases pointI <;> rfl

theorem pointsData_cubePoints_set :
    pointsData idCell ((cubePoints : List (Point K)).set 6 0) = dentedCube := by
  funext pointI
  fin_cases pointI <;> rfl

theorem mobilPoints_cubeMesh : mobilPoints 8 cubeMesh.patches = {6} := by
  decide

theorem buildPl_cubeMesh : buildPl cubeMesh.cells 6 = [0] := by
  decide

theorem cornerSigma_dentedCube :
    cornerSigma (dentedCube : HexPoints K) 0 = 1 ∧ cornerSigma (dentedCube : HexPoints K) 1 = 1 ∧
    cornerSigma (dentedCube : HexPoints K) 2 = 0 ∧ cornerSigma (dentedCube : HexPoints K) 3 = 1 ∧
    cornerSigma (dentedCube : HexPoints K) 4 = 1 ∧ cornerSigma (dentedCube : HexPoints K) 5 = 0 ∧
    cornerSigma (dentedCube : HexPoints K) 6 = -2 ∧
    cornerSigma (dentedCube : HexPoints K) 7 = 0 := by
  refine ⟨?_, ?_, ?_, ?_, ?_, ?_, ?_, ?_⟩
  all_goals simp [cornerSigma, cornerTensor, Tensor.det, dentedCube, v1, v2, v3]
  norm_num

theorem magSqr_dentedCube :
    (cornerTensor (dentedCube : HexPoints K) 0).magSqr = 3 ∧
    (cornerTensor (dentedCube : HexPoints K) 1).magSqr = 3 ∧
    (cornerTensor (dentedCube : HexPoints K) 3).magSqr = 3 ∧
    (cornerTensor (dentedCube : HexPoints K) 4).magSqr = 3 := by
  refine ⟨?_, ?_, ?_, ?_⟩ <;>
    (simp [cornerTensor, Tensor.magSqr, Point.magSqr, dentedCube, v1, v2, v3]; norm_num)

/-- The unit cube with vertex 6 moved to the origin keeps four good corners:
its quality is exactly 1/2. -/
theorem meanRatio_dentedCube (ops : ScalarOps K) (hv0 : 0 ≤ ops.VSMALL) (hv1 : ops.VSMALL < 1)
    (hp : ops.pow 1 (2 / 3) = 1) : meanRatio ops dentedCube = 1 / 2 := by
  obtain ⟨s0, s1, s2, s3, s4, s5, s6, s7⟩ := cornerSigma_dentedCube (K := K)
  obtain ⟨m0, m1, m3, m4⟩ := magSqr_dentedCube (K := K)
  have t0 : cornerTerm ops dentedCube 0 = 1 := by
    unfold cornerTerm
    rw [s0, m0, if_pos hv1, hp]
    norm_num
  have t1 : cornerTerm ops dentedCube 1 = 1 := by
    unfold cornerTerm
    rw [s1, m1, if_pos hv1, hp]
    norm_num
  have t3 : cornerTerm ops dentedCube 3 = 1 := by
    unfold cornerTerm
    rw [s3, m3, if_pos hv1, hp]
    norm_num
  have t4 : cornerTerm ops dentedCube 4 = 1 := by
    unfold cornerTerm
    rw [s4, m4, if_pos hv1, hp]
    norm_num
  have t2 := cornerTerm_of_le ops dentedCube 2 (by rw [s2]; exact hv0)
  have t5 := cornerTerm_of_le ops dentedCube 5 (by rw [s5]; exact hv0)
  have t6 := cornerTerm_of_le ops dentedCube 6 (by rw [s6]; linarith)
  have t7 := cornerTerm_of_le ops dentedCube 7 (by rw [s7]; exact hv0)
  rw [meanRatio_eq_sum, t0, t1, t2, t3, t4, t5, t6, t7]
  norm_num

theorem cube_zero_one : cube (0 : Point K) 1 = unitCube := by
  funext pointI
  ext <;> simp [cube]

end CubeMesh

/-- A simultaneous iteration on the one-cube mesh, in exact real arithmetic
with `qMin > -sqrt(sqrt 3)/3` and a positive `pointAvg`: the cell has quality
1, all weights are 0, the mobile point 6 is written to the origin, and no
point is reverted. -/
theorem simultaneousIteration_cubeMesh (ops : ScalarOps ℝ) (hops : ops.Exact)
    (prm : SimParams ℝ) (hq : -(Real.sqrt (Real.sqrt 3) / 3) < prm.qMin)
    (hp : 0 < prm.pointAvg) (fuel : Nat) :
    cellSweep ops prm cubeMesh.cells cubePoints
      = .ok ⟨[1], 1, 0 + 1, 0, storeTransformed (fun _ => []) idCell unitCube⟩ ∧
    updateMobile ops prm.pointAvg (buildPl cubeMesh.cells)
        ⟨[1], 1, 0 + 1, 0, storeTransformed (fun _ => []) idCell unitCube⟩
        (mobilPoints 8 cubeMesh.patches) cubePoints = .ok (cubePoints.set 6 0) ∧
    simultaneousIteration ops prm cubeMesh fuel cubePoints = .ok (cubePoints.set 6 0) := by
  have hpow1 : ops.pow 1 (2 / 3) = 1 := by
    rw [hops.pow_eq _ _ one_pos]
    exact Real.one_rpow _
  have hq1 : meanRatio ops unitCube = 1 :=
    meanRatio_unitCube_eq_one ops hops.vsmall_lt_one hpow1
  have hgt : geometricTransformation ops unitCube prm.qMin prm.relaxFact = some unitCube := by
    have h3 := sqrt_sqrt_three_pos
    have h1 : -(1 / 3) < prm.qMin / Real.sqrt (Real.sqrt 3) := by
      rw [lt_div_iff₀ h3]
      linarith
    rw [unitCube_eq_boxAbout]
    exact geometricTransformation_boxAbout_fixed ops hops _ _ _ _ (by norm_num) (by linarith)
  have hsw : cellSweep ops prm cubeMesh.cells cubePoints
      = .ok ⟨[1], 1, 0 + 1, 0, storeTransformed (fun _ => []) idCell unitCube⟩ := by
    simp only [cellSweep, cubeMesh, List.enum, List.enumFrom, List.foldlM_cons, List.foldlM_nil,
      cellSweepStep, pointsData_cubePoints, hq1, sub_self, mul_zero, add_zero, hgt, bind,
      Except.bind, pure, Except.pure, List.length_singleton, List.replicate, List.set,
      if_neg (not_lt.mpr hops.vsmall_lt_one.le), lt_irrefl, if_false]
  have hwp : weightedPosition ops prm.pointAvg [0] [unitCube 6] [1] = .ok 0 := by
    have hne : (0 : ℝ) / (1 : ℕ) + ops.VSMALL ≠ 0 := by
      simp only [Nat.cast_one, div_one, zero_add]
      exact hops.vsmall_pos.ne.symm
    have hr : List.range 1 = [0] := rfl
    simp only [weightedPosition, weightSums, List.length_singleton, hr,
      List.foldl_cons, List.foldl_nil, List.getD_cons_zero, sub_self,
      hops.pow_zero_base _ hp, add_zero, one_ne_zero, if_false, hne]
    rw [Except.ok.injEq]
    ext <;> simp
  have hup : updateMobile ops prm.pointAvg (buildPl cubeMesh.cells)
      ⟨[1], 1, 0 + 1, 0, storeTransformed (fun _ => []) idCell unitCube⟩
      (mobilPoints 8 cubeMesh.patches) cubePoints = .ok (cubePoints.set 6 0) := by
    have hpp : storeTransformed (fun _ => []) idCell (unitCube : HexPoints ℝ) 6 = [unitCube 6] :=
      rfl
    simp only [updateMobile, mobilPoints_cubeMesh, Finset.sort_singleton, List.foldlM_cons,
      List.foldlM_nil, buildPl_cubeMesh, hpp, hwp, writePosition, bind, Except.bind, pure,
      Except.pure]
  have hbad : ¬ meanRatio ops (dentedCube : HexPoints ℝ) < ops.VSMALL := by
    rw [meanRatio_dentedCube ops hops.vsmall_pos.le hops.vsmall_lt_one hpow1]
    exact not_lt.mpr hops.vsmall_le_half
  have hR : pointsToRevert ops ((cubePoints : List (Point ℝ)).set 6 0) cubeMesh.cells [1] = ∅ := by
    apply Finset.eq_empty_of_forall_not_mem
    intro j hj
    obtain ⟨cellI, hlt, hlow, -⟩ := (mem_pointsToRevert _ _ _ _ j).mp hj
    have h0 : cellI = 0 := by simpa using hlt
    subst h0
    exact hbad (by simpa [cubeMesh, pointsData_cubePoints_set] using hlow)
  have hloop : revertLoop ops cubeMesh.cells [1] cubePoints 0 fuel (cubePoints.set 6 0)
      = .ok (cubePoints.set 6 0) := by
    cases fuel <;> simp [revertLoop, hR]
  refine ⟨hsw, hup, ?_⟩
  have hlen : (cubePoints : List (Point ℝ)).length = 8 := rfl
  simp only [simultaneousIteration, hsw, hlen, hup, hloop]

theorem neg_sqrt_sqrt_three_lt : -(Real.sqrt (Real.sqrt 3) / 3) < (1 / 10 : ℝ) := by
  have := sqrt_sqrt_three_pos
  linarith

theorem cubeMesh_valid (ops : ScalarOps ℝ) (hops : ops.Exact) :
    ∀ c ∈ cubeMesh.cells, meanRatio ops (pointsData c (cubePoints : List (Point ℝ))) = 1 := by
  intro c hc
  have hc1 : c = idCell := by simpa [cubeMesh] using hc
  rw [hc1, pointsData_cubePoints]
  exact meanRatio_unitCube_eq_one ops hops.vsmall_lt_one
    (by rw [hops.pow_eq _ _ one_pos]; exact Real.one_rpow _)

/-- Witness for C6: the iteration on the one-cube mesh runs to its end; the
seven points on patch faces keep their positions. -/
theorem simultaneousIteration_fixed_witness :
    (∀ p, (∃ patch ∈ cubeMesh.patches, ∃ face ∈ patch, p ∈ face) →
      ((cubePoints : List (Point ℝ)).set 6 0)[p]? = cubePoints[p]?) ∧
    (mobilPoints (cubePoints : List (Point ℝ)).length cubeMesh.patches = ∅ →
      (cubePoints : List (Point ℝ)).set 6 0 = cubePoints) :=
  simultaneousIteration_fixed (ScalarOps.mk (1 / 10 ^ 300) Real.sqrt (fun x y => x ^ y))
    ⟨1 / 10, 4 / 10, 1 / 2, 2⟩ cubeMesh 0 cubePoints _
    (simultaneousIteration_cubeMesh _ exact_real ⟨1 / 10, 4 / 10, 1 / 2, 2⟩
      neg_sqrt_sqrt_three_lt (by norm_num) 0).2.2

/-- C7, the code at a failing input: on the one-cube mesh (quality 1, point 6
mobile) with `qMin = 0.1`, `qMax = 0.4`, `relaxFact = 0.5`, `pointAvg = 2`, one
simultaneous iteration ends without reverting anything and has moved the
mobile point 6 from `(1, 1, 1)` to the origin. -/
theorem simultaneousIteration_allCube_moves :
    (∀ c ∈ cubeMesh.cells,
      meanRatio (ScalarOps.mk (1 / 10 ^ 300) Real.sqrt (fun x y => x ^ y))
        (pointsData c (cubePoints : List (Point ℝ))) = 1) ∧
    6 ∈ mobilPoints (cubePoints : List (Point ℝ)).length cubeMesh.patches ∧
    simultaneousIteration (ScalarOps.mk (1 / 10 ^ 300) Real.sqrt (fun x y => x ^ y))
      ⟨1 / 10, 4 / 10, 1 / 2, 2⟩ cubeMesh 0 (cubePoints : List (Point ℝ))
      = .ok (cubePoints.set 6 0) ∧
    (cubePoints : List (Point ℝ))[6]? = some ⟨1, 1, 1⟩ ∧
    ((cubePoints : List (Point ℝ)).set 6 0)[6]? = some ⟨0, 0, 0⟩ := by
  refine ⟨cubeMesh_valid _ exact_real, ?_,
    (simultaneousIteration_cubeMesh _ exact_real ⟨1 / 10, 4 / 10, 1 / 2, 2⟩
      neg_sqrt_sqrt_three_lt (by norm_num) 0).2.2, rfl, rfl⟩
  have hlen : (cubePoints : List (Point ℝ)).length = 8 := rfl
  rw [hlen, mobilPoints_cubeMesh]
  exact Finset.mem_singleton_self 6

/-- Witness for C8: the one-cube mesh is valid before the iteration; the
revert loop ends at once and the cell is still valid afterwards. -/
theorem simultaneousIteration_no_inverted_witness :
    (0 : Nat) = 0 ∧
    ∃ pts1, revertLoop (ScalarOps.mk (1 / 10 ^ 300) Real.sqrt (fun x y => x ^ y))
        cubeMesh.cells [1] (cubePoints : List (Point ℝ)) 0
        (cubePoints : List (Point ℝ)).length (cubePoints.set 6 0) = .ok pts1 ∧
      simultaneousIteration (ScalarOps.mk (1 / 10 ^ 300) Real.sqrt (fun x y => x ^ y))
        ⟨1 / 10, 4 / 10, 1 / 2, 2⟩ cubeMesh (cubePoints : List (Point ℝ)).length
        (cubePoints : List (Point ℝ)) = .ok pts1 ∧
      ∀ c ∈ cubeMesh.cells,
        ¬ meanRatio (ScalarOps.mk (1 / 10 ^ 300) Real.sqrt (fun x y => x ^ y))
            (pointsData c pts1) < 1 / 10 ^ 300 :=
  simultaneousIteration_no_inverted (ScalarOps.mk (1 / 10 ^ 300) Real.sqrt (fun x y => x ^ y))
    ⟨1 / 10, 4 / 10, 1 / 2, 2⟩ cubeMesh cubePoints
    ⟨[1], 1, 0 + 1, 0, storeTransformed (fun _ => []) idCell unitCube⟩ (cubePoints.set 6 0)
    (fun c hc => by
      rw [cubeMesh_valid _ exact_real c hc]
      exact not_lt.mpr exact_real.vsmall_lt_one.le)
    (simultaneousIteration_cubeMesh _ exact_real ⟨1 / 10, 4 / 10, 1 / 2, 2⟩
      neg_sqrt_sqrt_three_lt (by norm_num) 0).1
    (simultaneousIteration_cubeMesh _ exact_real ⟨1 / 10, 4 / 10, 1 / 2, 2⟩
      neg_sqrt_sqrt_three_lt (by norm_num) 0).2.1

/-! ## Lemmas on the sequential smoother -/

section SequentialLemmas

variable {K : Type} [LinearOrderedField K]

/-- A loop of `setPoint` calls indexed by local vertex numbers keeps the
length of the point array and every entry whose label it does not write. -/
theorem foldl_set_local_frame {α : Type} (ls : List (Fin 8)) (l : Cell) (v : Fin 8 → α)
    (pts : List α) :
    (ls.foldl (fun pts i => pts.set (l i) (v i)) pts).length = pts.length ∧
    ∀ j, (∀ i ∈ ls, l i ≠ j) →
      (ls.foldl (fun pts i => pts.set (l i) (v i)) pts)[j]? = pts[j]? := by
  induction ls generalizing pts with
  | nil => exact ⟨rfl, fun _ _ => rfl⟩
  | cons a ls ih =>
    obtain ⟨h1, h2⟩ := ih (pts.set (l a) (v a))
    refine ⟨by rw [List.foldl_cons, h1, List.length_set], fun j hj => ?_⟩
    rw [List.foldl_cons, h2 j fun i hi => hj i (List.mem_cons_of_mem _ hi),
      List.getElem?_set_ne (hj a (List.mem_cons_self _ _))]

theorem movePoints_fst {F : Type} (pc : Nat → Finset Nat) (l : Cell) (Hp : HexPoints F)
    (points : List (Point F)) :
    (movePoints pc l Hp points).1
      = (List.finRange 8).foldl (fun pts i => pts.set (l i) (Hp i)) points := by
  unfold movePoints
  generalize (∅ : Finset Nat) = I
  induction List.finRange 8 generalizing points I with
  | nil => rfl
  | cons a ls ih => rw [List.foldl_cons, List.foldl_cons, ih]

theorem movePoints_snd {F : Type} (pc : Nat → Finset Nat) (l : Cell) (Hp : HexPoints F)
    (points : List (Point F)) :
    (movePoints pc l Hp points).2
      = (List.finRange 8).foldl (fun I i => I ∪ pc (l i)) ∅ := by
  unfold movePoints
  generalize (∅ : Finset Nat) = I
  induction List.finRange 8 generalizing points I with
  | nil => rfl
  | cons a ls ih => rw [List.foldl_cons, List.foldl_cons, ih]

/-- Writing the old positions of the target back after any write to the same
labels gives the old point array. -/
theorem restorePoints_movePoints (pc : Nat → Finset Nat) (l : Cell) (Hp : HexPoints K)
    (points : List (Point K)) :
    restorePoints l (pointsData l points) (movePoints pc l Hp points).1 = points := by
  rw [movePoints_fst]
  obtain ⟨hlen, hframe⟩ := foldl_set_local_frame (List.finRange 8) l Hp points
  have hmap : restorePoints l (pointsData l points)
        ((List.finRange 8).foldl (fun pts i => pts.set (l i) (Hp i)) points)
      = ((List.finRange 8).map l).foldl (fun pts lbl => pts.set lbl (points.getD lbl 0))
          ((List.finRange 8).foldl (fun pts i => pts.set (l i) (Hp i)) points) := by
    rw [List.foldl_map]
    rfl
  rw [hmap]
  apply List.ext_getElem?
  intro j
  rw [foldl_set_getElem?, hlen]
  by_cases hj : j ∈ (List.finRange 8).map l ∧ j < points.length
  · rw [if_pos hj, List.getD_eq_getElem?_getD, List.getElem?_eq_getElem hj.2]
    rfl
  · rw [if_neg hj]
    by_cases hlt : j < points.length
    · refine hframe j fun i _ hi => hj ⟨?_, hlt⟩
      exact List.mem_map.mpr ⟨i, List.mem_finRange i, hi⟩
    · rw [List.getElem?_eq_none (hlen ▸ not_lt.mp hlt), List.getElem?_eq_none (not_lt.mp hlt)]

theorem seqTrial_fields (ops : ScalarOps K) (prm : SeqParams K) (mesh : BlockMesh)
    (s : SeqState K) (t : SeqTrial K) (h : seqTrial ops prm mesh s = some t) :
    ∃ Hp, geometricTransformation ops (pointsData (mesh.cells.getD s.cellNb default) s.points)
        prm.seqTransform prm.seqRelax = some Hp ∧
      t.ptLabels = mesh.cells.getD s.cellNb default ∧
      t.H = pointsData (mesh.cells.getD s.cellNb default) s.points ∧
      t.points = (movePoints (buildPc mesh.cells) (mesh.cells.getD s.cellNb default) Hp
        s.points).1 ∧
      t.impactedCell = (movePoints (buildPc mesh.cells) (mesh.cells.getD s.cellNb default) Hp
        s.points).2 ∧
      t.lowerQual = (evalImpacted ops mesh.cells t.points s.cellNb t.impactedCell).1 ∧
      t.nQual = (evalImpacted ops mesh.cells t.points s.cellNb t.impactedCell).2 := by
  unfold seqTrial at h
  cases hg : geometricTransformation ops (pointsData (mesh.cells.getD s.cellNb default) s.points)
      prm.seqTransform prm.seqRelax with
  | none =>
    simp only [hg] at h
    exact absurd h (by simp)
  | some Hp =>
    simp only [hg, Option.some.injEq] at h
    subst h
    exact ⟨Hp, rfl, rfl, rfl, rfl, rfl, rfl, rfl⟩

end SequentialLemmas

/-! ## Claims on the sequential smoother -/

/-- C9: a sequential iteration that takes the invalid branch is atomic.  It
ends (the priority map being non-empty), and when it has ended the whole point
array, hence the eight positions of the target, equal their values before the
iteration, and `qualityMap` and `cellMap` are unchanged. -/
theorem seqStep_invalid_atomic {K : Type} [LinearOrderedField K] (ops : ScalarOps K)
    (prm : SeqParams K) (mesh : BlockMesh) (s : SeqState K)
    (h : TakesInvalidBranch ops prm mesh s) :
    (s.qualityMap ≠ [] → ∃ s1, seqStep ops prm mesh s = .ok s1) ∧
    ∀ s1, seqStep ops prm mesh s = .ok s1 →
      s1.points = s.points ∧
      pointsData (mesh.cells.getD s.cellNb default) s1.points
        = pointsData (mesh.cells.getD s.cellNb default) s.points ∧
      s1.qualityMap = s.qualityMap ∧ s1.cellMap = s.cellMap := by
  obtain ⟨t, ht, hlow⟩ := h
  obtain ⟨Hp, -, hl, hH, hpts, -, -, -⟩ := seqTrial_fields ops prm mesh s t ht
  have hrestore : restorePoints t.ptLabels t.H t.points = s.points := by
    rw [hl, hH, hpts]
    exact restorePoints_movePoints _ _ _ _
  have hstep : seqStep ops prm mesh s = seqFinish prm s s.points s.qualityMap s.cellMap := by
    unfold seqStep
    simp only [ht, if_pos hlow, hrestore]
  rw [hstep]
  constructor
  · intro hne
    cases hq : s.qualityMap with
    | nil => exact absurd hq hne
    | cons e rest => exact ⟨_, rfl⟩
  · intro s1 hs1
    unfold seqFinish at hs1
    cases hq : s.qualityMap with
    | nil =>
      simp only [hq] at hs1
      exact absurd hs1 (by simp)
    | cons e rest =>
      simp only [hq, Except.ok.injEq] at hs1
      subst hs1
      exact ⟨rfl, rfl, rfl, rfl⟩

/-! ## A sequential step on an inverted cube -/

theorem pointsData_invertedPoints {K : Type} [LinearOrderedField K] :
    pointsData idCell (invertedPoints : List (Point K))
      = boxAbout ⟨1 / 2, 1 / 2, 1 / 2⟩ (-(1 / 2)) := by
  funext pointI
  fin_cases pointI <;> ext <;>
    simp [pointsData, idCell, invertedPoints, boxAbout, unitCube, cubeDir] <;> norm_num

theorem cornerSigma_boxAbout {K : Type} [LinearOrderedField K] (ctr : Point K) (h : K)
    (ptI : Fin 8) : cornerSigma (boxAbout ctr h) ptI = 8 * (h * h * h) := by
  fin_cases ptI <;>
    simp [cornerSigma, cornerTensor, Tensor.det, boxAbout, cubeDir, v1, v2, v3] <;> ring

/-- A cube turned inside out has quality 0. -/
theorem meanRatio_boxAbout_of_nonpos {K : Type} [LinearOrderedField K] (ops : ScalarOps K)
    (hv : 0 ≤ ops.VSMALL) (ctr : Point K) (h : K) (hh : h ≤ 0) :
    meanRatio ops (boxAbout ctr h) = 0 := by
  refine (meanRatio_fully_inverted_aux ops (boxAbout ctr h)) fun ptI => ?_
  rw [cornerSigma_boxAbout]
  have h2 : 0 ≤ h * h := mul_self_nonneg h
  have h3 : h * h * h ≤ 0 := mul_nonpos_of_nonneg_of_nonpos h2 hh
  linarith

/-- In exact real arithmetic the transform with `c_or = 1` and relaxation
`1/4` takes the inverted unit cube to an inverted cube of half the size. -/
theorem geometricTransformation_inverted (ops : ScalarOps ℝ) (hops : ops.Exact)
    (ctr : Point ℝ) :
    geometricTransformation ops (boxAbout ctr (-(1 / 2))) 1 (1 / 4)
      = some (boxAbout ctr (-(1 / 4))) := by
  have h3 := sqrt_sqrt_three_pos
  have habs : |(-(1 / 2) : ℝ)| = 1 / 2 := by
    rw [abs_neg, abs_of_pos (by norm_num)]
  have hu : 0 < (-(1 / 2) : ℝ) / 3 + 1 * |(-(1 / 2) : ℝ)| / Real.sqrt (Real.sqrt 3) := by
    have : (1 / 6 : ℝ) < 1 * (1 / 2) / Real.sqrt (Real.sqrt 3) := by
      rw [lt_div_iff₀ h3]
      linarith [sqrt_sqrt_three_lt]
    rw [habs]
    linarith
  rw [geometricTransformation_of_defined ops _ 1 (1 / 4)
      (transformDefined_boxAbout ops hops _ _ 1 (by norm_num) hu.ne.symm),
    scaledPoints_boxAbout ops hops _ _ 1 (by norm_num) hu.ne.symm, if_pos hu, habs]
  congr 1
  funext ptI
  ext <;> simp [boxAbout] <;> ring

/-- The sequential step from `invertedState` with `seqTransform = 1` and
`seqRelax = 1/4` takes the invalid branch. -/
theorem takesInvalidBranch_invertedState (ops : ScalarOps ℝ) (hops : ops.Exact)
    (prm : SeqParams ℝ) (ht : prm.seqTransform = 1) (hr : prm.seqRelax = 1 / 4) :
    TakesInvalidBranch ops prm cubeMesh invertedState := by
  have hg : geometricTransformation ops
      (pointsData (cubeMesh.cells.getD (invertedState : SeqState ℝ).cellNb default)
        (invertedState : SeqState ℝ).points) prm.seqTransform prm.seqRelax
      = some (boxAbout ⟨1 / 2, 1 / 2, 1 / 2⟩ (-(1 / 4))) := by
    rw [ht, hr]
    show geometricTransformation ops (pointsData idCell invertedPoints) 1 (1 / 4) = _
    rw [pointsData_invertedPoints]
    exact geometricTransformation_inverted ops hops _
  have hI : (movePoints (buildPc cubeMesh.cells) idCell
      (boxAbout (⟨1 / 2, 1 / 2, 1 / 2⟩ : Point ℝ) (-(1 / 4))) invertedPoints).2 = {0} := by
    rw [movePoints_snd]
    decide
  have hP : pointsData idCell (movePoints (buildPc cubeMesh.cells) idCell
      (boxAbout (⟨1 / 2, 1 / 2, 1 / 2⟩ : Point ℝ) (-(1 / 4))) invertedPoints).1
      = boxAbout ⟨1 / 2, 1 / 2, 1 / 2⟩ (-(1 / 4)) := by
    rw [movePoints_fst]
    funext pointI
    fin_cases pointI <;> rfl
  unfold TakesInvalidBranch seqTrial
  simp only [hg]
  refine ⟨_, rfl, ?_⟩
  show (evalImpacted ops cubeMesh.cells
    (movePoints (buildPc cubeMesh.cells) idCell _ invertedPoints).1 0
    (movePoints (buildPc cubeMesh.cells) idCell _ invertedPoints).2).1 < ops.VSMALL
  rw [hI]
  have hc : cubeMesh.cells.getD 0 default = idCell := rfl
  simp only [evalImpacted, Finset.sort_singleton, List.foldl_cons, List.foldl_nil, hc, hP,
    meanRatio_boxAbout_of_nonpos ops hops.vsmall_pos.le _ _ (by norm_num : (-(1 / 4) : ℝ) ≤ 0),
    zero_lt_one, if_true]
  exact hops.vsmall_pos

/-- Witness for C9: the step on the inverted cube takes the invalid branch,
ends, and leaves the points and both priority structures as they were. -/
theorem seqStep_invalid_atomic_witness :
    ((invertedState : SeqState ℝ).qualityMap ≠ [] →
      ∃ s1, seqStep (ScalarOps.mk (1 / 10 ^ 300) Real.sqrt (fun x y => x ^ y))
        ⟨1, 1 / 4, 1 / 10, 3 / 10, 2 / 10, 1 / 100⟩ cubeMesh invertedState = .ok s1) ∧
    ∀ s1, seqStep (ScalarOps.mk (1 / 10 ^ 300) Real.sqrt (fun x y => x ^ y))
        ⟨1, 1 / 4, 1 / 10, 3 / 10, 2 / 10, 1 / 100⟩ cubeMesh invertedState = .ok s1 →
      s1.points = (invertedState : SeqState ℝ).points ∧
      pointsData (cubeMesh.cells.getD (invertedState : SeqState ℝ).cellNb default) s1.points
        = pointsData (cubeMesh.cells.getD (invertedState : SeqState ℝ).cellNb default)
            (invertedState : SeqState ℝ).points ∧
      s1.qualityMap = (invertedState : SeqState ℝ).qualityMap ∧
      s1.cellMap = (invertedState : SeqState ℝ).cellMap :=
  seqStep_invalid_atomic (ScalarOps.mk (1 / 10 ^ 300) Real.sqrt (fun x y => x ^ y))
    ⟨1, 1 / 4, 1 / 10, 3 / 10, 2 / 10, 1 / 100⟩ cubeMesh invertedState
    (takesInvalidBranch_invertedState _ exact_real _ rfl rfl)

/-! ## The priority structures and the refresh loop -/

section PriorityLemmas

variable {K : Type} [LinearOrderedField K]

theorem lowerBound_le (m : QualityMap K) (x : K) (i : Nat) (hi : i < m.length)
    (h : ¬ m[i].1 < x) : lowerBound m x ≤ i := by
  unfold lowerBound
  induction m generalizing i with
  | nil => simp
  | cons a t ih =>
    cases i with
    | zero =>
      have ha : ¬ a.1 < x := h
      simp [List.takeWhile, ha]
    | succ j =>
      by_cases ha : a.1 < x
      · simp only [List.takeWhile, ha, decide_True, List.length_cons]
        exact Nat.succ_le_succ (ih j (Nat.lt_of_succ_lt_succ hi) h)
      · simp [List.takeWhile, ha]

theorem lt_upperBound (m : QualityMap K) (hs : KeysSorted m) (y : K) (i : Nat)
    (hi : i < m.length) (h : m[i].1 ≤ y) : i < upperBound m y := by
  unfold upperBound
  induction m generalizing i with
  | nil => simp at hi
  | cons a t ih =>
    have hs1 := List.pairwise_cons.mp hs
    cases i with
    | zero =>
      have ha : a.1 ≤ y := h
      simp [List.takeWhile, ha]
    | succ j =>
      have hj : j < t.length := Nat.lt_of_succ_lt_succ hi
      have htj : t[j].1 ≤ y := h
      have ha : a.1 ≤ y := le_trans (hs1.1 _ (List.getElem_mem hj)) htj
      simp only [List.takeWhile, ha, decide_True, List.length_cons]
      exact Nat.succ_lt_succ (ih hs1.2 j hj htj)

theorem upperBound_le_length (m : QualityMap K) (y : K) : upperBound m y ≤ m.length :=
  (List.takeWhile_sublist _).length_le

theorem lt_of_mem_dropWhile (m : QualityMap K) (hs : KeysSorted m) (x : K) (b : K × Nat)
    (hb : b ∈ m.dropWhile fun e => decide (e.1 ≤ x)) : x < b.1 := by
  induction m with
  | nil => simp at hb
  | cons a t ih =>
    have hs1 := List.pairwise_cons.mp hs
    by_cases ha : a.1 ≤ x
    · simp only [List.dropWhile, ha, decide_True] at hb
      exact ih hs1.2 hb
    · simp only [List.dropWhile, ha, decide_False] at hb
      rcases List.mem_cons.mp hb with h | h
      · rw [h]
        exact not_le.mp ha
      · exact lt_of_lt_of_le (not_le.mp ha) (hs1.1 _ h)

/-- The call `insert` keeps the keys in ascending order. -/
theorem keysSorted_multimapInsert (m : QualityMap K) (hs : KeysSorted m) (e : K × Nat) :
    KeysSorted (multimapInsert m e) := by
  unfold multimapInsert KeysSorted
  rw [List.pairwise_append]
  refine ⟨hs.sublist (List.takeWhile_sublist _), ?_, ?_⟩
  · rw [List.pairwise_cons]
    refine ⟨fun b hb => (lt_of_mem_dropWhile m hs e.1 b hb).le, ?_⟩
    exact hs.sublist (List.dropWhile_suffix _).sublist
  · intro a ha b hb
    have h1 : a.1 ≤ e.1 := by simpa using List.mem_takeWhile_imp ha
    rcases List.mem_cons.mp hb with h | h
    · rw [h]
      exact h1
    · exact le_trans h1 (lt_of_mem_dropWhile m hs e.1 b h).le

/-- The call `erase` keeps the keys in ascending order. -/
theorem keysSorted_eraseIdx (m : QualityMap K) (hs : KeysSorted m) (it : Nat) :
    KeysSorted (m.eraseIdx it) :=
  hs.sublist (List.eraseIdx_sublist m it)

/-- The entries of another cell are not touched by `insert`. -/
theorem filter_multimapInsert_ne (m : QualityMap K) (e : K × Nat) (c : Nat) (h : e.2 ≠ c) :
    (multimapInsert m e).filter (fun x => decide (x.2 = c))
      = m.filter fun x => decide (x.2 = c) := by
  unfold multimapInsert
  conv_rhs => rw [← List.takeWhile_append_dropWhile (fun x => decide (x.1 ≤ e.1)) m]
  simp only [List.filter_append, List.filter_cons, h, decide_False]
  rfl

/-- A cell without an entry has exactly the new entry after `insert`. -/
theorem filter_multimapInsert_eq (m : QualityMap K) (e : K × Nat)
    (h : m.filter (fun x => decide (x.2 = e.2)) = []) :
    (multimapInsert m e).filter (fun x => decide (x.2 = e.2)) = [e] := by
  unfold multimapInsert
  rw [← List.takeWhile_append_dropWhile (fun x => decide (x.1 ≤ e.1)) m, List.filter_append,
    List.append_eq_nil] at h
  simp only [List.filter_append, List.filter_cons, decide_True, if_true]
  rw [h.1, h.2]
  rfl

theorem eraseIdx_split {F : Type} (m : QualityMap F) (it : Nat) (hit : it < m.length) :
    m = m.take it ++ m[it] :: m.drop (it + 1) ∧
    m.eraseIdx it = m.take it ++ m.drop (it + 1) := by
  refine ⟨?_, List.eraseIdx_eq_take_drop_succ m it⟩
  rw [← List.drop_eq_getElem_cons hit, List.take_append_drop]

/-- The entries of another cell are not touched by `erase`. -/
theorem filter_eraseIdx_ne {F : Type} (m : QualityMap F) (it : Nat) (hit : it < m.length) (c : Nat)
    (h : m[it].2 ≠ c) :
    (m.eraseIdx it).filter (fun x => decide (x.2 = c))
      = m.filter fun x => decide (x.2 = c) := by
  obtain ⟨h1, h2⟩ := eraseIdx_split m it hit
  rw [h2]
  conv_rhs => rw [h1]
  simp only [List.filter_append, List.filter_cons, h, decide_False]
  rfl

/-- Erasing the single entry of a cell leaves the cell without an entry. -/
theorem filter_eraseIdx_eq {F : Type} (m : QualityMap F) (it : Nat) (hit : it < m.length) (k : F)
    (c : Nat) (h : m[it].2 = c) (hone : m.filter (fun x => decide (x.2 = c)) = [(k, c)]) :
    (m.eraseIdx it).filter (fun x => decide (x.2 = c)) = [] := by
  obtain ⟨h1, h2⟩ := eraseIdx_split m it hit
  rw [h1] at hone
  simp only [List.filter_append, List.filter_cons, h, decide_True, if_true] at hone
  have hlen := congrArg List.length hone
  simp only [List.length_append, List.length_cons, List.length_nil] at hlen
  rw [h2, List.filter_append, List.append_eq_nil]
  exact ⟨List.length_eq_zero.mp (by omega), List.length_eq_zero.mp (by omega)⟩

/-- The scan of the range finds an entry of the cell when the range holds
one. -/
theorem scanRange_finds (m : QualityMap K) (c first second i : Nat) (h1 : first ≤ i)
    (h2 : i < second) (h3 : second ≤ m.length) (hi : (m.getD i (0, 0)).2 = c) :
    ∃ it, scanRange m c first second = some it ∧ it < m.length ∧
      (m.getD it (0, 0)).2 = c := by
  unfold scanRange
  rw [if_pos (by omega : first ≤ second)]
  cases hf : ((List.range second).filter fun it => decide (first ≤ it)).find?
      fun it => decide ((m.getD it (0, 0)).2 = c) with
  | none =>
    rw [List.find?_eq_none] at hf
    have hmem : i ∈ (List.range second).filter fun it => decide (first ≤ it) := by
      rw [List.mem_filter, List.mem_range]
      exact ⟨h2, by simpa using h1⟩
    exact absurd (by simpa using hi) (hf i hmem)
  | some it =>
    have hp := List.find?_some hf
    have hmem := List.mem_of_find?_eq_some hf
    rw [List.mem_filter, List.mem_range] at hmem
    exact ⟨it, rfl, by omega, by simpa using hp⟩

theorem getD_eq_getElem_of_lt (m : QualityMap K) (i : Nat) (hi : i < m.length) :
    m.getD i (0, 0) = m[i] := by
  rw [List.getD_eq_getElem?_getD, List.getElem?_eq_getElem hi]
  rfl

/-- Replacing the one entry of a cell keeps the keys sorted and the priority
structures consistent. -/
theorem replaceEntry_inv (cellNb : Nat) (nQual : Option K) (penalty oldQual : K) (n : Nat)
    (st st1 : QualityMap K × CellMap K) (c it : Nat) (k : K) (hit : it < st.1.length)
    (hval : st.1[it].2 = c) (hs : KeysSorted st.1) (hcons : PriorityConsistent n st.1 st.2)
    (hone : st.1.filter (fun x => decide (x.2 = c)) = [(k, c)])
    (h : replaceEntry cellNb nQual penalty oldQual st c it = .ok st1) :
    KeysSorted st1.1 ∧ PriorityConsistent n st1.1 st1.2 := by
  unfold replaceEntry at h
  cases hup : (if c = cellNb then nQual.map (· + penalty) else some oldQual) with
  | none =>
    simp only [hup] at h
    exact absurd h (by simp)
  | some upQual =>
    simp only [hup, Except.ok.injEq] at h
    subst h
    refine ⟨keysSorted_multimapInsert _ (keysSorted_eraseIdx _ hs it) _, fun c1 hc1 => ?_⟩
    by_cases hcc : c1 = c
    · subst hcc
      refine ⟨upQual, Function.update_same _ _ _, ?_⟩
      show (multimapInsert (st.1.eraseIdx it) (upQual, c1)).filter _ = _
      exact filter_multimapInsert_eq _ (upQual, c1)
        (filter_eraseIdx_eq st.1 it hit k c1 hval hone)
    · obtain ⟨k1, hk1, hf1⟩ := hcons c1 hc1
      refine ⟨k1, ?_, ?_⟩
      · show Function.update st.2 c (some upQual) c1 = some k1
        rw [Function.update_noteq hcc]
        exact hk1
      show (multimapInsert (st.1.eraseIdx it) (upQual, c)).filter _ = _
      rw [filter_multimapInsert_ne _ _ _ (fun e => hcc e.symm),
        filter_eraseIdx_ne st.1 it hit c1 (fun e => hcc (by rw [← e, hval])), hf1]

/-- In a state with ascending keys in which the cell `c` has its one entry,
with the key `cellMap` holds, the key range of `c` holds that entry: the range
is not empty, does not start at `end()`, and the scan meets an entry of
`c`. -/
theorem scanRange_consistent (ops : ScalarOps K) (hv : 0 ≤ ops.VSMALL) (n : Nat)
    (st : QualityMap K × CellMap K) (c : Nat) (hc : c < n) (hs : KeysSorted st.1)
    (hcons : PriorityConsistent n st.1 st.2) :
    ∃ k it, st.2 c = some k ∧
      lowerBound st.1 (k - ops.VSMALL) < upperBound st.1 (k + ops.VSMALL) ∧
      lowerBound st.1 (k - ops.VSMALL) < st.1.length ∧
      scanRange st.1 c (lowerBound st.1 (k - ops.VSMALL)) (upperBound st.1 (k + ops.VSMALL))
        = some it ∧
      it < st.1.length ∧ (st.1.getD it (0, 0)).2 = c := by
  obtain ⟨k, hk, hone⟩ := hcons c hc
  have hmem : (k, c) ∈ st.1 := by
    have : (k, c) ∈ st.1.filter fun x => decide (x.2 = c) := by
      rw [hone]
      exact List.mem_singleton_self _
    exact (List.mem_filter.mp this).1
  obtain ⟨i, hi, hget⟩ := List.getElem_of_mem hmem
  have hfirst : lowerBound st.1 (k - ops.VSMALL) ≤ i := by
    apply lowerBound_le st.1 _ i hi
    rw [hget]
    exact not_lt.mpr (by linarith)
  have hsecond : i < upperBound st.1 (k + ops.VSMALL) := by
    apply lt_upperBound st.1 hs _ i hi
    rw [hget]
    linarith
  have hlen := upperBound_le_length st.1 (k + ops.VSMALL)
  obtain ⟨it, hscan, hit, hval⟩ := scanRange_finds st.1 c _ _ i hfirst hsecond hlen
    (by rw [getD_eq_getElem_of_lt _ _ hi, hget])
  exact ⟨k, it, hk, by omega, by omega, hscan, hit, hval⟩

/-- In a state with ascending keys and consistent structures the refresh of a
cell of the mesh takes the branch `Case multiple cells found`, finds the entry
of the cell, and runs into the increment of the erased iterator. -/
theorem refreshCell_undefined (ops : ScalarOps K) (hv : 0 ≤ ops.VSMALL) (cellNb : Nat)
    (nQual : Option K) (penalty : K) (n : Nat) (st : QualityMap K × CellMap K) (c : Nat)
    (hc : c < n) (hs : KeysSorted st.1) (hcons : PriorityConsistent n st.1 st.2) :
    refreshCell ops cellNb nQual penalty st c = .error .undefinedBehaviour := by
  obtain ⟨k, it, hk, h1, h2, hscan, -, -⟩ := scanRange_consistent ops hv n st c hc hs hcons
  unfold refreshCell
  simp only [hk, my_equal_range]
  rw [if_neg (by omega), if_neg (by omega)]
  simp only [hscan]

/-- The refresh loop over a non-empty list of cells of the mesh stops at its
first cell with the undefined behaviour. -/
theorem foldlM_refreshCell_undefined (ops : ScalarOps K) (hv : 0 ≤ ops.VSMALL) (cellNb : Nat)
    (nQual : Option K) (penalty : K) (n : Nat) (a : Nat) (ls : List Nat) (ha : a < n)
    (st : QualityMap K × CellMap K) (hs : KeysSorted st.1)
    (hcons : PriorityConsistent n st.1 st.2) :
    (a :: ls).foldlM (refreshCell ops cellNb nQual penalty) st
      = .error .undefinedBehaviour := by
  rw [List.foldlM_cons, refreshCell_undefined ops hv cellNb nQual penalty n st a ha hs hcons]
  rfl

theorem mem_foldl_linkCellSet (cell : Cell) (cellI : Nat) (ls : List (Fin 8))
    (pc : Nat → Finset Nat) (p c : Nat)
    (h : c ∈ (ls.foldl
      (fun pc ptI => Function.update pc (cell ptI) (insert cellI (pc (cell ptI)))) pc) p) :
    c ∈ pc p ∨ c = cellI := by
  induction ls generalizing pc with
  | nil => exact Or.inl h
  | cons a ls ih =>
    rw [List.foldl_cons] at h
    rcases ih _ h with h1 | h1
    · by_cases hp : p = cell a
      · subst hp
        rw [Function.update_same, Finset.mem_insert] at h1
        exact h1.symm
      · rw [Function.update_noteq hp] at h1
        exact Or.inl h1
    · exact Or.inr h1

theorem mem_foldl_enumFrom_linkCellSet (cells : List Cell) (k : Nat) (pc : Nat → Finset Nat)
    (p c : Nat)
    (h : c ∈ ((cells.enumFrom k).foldl (fun pc ic => linkCellSet pc ic.1 ic.2) pc) p) :
    c ∈ pc p ∨ (k ≤ c ∧ c < k + cells.length) := by
  induction cells generalizing k pc with
  | nil => exact Or.inl h
  | cons a cells ih =>
    rw [List.enumFrom_cons, List.foldl_cons] at h
    rcases ih _ _ h with h1 | h1
    · rcases mem_foldl_linkCellSet a k _ pc p c h1 with h2 | h2
      · exact Or.inl h2
      · exact Or.inr ⟨h2.ge, by rw [h2, List.length_cons]; omega⟩
    · exact Or.inr ⟨by omega, by rw [List.length_cons]; omega⟩

/-- The set `pc` holds cell labels only. -/
theorem mem_buildPc_lt (cells : List Cell) (p c : Nat) (h : c ∈ buildPc cells p) :
    c < cells.length := by
  rcases mem_foldl_enumFrom_linkCellSet cells 0 _ p c h with h1 | h1
  · exact absurd h1 (Finset.not_mem_empty c)
  · omega

theorem mem_foldl_union (pc : Nat → Finset Nat) (l : Cell) (ls : List (Fin 8))
    (I : Finset Nat) (c : Nat) (h : c ∈ ls.foldl (fun I i => I ∪ pc (l i)) I) :
    c ∈ I ∨ ∃ i, c ∈ pc (l i) := by
  induction ls generalizing I with
  | nil => exact Or.inl h
  | cons a ls ih =>
    rw [List.foldl_cons] at h
    rcases ih _ h with h1 | h1
    · rcases Finset.mem_union.mp h1 with h2 | h2
      · exact Or.inl h2
      · exact Or.inr ⟨a, h2⟩
    · exact Or.inr h1

/-- The impacted cells of a sequential step are cells of the mesh. -/
theorem impactedCell_lt (ops : ScalarOps K) (prm : SeqParams K) (mesh : BlockMesh)
    (s : SeqState K) (t : SeqTrial K) (h : seqTrial ops prm mesh s = some t) (c : Nat)
    (hc : c ∈ t.impactedCell) : c < mesh.cells.length := by
  obtain ⟨Hp, -, -, -, -, hI, -, -⟩ := seqTrial_fields ops prm mesh s t h
  rw [hI, movePoints_snd] at hc
  rcases mem_foldl_union _ _ _ _ c hc with h1 | ⟨i, h1⟩
  · exact absurd h1 (Finset.not_mem_empty c)
  · exact mem_buildPc_lt _ _ _ h1

theorem seqFinish_fields (prm : SeqParams K) (s s1 : SeqState K) (points : List (Point K))
    (qm : QualityMap K) (cm : CellMap K) (h : seqFinish prm s points qm cm = .ok s1) :
    s1.points = points ∧ s1.qualityMap = qm ∧ s1.cellMap = cm := by
  unfold seqFinish at h
  cases qm with
  | nil => exact absurd h (by simp)
  | cons e rest =>
    simp only [Except.ok.injEq] at h
    subst h
    exact ⟨rfl, rfl, rfl⟩

theorem foldl_eval_nQual (ops : ScalarOps K) (cells : List Cell) (points : List (Point K))
    (cellNb : Nat) (ls : List Nat) (acc : K × Option K)
    (h : cellNb ∈ ls ∨ ∃ q, acc.2 = some q) :
    ∃ q, (ls.foldl
      (fun acc c =>
        let cQual := meanRatio ops (pointsData (cells.getD c default) points)
        (if cQual < acc.1 then cQual else acc.1, if c = cellNb then some cQual else acc.2))
      acc).2 = some q := by
  induction ls generalizing acc with
  | nil =>
    rcases h with h | h
    · exact absurd h (List.not_mem_nil _)
    · exact h
  | cons a ls ih =>
    rw [List.foldl_cons]
    apply ih
    by_cases ha : a = cellNb
    · exact Or.inr ⟨_, if_pos ha⟩
    · rcases h with h | ⟨q, hq⟩
      · rcases List.mem_cons.mp h with h1 | h1
        · exact absurd h1.symm ha
        · exact Or.inl h1
      · exact Or.inr ⟨q, by rw [← hq]; exact if_neg ha⟩

/-- The loop over the impacted cells assigns `nQual` when the target is among
them. -/
theorem evalImpacted_nQual (ops : ScalarOps K) (cells : List Cell) (points : List (Point K))
    (cellNb : Nat) (I : Finset Nat) (h : cellNb ∈ I) :
    ∃ q, (evalImpacted ops cells points cellNb I).2 = some q :=
  foldl_eval_nQual ops cells points cellNb _ _ (Or.inl ((Finset.mem_sort (· ≤ ·)).mpr h))

theorem qualityMap_ne_nil {F : Type} (n : Nat) (hn : 0 < n) (qm : QualityMap F) (cm : CellMap F)
    (hcons : PriorityConsistent n qm cm) : qm ≠ [] := by
  obtain ⟨k, -, hone⟩ := hcons 0 hn
  intro hnil
  rw [hnil] at hone
  exact absurd hone (by simp)

end PriorityLemmas

/-- The sequential phase on the one-cell mesh with the inverted cube starts
in `invertedState`. -/
theorem seqInit_invertedState {K : Type} [LinearOrderedField K] (ops : ScalarOps K)
    (hv : 0 ≤ ops.VSMALL) :
    seqInit ops cubeMesh (invertedPoints : List (Point K)) = .ok invertedState := by
  have hq : meanRatio ops (pointsData idCell (invertedPoints : List (Point K))) = 0 := by
    rw [pointsData_invertedPoints]
    exact meanRatio_boxAbout_of_nonpos ops hv _ _ (by norm_num)
  have hb : buildMaps ops cubeMesh.cells (invertedPoints : List (Point K))
      = ([(0, 0)], Function.update (fun _ => none) 0 (some 0)) := by
    simp [buildMaps, cubeMesh, List.enum, List.enumFrom, hq, multimapInsert, cellMapInsert]
  simp only [seqInit, hb]
  rfl

/-- The sequential phase on the one-cube mesh starts in `cubeState`. -/
theorem seqInit_cubeState {K : Type} [LinearOrderedField K] (ops : ScalarOps K)
    (hv : ops.VSMALL < 1) (hp : ops.pow 1 (2 / 3) = 1) :
    seqInit ops cubeMesh (cubePoints : List (Point K)) = .ok cubeState := by
  have hq : meanRatio ops (pointsData idCell (cubePoints : List (Point K))) = 1 := by
    rw [pointsData_cubePoints]
    exact meanRatio_unitCube_eq_one ops hv hp
  have hb : buildMaps ops cubeMesh.cells (cubePoints : List (Point K))
      = ([(1, 0)], Function.update (fun _ => none) 0 (some 1)) := by
    simp [buildMaps, cubeMesh, List.enum, List.enumFrom, hq, multimapInsert, cellMapInsert]
  simp only [seqInit, hb]
  rfl

/-! ## A hex with one vertex pushed through the cube -/

section PiercedCube

variable {K : Type} [LinearOrderedField K]

theorem cornerSigma_piercedCube :
    cornerSigma (piercedCube : HexPoints K) 0 = -5 ∧
    cornerSigma (piercedCube : HexPoints K) 1 = -1 ∧
    cornerSigma (piercedCube : HexPoints K) 2 = 1 ∧
    cornerSigma (piercedCube : HexPoints K) 3 = -1 ∧
    cornerSigma (piercedCube : HexPoints K) 4 = -1 ∧
    cornerSigma (piercedCube : HexPoints K) 5 = 1 ∧
    cornerSigma (piercedCube : HexPoints K) 6 = 1 ∧
    cornerSigma (piercedCube : HexPoints K) 7 = 1 := by
  refine ⟨?_, ?_, ?_, ?_, ?_, ?_, ?_, ?_⟩
  all_goals simp [cornerSigma, cornerTensor, Tensor.det, piercedCube, v1, v2, v3]
  all_goals norm_num

theorem magSqr_piercedCube :
    (cornerTensor (piercedCube : HexPoints K) 2).magSqr = 3 ∧
    (cornerTensor (piercedCube : HexPoints K) 5).magSqr = 3 ∧
    (cornerTensor (piercedCube : HexPoints K) 6).magSqr = 3 ∧
    (cornerTensor (piercedCube : HexPoints K) 7).magSqr = 3 := by
  refine ⟨?_, ?_, ?_, ?_⟩ <;>
    (simp [cornerTensor, Tensor.magSqr, Point.magSqr, piercedCube, v1, v2, v3]; norm_num)

/-- The corners 2, 5, 6 and 7 of the pierced cube do not touch vertex 0 and
add 1 each; the corners 0, 1, 3 and 4 have a negative determinant and add
nothing. -/
theorem meanRatio_piercedCube_aux (ops : ScalarOps K) (hv0 : 0 ≤ ops.VSMALL)
    (hv1 : ops.VSMALL < 1) (hp : ops.pow 1 (2 / 3) = 1) :
    meanRatio ops piercedCube = 1 / 2 := by
  obtain ⟨s0, s1, s2, s3, s4, s5, s6, s7⟩ := cornerSigma_piercedCube (K := K)
  obtain ⟨m2, m5, m6, m7⟩ := magSqr_piercedCube (K := K)
  have one : ∀ ptI, cornerSigma (piercedCube : HexPoints K) ptI = 1 →
      (cornerTensor (piercedCube : HexPoints K) ptI).magSqr = 3 →
      cornerTerm ops piercedCube ptI = 1 := by
    intro ptI hs hm
    unfold cornerTerm
    rw [hs, hm, if_pos hv1, hp]
    norm_num
  have t0 := cornerTerm_of_le ops piercedCube 0 (by rw [s0]; linarith)
  have t1 := cornerTerm_of_le ops piercedCube 1 (by rw [s1]; linarith)
  have t3 := cornerTerm_of_le ops piercedCube 3 (by rw [s3]; linarith)
  have t4 := cornerTerm_of_le ops piercedCube 4 (by rw [s4]; linarith)
  rw [meanRatio_eq_sum, t0, t1, t3, t4, one 2 s2 m2, one 5 s5 m5, one 6 s6 m6, one 7 s7 m7]
  norm_num

end PiercedCube

theorem vsmall_real_lt_half : (1 / 10 ^ 300 : ℝ) < 1 / 2 := by
  rw [div_lt_div_iff₀ (by positivity) (by norm_num), one_mul, one_mul]
  calc (2 : ℝ) < 10 ^ 1 := by norm_num
    _ ≤ 10 ^ 300 := pow_le_pow_right₀ (by norm_num) (by norm_num)

/-- Counterexample to C15 as stated: with `VSMALL = 1e-300` and the real power
the quality of the unit cube with vertex 0 moved to `(2, 2, 2)` is `1/2`, which
is not at most `VSMALL`. -/
theorem meanRatio_piercedCube_counterexample :
    meanRatio (ScalarOps.mk (1 / 10 ^ 300) Real.sqrt (fun x y => x ^ y))
        (piercedCube : HexPoints ℝ) = 1 / 2 ∧
    ¬ meanRatio (ScalarOps.mk (1 / 10 ^ 300) Real.sqrt (fun x y => x ^ y))
        (piercedCube : HexPoints ℝ) ≤ 1 / 10 ^ 300 := by
  have h := meanRatio_piercedCube_aux
    (ScalarOps.mk (1 / 10 ^ 300) Real.sqrt (fun x y => x ^ y) : ScalarOps ℝ)
    exact_real.vsmall_pos.le exact_real.vsmall_lt_one (Real.one_rpow _)
  refine ⟨h, ?_⟩
  rw [h, not_le]
  exact vsmall_real_lt_half

/-- C15, amended: for the unit cube with vertex 0 moved to `(2, 2, 2)`,
`meanRatio` reports exactly `1/2`, above `VSMALL`, whenever
`0 <= VSMALL < 1/2` and `pow(1, 2/3) = 1`: the four corners away from vertex 0
still add 1 each, so the cell is not flagged invalid. -/
theorem meanRatio_piercedCube {K : Type} [LinearOrderedField K] (ops : ScalarOps K)
    (hv0 : 0 ≤ ops.VSMALL) (hv1 : ops.VSMALL < 1 / 2) (hp : ops.pow 1 (2 / 3) = 1) :
    meanRatio ops piercedCube = 1 / 2 ∧ ¬ meanRatio ops piercedCube < ops.VSMALL ∧
      ¬ meanRatio ops piercedCube ≤ ops.VSMALL := by
  have h := meanRatio_piercedCube_aux ops hv0 (by linarith) hp
  rw [h]
  exact ⟨rfl, not_lt.mpr hv1.le, not_le.mpr hv1⟩

/-- Witness for C15, amended: `VSMALL = 1e-300` and the real power. -/
theorem meanRatio_piercedCube_witness :
    meanRatio (ScalarOps.mk (1 / 10 ^ 300) Real.sqrt (fun x y => x ^ y))
        (piercedCube : HexPoints ℝ) = 1 / 2 ∧
    ¬ meanRatio (ScalarOps.mk (1 / 10 ^ 300) Real.sqrt (fun x y => x ^ y))
        (piercedCube : HexPoints ℝ) < 1 / 10 ^ 300 ∧
    ¬ meanRatio (ScalarOps.mk (1 / 10 ^ 300) Real.sqrt (fun x y => x ^ y))
        (piercedCube : HexPoints ℝ) ≤ 1 / 10 ^ 300 :=
  meanRatio_piercedCube _ exact_real.vsmall_pos.le
    vsmall_real_lt_half (Real.one_rpow _)

/-! ## Claims on the rescale step -/

/-- At `c_or = -sqrt(sqrt 3)/3` the unscaled transform of a properly oriented
cube collapses to its centre, so its mean signed edge vector has magnitude 0
while every octahedron normal is non-zero. -/
theorem mag_meanEdge_threshold (ops : ScalarOps ℝ) (hops : ops.Exact) (ctr : Point ℝ) (h : ℝ)
    (hh : 0 < h) :
    (meanEdge (newPoints ops (boxAbout ctr h) (-(Real.sqrt (Real.sqrt 3) / 3)))).mag ops = 0 := by
  have h3 := sqrt_sqrt_three_pos
  have e : h / 3 + -(Real.sqrt (Real.sqrt 3) / 3) * |h| / Real.sqrt (Real.sqrt 3) = 0 := by
    rw [abs_of_pos hh]
    field_simp
    ring
  rw [newPoints_exact ops hops ctr h _ hh.ne.symm, e, meanEdge_boxAbout, mag_vertical ops hops]
  simp

/-- Counterexample to C14 as stated: in exact real arithmetic the unscaled
transform of the unit cube with `c_or = -sqrt(sqrt 3)/3` has a mean signed edge
vector of magnitude 0, and the call with relaxation `1/2` does not return the
unit cube: it divides by zero. -/
theorem geometricTransformation_unguarded_counterexample :
    (meanEdge (newPoints (ScalarOps.mk (1 / 10 ^ 300) Real.sqrt (fun x y => x ^ y))
        (unitCube : HexPoints ℝ) (-(Real.sqrt (Real.sqrt 3) / 3)))).mag
      (ScalarOps.mk (1 / 10 ^ 300) Real.sqrt (fun x y => x ^ y)) = 0 ∧
    geometricTransformation (ScalarOps.mk (1 / 10 ^ 300) Real.sqrt (fun x y => x ^ y))
        (unitCube : HexPoints ℝ) (-(Real.sqrt (Real.sqrt 3) / 3)) (1 / 2) ≠ some unitCube := by
  have hm := mag_meanEdge_threshold _ exact_real ⟨1 / 2, 1 / 2, 1 / 2⟩ (1 / 2) (by norm_num)
  rw [← unitCube_eq_boxAbout] at hm
  refine ⟨hm, ?_⟩
  rw [geometricTransformation_of_not_defined _ _ _ _ fun hd => hd.2 hm]
  exact fun hEq => Option.noConfusion hEq

/-- C14, amended: the transform has no guard against a zero mean-edge
magnitude.  For every `H`, `c_or` and `alpha` such that the mean signed edge
vector of the unscaled transform has magnitude 0, the call divides by it: the
embedding returns `none` (no finite hex), in particular it does not return
`H`. -/
theorem geometricTransformation_unguarded {K : Type} [LinearOrderedField K]
    (ops : ScalarOps K) (H : HexPoints K) (cor relaxFact : K)
    (h : (meanEdge (newPoints ops H cor)).mag ops = 0) :
    geometricTransformation ops H cor relaxFact = none ∧
      geometricTransformation ops H cor relaxFact ≠ some H := by
  have hnone := geometricTransformation_of_not_defined ops H cor relaxFact fun hd => hd.2 h
  rw [hnone]
  exact ⟨rfl, fun hEq => Option.noConfusion hEq⟩

/-- Witness for C14, amended: the cube of side 2 about the origin with
`c_or = -sqrt(sqrt 3)/3`. -/
theorem geometricTransformation_unguarded_witness :
    (meanEdge (newPoints (ScalarOps.mk (1 / 10 ^ 300) Real.sqrt (fun x y => x ^ y))
        (boxAbout (0 : Point ℝ) 1) (-(Real.sqrt (Real.sqrt 3) / 3)))).mag
      (ScalarOps.mk (1 / 10 ^ 300) Real.sqrt (fun x y => x ^ y)) = 0 ∧
    geometricTransformation (ScalarOps.mk (1 / 10 ^ 300) Real.sqrt (fun x y => x ^ y))
        (boxAbout (0 : Point ℝ) 1) (-(Real.sqrt (Real.sqrt 3) / 3)) 1 = none ∧
    geometricTransformation (ScalarOps.mk (1 / 10 ^ 300) Real.sqrt (fun x y => x ^ y))
        (boxAbout (0 : Point ℝ) 1) (-(Real.sqrt (Real.sqrt 3) / 3)) 1
      ≠ some (boxAbout (0 : Point ℝ) 1) :=
  ⟨mag_meanEdge_threshold _ exact_real 0 1 one_pos,
    geometricTransformation_unguarded _ _ _ 1
      (mag_meanEdge_threshold _ exact_real 0 1 one_pos)⟩

/-- The mean signed edge vector of the output with relaxation 1 is the one of
the unscaled transform times the scaling factor. -/
theorem meanEdge_rescaled {K : Type} [LinearOrderedField K] (H X : HexPoints K)
    (c : Point K) (s : K) :
    meanEdge (fun ptI => Point.smul (1 - 1) (H ptI)
        + Point.smul 1 (c + Point.smul s (X ptI - c)))
      = Point.smul s (meanEdge X) := by
  unfold meanEdge
  rw [finRange_twelve]
  ext <;> simp [List.foldl] <;> ring

theorem mag_smul_exact (ops : ScalarOps ℝ) (hops : ops.Exact) (s : ℝ) (a : Point ℝ) :
    (Point.smul s a).mag ops = |s| * a.mag ops := by
  rw [mag_exact ops hops, mag_exact ops hops, ← Real.sqrt_mul_self_eq_abs,
    ← Real.sqrt_mul (mul_self_nonneg s)]
  congr 1
  simp [Point.magSqr]
  ring

theorem mag_nonneg_exact (ops : ScalarOps ℝ) (hops : ops.Exact) (a : Point ℝ) :
    0 ≤ a.mag ops := by
  rw [mag_exact ops hops]
  exact Real.sqrt_nonneg _

/-- C20: in exact real arithmetic, for every `H` and `c_or` for which the
unscaled transform is finite and its mean signed edge vector is non-zero, the
call with `relaxFact = 1` returns a hex whose mean signed edge vector over the
twelve canonical edges has the same magnitude as the one of `H`. -/
theorem geometricTransformation_keeps_meanEdge (ops : ScalarOps ℝ) (hops : ops.Exact)
    (H : HexPoints ℝ) (cor : ℝ) (h : TransformDefined ops H cor) :
    ∃ Hs, geometricTransformation ops H cor 1 = some Hs ∧
      (meanEdge Hs).mag ops = (meanEdge H).mag ops := by
  refine ⟨_, geometricTransformation_of_defined ops H cor 1 h, ?_⟩
  unfold scaledPoints
  rw [meanEdge_rescaled, mag_smul_exact ops hops,
    abs_of_nonneg (div_nonneg (mag_nonneg_exact ops hops _) (mag_nonneg_exact ops hops _)),
    div_mul_cancel₀ _ h.2]

/-- Witness for C20: the unit cube with `c_or = 1`. -/
theorem geometricTransformation_keeps_meanEdge_witness :
    ∃ Hs, geometricTransformation (ScalarOps.mk (1 / 10 ^ 300) Real.sqrt (fun x y => x ^ y))
        (boxAbout ⟨1 / 2, 1 / 2, 1 / 2⟩ (1 / 2)) 1 1 = some Hs ∧
      (meanEdge Hs).mag (ScalarOps.mk (1 / 10 ^ 300) Real.sqrt (fun x y => x ^ y))
        = (meanEdge (boxAbout (⟨1 / 2, 1 / 2, 1 / 2⟩ : Point ℝ) (1 / 2))).mag
            (ScalarOps.mk (1 / 10 ^ 300) Real.sqrt (fun x y => x ^ y)) :=
  geometricTransformation_keeps_meanEdge _ exact_real _ 1
    (transformDefined_boxAbout _ exact_real _ (1 / 2) 1 (by norm_num)
      (by have := sqrt_sqrt_three_pos; positivity))

/-! ## A sequential step makes no valid cell invalid -/

section ImpactLemmas

variable {K : Type} [LinearOrderedField K]

theorem foldl_linkCellSet_mono (cell : Cell) (cellI : Nat) (ls : List (Fin 8))
    (pc : Nat → Finset Nat) (p c : Nat) (h : c ∈ pc p) :
    c ∈ (ls.foldl
      (fun pc ptI => Function.update pc (cell ptI) (insert cellI (pc (cell ptI)))) pc) p := by
  induction ls generalizing pc with
  | nil => exact h
  | cons a ls ih =>
    rw [List.foldl_cons]
    apply ih
    by_cases hp : p = cell a
    · subst hp
      rw [Function.update_same]
      exact Finset.mem_insert_of_mem h
    · rw [Function.update_noteq hp]
      exact h

theorem foldl_linkCellSet_self (cell : Cell) (cellI : Nat) (ls : List (Fin 8))
    (pc : Nat → Finset Nat) (i : Fin 8) (hi : i ∈ ls) :
    cellI ∈ (ls.foldl
      (fun pc ptI => Function.update pc (cell ptI) (insert cellI (pc (cell ptI)))) pc)
        (cell i) := by
  induction ls generalizing pc with
  | nil => exact absurd hi (List.not_mem_nil _)
  | cons a ls ih =>
    rw [List.foldl_cons]
    rcases List.mem_cons.mp hi with h1 | h1
    · apply foldl_linkCellSet_mono
      rw [h1, Function.update_same]
      exact Finset.mem_insert_self _ _
    · exact ih _ h1

theorem foldl_enumFrom_linkCellSet_mono (cells : List Cell) (k : Nat) (pc : Nat → Finset Nat)
    (p c : Nat) (h : c ∈ pc p) :
    c ∈ ((cells.enumFrom k).foldl (fun pc ic => linkCellSet pc ic.1 ic.2) pc) p := by
  induction cells generalizing k pc with
  | nil => exact h
  | cons a cells ih =>
    rw [List.enumFrom_cons, List.foldl_cons]
    exact ih _ _ (foldl_linkCellSet_mono a k _ pc p c h)

theorem foldl_enumFrom_linkCellSet_self (cells : List Cell) (k : Nat) (pc : Nat → Finset Nat)
    (j : Nat) (hj : j < cells.length) (i : Fin 8) :
    k + j ∈ ((cells.enumFrom k).foldl (fun pc ic => linkCellSet pc ic.1 ic.2) pc)
      ((cells.getD j default) i) := by
  induction cells generalizing k pc j with
  | nil => exact absurd hj (Nat.not_lt_zero _)
  | cons a cells ih =>
    rw [List.enumFrom_cons, List.foldl_cons]
    cases j with
    | zero =>
      apply foldl_enumFrom_linkCellSet_mono
      exact foldl_linkCellSet_self a k _ pc i (List.mem_finRange i)
    | succ j =>
      have h := ih (k + 1) (linkCellSet pc k a) j (Nat.lt_of_succ_lt_succ hj)
      rw [show k + (j + 1) = k + 1 + j by omega]
      exact h

/-- Every cell of the mesh is in the set `pc` of each of its points. -/
theorem mem_buildPc (cells : List Cell) (c : Nat) (hc : c < cells.length) (i : Fin 8) :
    c ∈ buildPc cells ((cells.getD c default) i) := by
  have h := foldl_enumFrom_linkCellSet_self cells 0 (fun _ => ∅) c hc i
  rw [Nat.zero_add] at h
  exact h

theorem foldl_union_mono (pc : Nat → Finset Nat) (l : Cell) (ls : List (Fin 8))
    (I : Finset Nat) (c : Nat) (h : c ∈ I) : c ∈ ls.foldl (fun I i => I ∪ pc (l i)) I := by
  induction ls generalizing I with
  | nil => exact h
  | cons a ls ih =>
    rw [List.foldl_cons]
    exact ih _ (Finset.mem_union_left _ h)

theorem foldl_union_mem (pc : Nat → Finset Nat) (l : Cell) (ls : List (Fin 8))
    (I : Finset Nat) (c : Nat) (i : Fin 8) (hi : i ∈ ls) (h : c ∈ pc (l i)) :
    c ∈ ls.foldl (fun I i => I ∪ pc (l i)) I := by
  induction ls generalizing I with
  | nil => exact absurd hi (List.not_mem_nil _)
  | cons a ls ih =>
    rw [List.foldl_cons]
    rcases List.mem_cons.mp hi with h1 | h1
    · apply foldl_union_mono
      rw [← h1]
      exact Finset.mem_union_right _ h
    · exact ih _ h1

/-- A cell of the mesh that has a point of the target is an impacted cell. -/
theorem mem_impactedCell (ops : ScalarOps K) (prm : SeqParams K) (mesh : BlockMesh)
    (s : SeqState K) (t : SeqTrial K) (h : seqTrial ops prm mesh s = some t) (c : Nat)
    (hc : c < mesh.cells.length) (i j : Fin 8)
    (hij : (mesh.cells.getD c default) i = (mesh.cells.getD s.cellNb default) j) :
    c ∈ t.impactedCell := by
  obtain ⟨Hp, -, -, -, -, hI, -, -⟩ := seqTrial_fields ops prm mesh s t h
  rw [hI, movePoints_snd]
  apply foldl_union_mem _ _ _ _ _ j (List.mem_finRange j)
  rw [← hij]
  exact mem_buildPc mesh.cells c hc i

/-- The target of a sequential step is an impacted cell when it is a cell of
the mesh. -/
theorem target_mem_impactedCell (ops : ScalarOps K) (prm : SeqParams K) (mesh : BlockMesh)
    (s : SeqState K) (t : SeqTrial K) (h : seqTrial ops prm mesh s = some t)
    (hc : s.cellNb < mesh.cells.length) : s.cellNb ∈ t.impactedCell :=
  mem_impactedCell ops prm mesh s t h s.cellNb hc 0 0 rfl

end ImpactLemmas

section RefreshLemmas

variable {K : Type} [LinearOrderedField K]

theorem foldl_eval_nQual_eq (ops : ScalarOps K) (cells : List Cell) (points : List (Point K))
    (cellNb : Nat) (ls : List Nat) (acc : K × Option K)
    (h : cellNb ∈ ls ∨
      acc.2 = some (meanRatio ops (pointsData (cells.getD cellNb default) points))) :
    (ls.foldl
      (fun acc c =>
        let cQual := meanRatio ops (pointsData (cells.getD c default) points)
        (if cQual < acc.1 then cQual else acc.1, if c = cellNb then some cQual else acc.2))
      acc).2 = some (meanRatio ops (pointsData (cells.getD cellNb default) points)) := by
  induction ls generalizing acc with
  | nil =>
    rcases h with h | h
    · exact absurd h (List.not_mem_nil _)
    · exact h
  | cons a ls ih =>
    rw [List.foldl_cons]
    apply ih
    by_cases ha : a = cellNb
    · exact Or.inr ((if_pos ha).trans (by rw [ha]))
    · rcases h with h | h
      · rcases List.mem_cons.mp h with h1 | h1
        · exact absurd h1.symm ha
        · exact Or.inl h1
      · exact Or.inr ((if_neg ha).trans h)

/-- The value `nQual` is the quality of the target at the trial points. -/
theorem nQual_eq (ops : ScalarOps K) (prm : SeqParams K) (mesh : BlockMesh)
    (s : SeqState K) (t : SeqTrial K) (h : seqTrial ops prm mesh s = some t)
    (hc : s.cellNb < mesh.cells.length) :
    t.nQual = some (meanRatio ops (pointsData (mesh.cells.getD s.cellNb default) t.points)) := by
  obtain ⟨Hp, -, -, -, -, -, -, hq⟩ := seqTrial_fields ops prm mesh s t h
  rw [hq]
  exact foldl_eval_nQual_eq ops mesh.cells t.points s.cellNb _ _
    (Or.inl ((Finset.mem_sort (· ≤ ·)).mpr (target_mem_impactedCell ops prm mesh s t h hc)))

/-- The state after the end of a step has as target the cell of the first
entry of `qualityMap`. -/
theorem seqFinish_head (prm : SeqParams K) (s s1 : SeqState K) (points : List (Point K))
    (qm : QualityMap K) (cm : CellMap K) (h : seqFinish prm s points qm cm = .ok s1) :
    ∃ e rest, qm = e :: rest ∧ s1.cellNb = e.2 ∧ s1.oldMinQual = e.1 + prm.seqMinCh ∧
      s1.noEffStep = (if e.1 ≥ s.oldMinQual then 0 else s.noEffStep + 1) ∧
      s1.nbIterations = s.nbIterations + 1 ∧ s1.previous = s.cellNb := by
  unfold seqFinish at h
  cases qm with
  | nil => exact absurd h (by simp)
  | cons e rest =>
    simp only [Except.ok.injEq] at h
    subst h
    exact ⟨e, rest, rfl, rfl, rfl, rfl, rfl, rfl⟩

end RefreshLemmas

/-- The first half of a sequential step on the one-cube mesh in exact real
arithmetic: the cube stays where it is, the only impacted cell is the cube, and
its quality is 1. -/
theorem seqTrial_cubeState (ops : ScalarOps ℝ) (hops : ops.Exact) :
    seqTrial ops ⟨1, 1 / 4, 1 / 10, 3 / 10, 2 / 10, 1 / 100⟩ cubeMesh cubeState
      = some ⟨idCell, unitCube, cubePoints, {0}, 1, some 1⟩ := by
  have h3 := sqrt_sqrt_three_pos
  have hq1 : meanRatio ops unitCube = 1 :=
    meanRatio_unitCube_eq_one ops hops.vsmall_lt_one
      (by rw [hops.pow_eq _ _ one_pos]; exact Real.one_rpow _)
  have hg : geometricTransformation ops
      (pointsData (cubeMesh.cells.getD (cubeState : SeqState ℝ).cellNb default)
        (cubeState : SeqState ℝ).points) 1 (1 / 4) = some unitCube := by
    show geometricTransformation ops (pointsData idCell cubePoints) 1 (1 / 4) = _
    rw [pointsData_cubePoints, unitCube_eq_boxAbout]
    exact geometricTransformation_boxAbout_fixed ops hops _ _ _ _ (by norm_num) (by positivity)
  obtain ⟨t, ht⟩ : ∃ t, seqTrial ops ⟨1, 1 / 4, 1 / 10, 3 / 10, 2 / 10, 1 / 100⟩ cubeMesh
      cubeState = some t := by
    unfold seqTrial
    simp only [hg]
    exact ⟨_, rfl⟩
  obtain ⟨Hp, e0, e1, e2, e3, e4, e5, e6⟩ := seqTrial_fields ops _ cubeMesh cubeState t ht
  rw [hg, Option.some.injEq] at e0
  subst e0
  have hc : cubeMesh.cells.getD (cubeState : SeqState ℝ).cellNb default = idCell := rfl
  have hp : (cubeState : SeqState ℝ).points = cubePoints := rfl
  have hI : (movePoints (buildPc cubeMesh.cells) idCell (unitCube : HexPoints ℝ) cubePoints).2
      = {0} := by
    rw [movePoints_snd]
    decide
  have hM : (movePoints (buildPc cubeMesh.cells) idCell (unitCube : HexPoints ℝ) cubePoints).1
      = cubePoints := by
    rw [movePoints_fst]
    rfl
  rw [hc] at e1 e2 e3 e4
  rw [hp] at e2 e3 e4
  rw [hM] at e3
  rw [hI] at e4
  have hev : evalImpacted ops cubeMesh.cells cubePoints 0 {0} = (1, some 1) := by
    have hc0 : cubeMesh.cells.getD 0 default = idCell := rfl
    simp only [evalImpacted, Finset.sort_singleton, List.foldl_cons, List.foldl_nil, hc0,
      pointsData_cubePoints, hq1, lt_irrefl, if_false, if_true]
  rw [e3, e4] at e5 e6
  have hn : (cubeState : SeqState ℝ).cellNb = 0 := rfl
  rw [hn, hev] at e5 e6
  rw [ht]
  cases t
  simp only at e1 e2 e3 e4 e5 e6
  rw [e1, e2, e3, e4, e5, e6, pointsData_cubePoints]

theorem cubeState_consistent {K : Type} [LinearOrderedField K] :
    KeysSorted (cubeState : SeqState K).qualityMap ∧
    PriorityConsistent cubeMesh.cells.length (cubeState : SeqState K).qualityMap
      (cubeState : SeqState K).cellMap := by
  refine ⟨List.pairwise_singleton _ _, fun c hc => ?_⟩
  have h0 : c = 0 := Nat.lt_one_iff.mp hc
  subst h0
  exact ⟨1, rfl, rfl⟩

theorem threeCellState_consistent {K : Type} [LinearOrderedField K] :
    KeysSorted (threeCellState : SeqState K).qualityMap ∧
    PriorityConsistent 3 (threeCellState : SeqState K).qualityMap
      (threeCellState : SeqState K).cellMap := by
  constructor
  · simp only [KeysSorted, threeCellState, List.pairwise_cons, List.mem_cons, List.mem_singleton,
      List.not_mem_nil, forall_eq_or_imp, forall_eq, List.Pairwise.nil, IsEmpty.forall_iff,
      implies_true, and_true]
    norm_num
  · intro c hc
    interval_cases c
    · exact ⟨2 / 10, rfl, rfl⟩
    · exact ⟨5 / 10, rfl, rfl⟩
    · exact ⟨8 / 10, rfl, rfl⟩

theorem my_equal_range_cubeState {K : Type} [LinearOrderedField K] (v : K) (hv : 0 ≤ v) :
    my_equal_range (cubeState : SeqState K).qualityMap 1 v = (0, 1) := by
  have hn : ¬ (1 : K) < 1 - v := not_lt.mpr (by linarith)
  have hle : (1 : K) ≤ 1 + v := by linarith
  simp [my_equal_range, lowerBound, upperBound, cubeState, List.takeWhile, hn, hle]

/-- From a state with ascending keys and consistent structures whose target is
a cell of the mesh, an accepted pass does not end: the refresh of its first
impacted cell runs into the increment of the erased iterator. -/
theorem seqStep_accepted_undefined {K : Type} [LinearOrderedField K] (ops : ScalarOps K)
    (hv : 0 ≤ ops.VSMALL) (prm : SeqParams K) (mesh : BlockMesh) (s : SeqState K)
    (t : SeqTrial K) (hs : KeysSorted s.qualityMap)
    (hcons : PriorityConsistent mesh.cells.length s.qualityMap s.cellMap)
    (hcell : s.cellNb < mesh.cells.length) (ht : seqTrial ops prm mesh s = some t)
    (hacc : ¬ t.lowerQual < ops.VSMALL) :
    seqStep ops prm mesh s = .error .undefinedBehaviour := by
  have htm : s.cellNb ∈ t.impactedCell.sort (· ≤ ·) :=
    (Finset.mem_sort (· ≤ ·)).mpr (target_mem_impactedCell ops prm mesh s t ht hcell)
  unfold seqStep
  simp only [ht]
  rw [if_neg hacc]
  cases hl : t.impactedCell.sort (· ≤ ·) with
  | nil =>
    rw [hl] at htm
    exact absurd htm (List.not_mem_nil _)
  | cons a ls =>
    have ha : a < mesh.cells.length :=
      impactedCell_lt ops prm mesh s t ht a
        ((Finset.mem_sort (· ≤ ·)).mp (hl ▸ List.mem_cons_self a ls))
    rw [foldlM_refreshCell_undefined ops hv _ _ _ _ a ls ha (s.qualityMap, s.cellMap) hs hcons]

/-- C10 does not hold on the one-cube mesh with the points of the unit cube
(`seqTransform = 1`, `seqRelax = 1/4`, `deltaPiS = 2/10`), in exact real
arithmetic.  The structures built on entry are consistent and the first pass
is accepted; the refresh of the target then finds its entry in the branch
`Case multiple cells found`, erases it inside the `for` loop and increments the
erased iterator.  The pass runs into undefined behaviour, after which nothing
is guaranteed of `qualityMap` and `cellMap`. -/
theorem seqStep_cube_undefined :
    seqInit (ScalarOps.mk (1 / 10 ^ 300) Real.sqrt (fun x y => x ^ y)) cubeMesh
        (cubePoints : List (Point ℝ)) = .ok cubeState ∧
    PriorityConsistent cubeMesh.cells.length (cubeState : SeqState ℝ).qualityMap
      (cubeState : SeqState ℝ).cellMap ∧
    seqTrial (ScalarOps.mk (1 / 10 ^ 300) Real.sqrt (fun x y => x ^ y))
        ⟨1, 1 / 4, 1 / 10, 3 / 10, 2 / 10, 1 / 100⟩ cubeMesh cubeState
      = some ⟨idCell, unitCube, cubePoints, {0}, 1, some 1⟩ ∧
    ¬ ((1 : ℝ) < 1 / 10 ^ 300) ∧
    seqStep (ScalarOps.mk (1 / 10 ^ 300) Real.sqrt (fun x y => x ^ y))
        ⟨1, 1 / 4, 1 / 10, 3 / 10, 2 / 10, 1 / 100⟩ cubeMesh cubeState
      = .error .undefinedBehaviour :=
  ⟨seqInit_cubeState _ exact_real.vsmall_lt_one (Real.one_rpow _), cubeState_consistent.2,
    seqTrial_cubeState _ exact_real, not_lt.mpr exact_real.vsmall_lt_one.le,
    seqStep_accepted_undefined _ exact_real.vsmall_pos.le _ cubeMesh cubeState _
      cubeState_consistent.1 cubeState_consistent.2 Nat.one_pos
      (seqTrial_cubeState _ exact_real) (not_lt.mpr exact_real.vsmall_lt_one.le)⟩

/-- C16 does not hold of the code: the refresh of the target of an accepted
pass is undefined.  On the one-cube mesh with the points of the unit cube, in
exact real arithmetic, the key range of the target is `[first, second) =
[0, 1)`, the scan finds the entry of the target at position 0, and the refresh
stops with the increment of the erased iterator instead of ending with the key
`nQual + deltaPiS`; the same happens to the refresh of the first cell in the
claim's example with the keys 2/10, 5/10, 8/10, lifted to 7/10 with
`deltaPiS = 2/10`. -/
theorem refreshCell_target_undefined :
    my_equal_range (cubeState : SeqState ℝ).qualityMap 1 (1 / 10 ^ 300) = (0, 1) ∧
    scanRange (cubeState : SeqState ℝ).qualityMap 0 0 1 = some 0 ∧
    refreshCell (ScalarOps.mk (1 / 10 ^ 300) Real.sqrt (fun x y => x ^ y)) 0 (some 1) (2 / 10)
        ((cubeState : SeqState ℝ).qualityMap, (cubeState : SeqState ℝ).cellMap) 0
      = .error .undefinedBehaviour ∧
    refreshCell (ScalarOps.mk (1 / 10 ^ 300) Real.sqrt (fun x y => x ^ y)) 0 (some (7 / 10))
        (2 / 10)
        ((threeCellState : SeqState ℝ).qualityMap, (threeCellState : SeqState ℝ).cellMap) 0
      = .error .undefinedBehaviour := by
  have hv := exact_real.vsmall_pos
  refine ⟨my_equal_range_cubeState _ hv.le, ?_, ?_, ?_⟩
  · simp [scanRange, cubeState, List.range_succ]
  · exact refreshCell_undefined _ hv.le 0 _ _ cubeMesh.cells.length _ 0 Nat.one_pos
      cubeState_consistent.1 cubeState_consistent.2
  · exact refreshCell_undefined _ hv.le 0 _ _ 3 _ 0 (by norm_num)
      threeCellState_consistent.1 threeCellState_consistent.2

theorem revertPoints_self {K : Type} [LinearOrderedField K] (pOld : List (Point K))
    (R : Finset Nat) : revertPoints pOld R pOld = pOld := by
  apply List.ext_getElem?
  intro j
  rw [revertPoints_getElem?]
  by_cases hj : j ∈ R ∧ j < pOld.length
  · rw [if_pos hj, List.getD_eq_getElem?_getD, List.getElem?_eq_getElem hj.2]
    rfl
  · rw [if_neg hj]

/-- When the points of the cells that are invalid at the old positions are
more than `nbInvalidCells`, the revert loop started at the old positions never
ends: each round writes the old positions again and finds the same set. -/
theorem revertLoop_stuck {K : Type} [LinearOrderedField K] (ops : ScalarOps K)
    (cp : List Cell) (cq : List K) (pOld : List (Point K)) (nbInvalidCells : Nat)
    (h : (pointsToRevert ops pOld cp cq).card > nbInvalidCells) (fuel : Nat) :
    revertLoop ops cp cq pOld nbInvalidCells fuel pOld = .error .outOfFuel := by
  induction fuel with
  | zero =>
    unfold revertLoop
    rw [if_pos h]
  | succ fuel ih =>
    unfold revertLoop
    rw [if_pos h, revertPoints_self]
    exact ih

theorem revertLoop_succ {K : Type} [LinearOrderedField K] (ops : ScalarOps K)
    (cp : List Cell) (cq : List K) (pOld : List (Point K)) (nbInvalidCells fuel : Nat)
    (pts : List (Point K)) (h : (pointsToRevert ops pts cp cq).card > nbInvalidCells) :
    revertLoop ops cp cq pOld nbInvalidCells (fuel + 1) pts
      = revertLoop ops cp cq pOld nbInvalidCells fuel
          (revertPoints pOld (pointsToRevert ops pts cp cq) pts) := by
  rw [revertLoop, if_pos h]

theorem mobilPoints_fixedCubeMesh : mobilPoints 8 fixedCubeMesh.patches = ∅ := by
  decide

/-- The per-cell loop on the one-cell mesh with the inverted unit cube, with
`qMin = 1/10`, `qMax = 1` and relaxation `1/4`: the cell has quality 0 and is
counted as invalid. -/
theorem cellSweep_inverted (ops : ScalarOps ℝ) (hops : ops.Exact) (pointAvg : ℝ) :
    cellSweep ops ⟨1 / 10, 1, 1 / 4, pointAvg⟩ [idCell] invertedPoints
      = .ok ⟨[0], 0, 0 + 0, 0 + 1,
          storeTransformed (fun _ => []) idCell (boxAbout ⟨1 / 2, 1 / 2, 1 / 2⟩ (-(1 / 4)))⟩ := by
  have hq0 : meanRatio ops (boxAbout (⟨1 / 2, 1 / 2, 1 / 2⟩ : Point ℝ) (-(1 / 2))) = 0 :=
    meanRatio_boxAbout_of_nonpos ops hops.vsmall_pos.le _ _ (by norm_num)
  have hcor : (1 / 10 : ℝ) + (1 - 1 / 10) * (1 - 0) = 1 := by norm_num
  simp only [cellSweep, List.enum, List.enumFrom, List.foldlM_cons, List.foldlM_nil,
    cellSweepStep, pointsData_invertedPoints, hq0, hcor,
    geometricTransformation_inverted ops hops, bind, Except.bind, pure, Except.pure,
    List.length_singleton, List.replicate, List.set, if_pos hops.vsmall_pos,
    if_pos (zero_lt_one : (0 : ℝ) < 1)]

/-- All eight points of the inverted cube are points of an invalid cell. -/
theorem pointsToRevert_inverted {K : Type} [LinearOrderedField K] (ops : ScalarOps K)
    (hv : 0 < ops.VSMALL) :
    pointsToRevert ops (invertedPoints : List (Point K)) [idCell] [0] = Finset.range 8 := by
  ext j
  rw [mem_pointsToRevert, Finset.mem_range]
  constructor
  · rintro ⟨cellI, -, -, pointI, hp⟩
    have h0 : [idCell].getD cellI default pointI < 8 := by
      cases cellI with
      | zero => exact pointI.isLt
      | succ n => exact Nat.zero_lt_succ 7
    rw [← hp]
    exact h0
  · intro hj
    refine ⟨0, Nat.one_pos, ?_, ⟨j, hj⟩, rfl⟩
    show meanRatio ops (pointsData idCell invertedPoints) < ops.VSMALL
    rw [pointsData_invertedPoints, meanRatio_boxAbout_of_nonpos ops hv.le _ _ (by norm_num)]
    exact hv

/-- A simultaneous iteration on the one-cell mesh whose points are all on
patches and whose cell is inverted: no point moves, and the revert loop is
entered with eight points against one invalid cell and never left. -/
theorem simultaneousIteration_inverted (ops : ScalarOps ℝ) (hops : ops.Exact) (pointAvg : ℝ)
    (fuel : Nat) :
    simultaneousIteration ops ⟨1 / 10, 1, 1 / 4, pointAvg⟩ fixedCubeMesh fuel invertedPoints
      = .error .outOfFuel := by
  have hlen : (invertedPoints : List (Point ℝ)).length = 8 := rfl
  have hcells : fixedCubeMesh.cells = [idCell] := rfl
  have hup : ∀ sw : CellSweep ℝ, updateMobile ops pointAvg (buildPl [idCell]) sw ∅
      (invertedPoints : List (Point ℝ)) = .ok invertedPoints := by
    intro sw
    simp only [updateMobile, Finset.sort_empty, List.foldlM_nil, pure, Except.pure]
  simp only [simultaneousIteration, hcells, cellSweep_inverted ops hops, hlen,
    mobilPoints_fixedCubeMesh, hup]
  apply revertLoop_stuck
  rw [pointsToRevert_inverted ops hops.vsmall_pos]
  decide

/-- C12 does not hold on the one-cell mesh `fixedCubeMesh` with the points of
the inverted unit cube, `qMin = 1/10`, `qMax = 1`, relaxation `1/4`,
`pointAvg = 1` and `maxSimultaneousIter = 1`, in exact real arithmetic:
whatever number of rounds the revert loop is allowed, the first iteration does
not end, and so the simultaneous smoother does not end. -/
theorem simultaneousSmoothing_never_ends :
    ∀ fuel : Nat,
      simultaneousIteration (ScalarOps.mk (1 / 10 ^ 300) Real.sqrt (fun x y => x ^ y))
          ⟨1 / 10, 1, 1 / 4, 1⟩ fixedCubeMesh fuel invertedPoints = .error .outOfFuel ∧
      simultaneousSmoothing (ScalarOps.mk (1 / 10 ^ 300) Real.sqrt (fun x y => x ^ y))
          ⟨1 / 10, 1, 1 / 4, 1⟩ fixedCubeMesh fuel 1 invertedPoints = .error .outOfFuel := by
  intro fuel
  have h := simultaneousIteration_inverted _ exact_real 1 fuel
  refine ⟨h, ?_⟩
  unfold simultaneousSmoothing
  simp only [h]

/-- C18 does not hold on the one-cell mesh `fixedCubeMesh` with the points of
the inverted unit cube, in exact real arithmetic: one cell is invalid before
the update, the update moves no point and so creates no invalid cell, yet the
set of points to revert has eight elements, more than the one invalid cell,
the guard of the revert loop holds, and the loop body resets these eight
points. -/
theorem revertLoop_guard_without_new_invalid :
    ∃ sw, cellSweep (ScalarOps.mk (1 / 10 ^ 300) Real.sqrt (fun x y => x ^ y))
        ⟨1 / 10, 1, 1 / 4, 1⟩ fixedCubeMesh.cells invertedPoints = .ok sw ∧
      sw.nbInvalidCells = 1 ∧
      updateMobile (ScalarOps.mk (1 / 10 ^ 300) Real.sqrt (fun x y => x ^ y)) 1
        (buildPl fixedCubeMesh.cells) sw (mobilPoints 8 fixedCubeMesh.patches)
        (invertedPoints : List (Point ℝ)) = .ok invertedPoints ∧
      pointsToRevert (ScalarOps.mk (1 / 10 ^ 300) Real.sqrt (fun x y => x ^ y))
        (invertedPoints : List (Point ℝ)) fixedCubeMesh.cells sw.cq = Finset.range 8 ∧
      (pointsToRevert (ScalarOps.mk (1 / 10 ^ 300) Real.sqrt (fun x y => x ^ y))
        (invertedPoints : List (Point ℝ)) fixedCubeMesh.cells sw.cq).card > sw.nbInvalidCells ∧
      revertLoop (ScalarOps.mk (1 / 10 ^ 300) Real.sqrt (fun x y => x ^ y)) fixedCubeMesh.cells
          sw.cq invertedPoints sw.nbInvalidCells 1 invertedPoints
        = revertLoop (ScalarOps.mk (1 / 10 ^ 300) Real.sqrt (fun x y => x ^ y))
            fixedCubeMesh.cells sw.cq invertedPoints sw.nbInvalidCells 0
            (revertPoints invertedPoints (Finset.range 8) invertedPoints) := by
  have hR := pointsToRevert_inverted
    (ScalarOps.mk (1 / 10 ^ 300) Real.sqrt (fun x y => x ^ y) : ScalarOps ℝ)
    exact_real.vsmall_pos
  have hcard : (pointsToRevert
      (ScalarOps.mk (1 / 10 ^ 300) Real.sqrt (fun x y => x ^ y) : ScalarOps ℝ)
      (invertedPoints : List (Point ℝ)) [idCell] [0]).card > 0 + 1 := by
    rw [hR]
    decide
  refine ⟨_, cellSweep_inverted _ exact_real 1, rfl, ?_, hR, hcard, ?_⟩
  · rw [mobilPoints_fixedCubeMesh]
    simp only [updateMobile, Finset.sort_empty, List.foldlM_nil, pure, Except.pure]
  · show revertLoop _ [idCell] [0] invertedPoints (0 + 1) 1 invertedPoints = _
    rw [revertLoop_succ _ _ _ _ _ 0 _ hcard, hR]
    rfl

/-! ## The sequential loop on a target that stays invalid -/

section Stagnation

variable {K : Type} [LinearOrderedField K]

/-- The first half of a sequential step reads the point array and the target
only. -/
theorem seqTrial_congr (ops : ScalarOps K) (prm : SeqParams K) (mesh : BlockMesh)
    (s s1 : SeqState K) (hp : s1.points = s.points) (hc : s1.cellNb = s.cellNb) :
    seqTrial ops prm mesh s1 = seqTrial ops prm mesh s := by
  unfold seqTrial
  rw [hp, hc]

/-- A pass that takes the invalid branch from a state whose target is the
cell of the first entry `(k, c)` of `qualityMap`: the points, the containers
and the target are as before, so the next pass takes the invalid branch too;
`oldMinQual` becomes `k + seqMinCh`, and `noEffStep` is reset when
`k >= oldMinQual` and incremented otherwise. -/
theorem seqStep_invalid_next (ops : ScalarOps K) (prm : SeqParams K) (mesh : BlockMesh)
    (s : SeqState K) (k : K) (c : Nat) (rest : QualityMap K)
    (hq : s.qualityMap = (k, c) :: rest) (hc : s.cellNb = c)
    (hinv : TakesInvalidBranch ops prm mesh s) :
    ∃ s1, seqStep ops prm mesh s = .ok s1 ∧ s1.points = s.points ∧
      s1.qualityMap = s.qualityMap ∧ s1.cellMap = s.cellMap ∧ s1.cellNb = c ∧
      s1.oldMinQual = k + prm.seqMinCh ∧
      s1.noEffStep = (if k ≥ s.oldMinQual then 0 else s.noEffStep + 1) ∧
      s1.nbIterations = s.nbIterations + 1 ∧ TakesInvalidBranch ops prm mesh s1 := by
  obtain ⟨t, ht, hlow⟩ := hinv
  obtain ⟨Hp, -, hl, hH, hp, -, -, -⟩ := seqTrial_fields ops prm mesh s t ht
  have hrest : restorePoints t.ptLabels t.H t.points = s.points := by
    rw [hl, hH, hp]
    exact restorePoints_movePoints _ _ Hp s.points
  have hstep : seqStep ops prm mesh s
      = seqFinish prm s s.points s.qualityMap s.cellMap := by
    unfold seqStep
    simp only [ht]
    rw [if_pos hlow, hrest]
  obtain ⟨s1, hfin⟩ : ∃ s1, seqFinish prm s s.points s.qualityMap s.cellMap = .ok s1 := by
    rw [hq]
    exact ⟨_, rfl⟩
  obtain ⟨h1, h2, h3⟩ := seqFinish_fields prm s s1 _ _ _ hfin
  obtain ⟨e, rest1, he, g1, g2, g3, g4, -⟩ := seqFinish_head prm s s1 _ _ _ hfin
  rw [hq, List.cons.injEq] at he
  obtain ⟨he1, -⟩ := he
  subst he1
  refine ⟨s1, by rw [hstep, hfin], h1, h2, h3, g1, g2, g3, g4, t, ?_, hlow⟩
  rw [seqTrial_congr ops prm mesh s s1 h1 (by rw [g1, hc])]
  exact ht

/-- With `seqMinCh > 0`, once `oldMinQual` is above the first key and every
pass takes the invalid branch, the loop runs exactly `10 - noEffStep` more
passes: with that many it exits with `noEffStep = 10`, with fewer it does
not. -/
theorem seqLoop_countdown (ops : ScalarOps K) (prm : SeqParams K) (mesh : BlockMesh)
    (hch : 0 < prm.seqMinCh) (k : K) (c : Nat) (rest : QualityMap K) (m : Nat) (s : SeqState K)
    (hq : s.qualityMap = (k, c) :: rest) (hc : s.cellNb = c) (hold : k < s.oldMinQual)
    (hm : s.noEffStep + m = 10) (hinv : TakesInvalidBranch ops prm mesh s) :
    (∃ s1, seqLoop ops prm mesh m s = .ok s1 ∧ seqIterate ops prm mesh m s = .ok s1 ∧
      s1.noEffStep = 10 ∧ s1.nbIterations = s.nbIterations + m) ∧
    ∀ f, f < m → seqLoop ops prm mesh f s = .error .outOfFuel := by
  induction m generalizing s with
  | zero =>
    refine ⟨⟨s, ?_, rfl, by omega, rfl⟩, fun f hf => absurd hf (Nat.not_lt_zero f)⟩
    unfold seqLoop
    rw [if_neg (by omega)]
  | succ m ih =>
    obtain ⟨s1, hstep, -, h2, -, h4, h5, h6, h7, h8⟩ :=
      seqStep_invalid_next ops prm mesh s k c rest hq hc hinv
    rw [if_neg (not_le.mpr hold)] at h6
    have hlt : s.noEffStep < 10 := by omega
    obtain ⟨⟨s2, g1, g2, g3, g4⟩, g5⟩ := ih s1 (by rw [h2, hq]) h4
      (by rw [h5]; linarith) (by omega) h8
    refine ⟨⟨s2, ?_, ?_, g3, by omega⟩, fun f hf => ?_⟩
    · rw [seqLoop, if_pos hlt]
      simp only [hstep]
      exact g1
    · rw [seqIterate]
      simp only [hstep]
      exact g2
    · cases f with
      | zero =>
        unfold seqLoop
        rw [if_pos hlt]
      | succ f =>
        rw [seqLoop, if_pos hlt]
        simp only [hstep]
        exact g5 f (by omega)

/-- The state after `j` passes that all take the invalid branch, started with
`oldMinQual` above the first key: `noEffStep` has grown by `j`. -/
theorem seqIterate_invalid (ops : ScalarOps K) (prm : SeqParams K) (mesh : BlockMesh)
    (hch : 0 < prm.seqMinCh) (k : K) (c : Nat) (rest : QualityMap K) (j : Nat) (s : SeqState K)
    (hq : s.qualityMap = (k, c) :: rest) (hc : s.cellNb = c) (hold : k < s.oldMinQual)
    (hinv : TakesInvalidBranch ops prm mesh s) :
    ∃ s1, seqIterate ops prm mesh j s = .ok s1 ∧ s1.noEffStep = s.noEffStep + j ∧
      TakesInvalidBranch ops prm mesh s1 := by
  induction j generalizing s with
  | zero => exact ⟨s, rfl, rfl, hinv⟩
  | succ j ih =>
    obtain ⟨s1, hstep, -, h2, -, h4, h5, h6, -, h8⟩ :=
      seqStep_invalid_next ops prm mesh s k c rest hq hc hinv
    rw [if_neg (not_le.mpr hold)] at h6
    obtain ⟨s2, g1, g2, g3⟩ := ih s1 (by rw [h2, hq]) h4 (by rw [h5]; linarith) h8
    refine ⟨s2, ?_, by omega, g3⟩
    rw [seqIterate]
    simp only [hstep]
    exact g1

/-- The stagnation count from the state on entry to the loop (`noEffStep = 0`,
`oldMinQual` at most the first key), with `seqMinCh > 0` and the invalid
branch taken: after pass `j >= 1` the counter is `j - 1`, ten passes do not
leave the loop and eleven do. -/
theorem seqLoop_stagnation_aux (ops : ScalarOps K) (prm : SeqParams K) (mesh : BlockMesh)
    (hch : 0 < prm.seqMinCh) (k : K) (c : Nat) (rest : QualityMap K) (s : SeqState K)
    (hq : s.qualityMap = (k, c) :: rest) (hc : s.cellNb = c) (hold : s.oldMinQual ≤ k)
    (h0 : s.noEffStep = 0) (hinv : TakesInvalidBranch ops prm mesh s) :
    (∀ j, 1 ≤ j → ∃ sj, seqIterate ops prm mesh j s = .ok sj ∧ sj.noEffStep = j - 1 ∧
      TakesInvalidBranch ops prm mesh sj) ∧
    (∀ f, f < 11 → seqLoop ops prm mesh f s = .error .outOfFuel) ∧
    ∃ s1, seqLoop ops prm mesh 11 s = .ok s1 ∧ seqIterate ops prm mesh 11 s = .ok s1 ∧
      s1.noEffStep = 10 ∧ s1.nbIterations = s.nbIterations + 11 := by
  obtain ⟨s1, hstep, -, h2, -, h4, h5, h6, h7, h8⟩ :=
    seqStep_invalid_next ops prm mesh s k c rest hq hc hinv
  rw [if_pos (ge_iff_le.mpr hold)] at h6
  have hq1 : s1.qualityMap = (k, c) :: rest := by rw [h2, hq]
  have hold1 : k < s1.oldMinQual := by
    rw [h5]
    linarith
  have hlt : s.noEffStep < 10 := by omega
  obtain ⟨⟨s2, g1, g2, g3, g4⟩, g5⟩ :=
    seqLoop_countdown ops prm mesh hch k c rest 10 s1 hq1 h4 hold1 (by omega) h8
  refine ⟨fun j hj => ?_, fun f hf => ?_, s2, ?_, ?_, g3, by omega⟩
  · obtain ⟨i, rfl⟩ : ∃ i, j = i + 1 := ⟨j - 1, by omega⟩
    obtain ⟨sj, e1, e2, e3⟩ := seqIterate_invalid ops prm mesh hch k c rest i s1 hq1 h4 hold1 h8
    refine ⟨sj, ?_, by omega, e3⟩
    rw [seqIterate]
    simp only [hstep]
    exact e1
  · cases f with
    | zero =>
      unfold seqLoop
      rw [if_pos hlt]
    | succ f =>
      rw [seqLoop, if_pos hlt]
      simp only [hstep]
      exact g5 f (by omega)
  · rw [seqLoop, if_pos hlt]
    simp only [hstep]
    exact g1
  · rw [seqIterate]
    simp only [hstep]
    exact g2

/-- With `seqMinCh <= 0` a target that stays invalid keeps the loop running:
every pass finds the first key not below `oldMinQual` and resets
`noEffStep`. -/
theorem seqLoop_no_exit (ops : ScalarOps K) (prm : SeqParams K) (mesh : BlockMesh)
    (hch : prm.seqMinCh ≤ 0) (k : K) (c : Nat) (rest : QualityMap K) (fuel : Nat)
    (s : SeqState K) (hq : s.qualityMap = (k, c) :: rest) (hc : s.cellNb = c)
    (hold : s.oldMinQual ≤ k) (h0 : s.noEffStep = 0)
    (hinv : TakesInvalidBranch ops prm mesh s) :
    seqLoop ops prm mesh fuel s = .error .outOfFuel := by
  have hlt : s.noEffStep < 10 := by omega
  induction fuel generalizing s with
  | zero =>
    unfold seqLoop
    rw [if_pos hlt]
  | succ fuel ih =>
    obtain ⟨s1, hstep, -, h2, -, h4, h5, h6, -, h8⟩ :=
      seqStep_invalid_next ops prm mesh s k c rest hq hc hinv
    rw [if_pos (ge_iff_le.mpr hold)] at h6
    rw [seqLoop, if_pos hlt]
    simp only [hstep]
    exact ih s1 (by rw [h2, hq]) h4 (by rw [h5]; linarith) h6 h8 (by omega)

end Stagnation

/-- C13 does not hold on the one-cube mesh with the points of the inverted
unit cube, `seqTransform = 1`, `seqRelax = 1/4` and `seqMinCh = 0`, in exact
real arithmetic: the sequential phase starts in `invertedState`, every pass
takes the invalid branch and resets `noEffStep`, and the loop has not ended
after any number of passes. -/
theorem seqLoop_never_ends :
    seqInit (ScalarOps.mk (1 / 10 ^ 300) Real.sqrt (fun x y => x ^ y)) cubeMesh
        (invertedPoints : List (Point ℝ)) = .ok invertedState ∧
    ∀ fuel : Nat,
      seqLoop (ScalarOps.mk (1 / 10 ^ 300) Real.sqrt (fun x y => x ^ y))
        ⟨1, 1 / 4, 1 / 10, 3 / 10, 2 / 10, 0⟩ cubeMesh fuel invertedState
          = .error .outOfFuel :=
  ⟨seqInit_invertedState _ exact_real.vsmall_pos.le, fun fuel =>
    seqLoop_no_exit _ ⟨1, 1 / 4, 1 / 10, 3 / 10, 2 / 10, 0⟩ cubeMesh (le_refl _) 0 0 [] fuel
      invertedState rfl rfl (le_refl _) rfl
      (takesInvalidBranch_invertedState _ exact_real _ rfl rfl)⟩

/-- Counterexample to C17 as stated: on the one-cube mesh with the points of
the inverted unit cube and `seqMinCh = 1/100`, in exact real arithmetic, every
pass takes the invalid branch, `noEffStep` is 9 after the tenth pass and the
loop has not ended after ten passes; it ends after the eleventh. -/
theorem seqLoop_stagnation_counterexample :
    (∃ s10, seqIterate (ScalarOps.mk (1 / 10 ^ 300) Real.sqrt (fun x y => x ^ y))
        ⟨1, 1 / 4, 1 / 10, 3 / 10, 2 / 10, 1 / 100⟩ cubeMesh 10 invertedState = .ok s10 ∧
      s10.noEffStep = 9) ∧
    seqLoop (ScalarOps.mk (1 / 10 ^ 300) Real.sqrt (fun x y => x ^ y))
        ⟨1, 1 / 4, 1 / 10, 3 / 10, 2 / 10, 1 / 100⟩ cubeMesh 10 invertedState
      = .error .outOfFuel ∧
    ∃ s11, seqLoop (ScalarOps.mk (1 / 10 ^ 300) Real.sqrt (fun x y => x ^ y))
        ⟨1, 1 / 4, 1 / 10, 3 / 10, 2 / 10, 1 / 100⟩ cubeMesh 11 invertedState = .ok s11 ∧
      s11.nbIterations = 11 := by
  obtain ⟨h1, h2, s11, h3, -, -, h4⟩ := seqLoop_stagnation_aux
    (ScalarOps.mk (1 / 10 ^ 300) Real.sqrt (fun x y => x ^ y) : ScalarOps ℝ)
    ⟨1, 1 / 4, 1 / 10, 3 / 10, 2 / 10, 1 / 100⟩ cubeMesh (by norm_num) 0 0 []
    invertedState rfl rfl (le_refl _) rfl
    (takesInvalidBranch_invertedState _ exact_real _ rfl rfl)
  obtain ⟨s10, e1, e2, -⟩ := h1 10 (by norm_num)
  exact ⟨⟨s10, e1, e2⟩, h2 10 (by norm_num), s11, h3, h4⟩

/-- C17, amended: stagnation count.  Take a state on entry to the sequential
loop (`noEffStep = 0`, `oldMinQual` at most the first key of `qualityMap`, the
target the cell of that first entry) from which the pass takes the invalid
branch, and `seqMinCh > 0`.  Then every pass takes the invalid branch; the
first pass leaves `noEffStep` at 0 and every later pass increments it, so that
it is `j - 1` after pass `j`; the loop has not ended after ten passes or fewer
and ends after its eleventh pass, with `noEffStep = 10`. -/
theorem seqLoop_stagnation {K : Type} [LinearOrderedField K] (ops : ScalarOps K)
    (prm : SeqParams K) (mesh : BlockMesh) (hch : 0 < prm.seqMinCh) (k : K) (c : Nat)
    (rest : QualityMap K) (s : SeqState K) (hq : s.qualityMap = (k, c) :: rest)
    (hc : s.cellNb = c) (hold : s.oldMinQual ≤ k) (h0 : s.noEffStep = 0)
    (hinv : TakesInvalidBranch ops prm mesh s) :
    (∀ j, 1 ≤ j → ∃ sj, seqIterate ops prm mesh j s = .ok sj ∧ sj.noEffStep = j - 1 ∧
      TakesInvalidBranch ops prm mesh sj) ∧
    (∀ f, f < 11 → seqLoop ops prm mesh f s = .error .outOfFuel) ∧
    ∃ s1, seqLoop ops prm mesh 11 s = .ok s1 ∧ seqIterate ops prm mesh 11 s = .ok s1 ∧
      s1.noEffStep = 10 ∧ s1.nbIterations = s.nbIterations + 11 :=
  seqLoop_stagnation_aux ops prm mesh hch k c rest s hq hc hold h0 hinv

/-- Witness for C17, amended: the one-cube mesh with the points of the inverted
unit cube and `seqMinCh = 1/100`, in exact real arithmetic. -/
theorem seqLoop_stagnation_witness :
    (∀ j, 1 ≤ j → ∃ sj, seqIterate (ScalarOps.mk (1 / 10 ^ 300) Real.sqrt (fun x y => x ^ y))
        ⟨1, 1 / 4, 1 / 10, 3 / 10, 2 / 10, 1 / 100⟩ cubeMesh j invertedState = .ok sj ∧
      sj.noEffStep = j - 1 ∧
      TakesInvalidBranch (ScalarOps.mk (1 / 10 ^ 300) Real.sqrt (fun x y => x ^ y))
        ⟨1, 1 / 4, 1 / 10, 3 / 10, 2 / 10, 1 / 100⟩ cubeMesh sj) ∧
    (∀ f, f < 11 → seqLoop (ScalarOps.mk (1 / 10 ^ 300) Real.sqrt (fun x y => x ^ y))
        ⟨1, 1 / 4, 1 / 10, 3 / 10, 2 / 10, 1 / 100⟩ cubeMesh f invertedState
      = .error .outOfFuel) ∧
    ∃ s1, seqLoop (ScalarOps.mk (1 / 10 ^ 300) Real.sqrt (fun x y => x ^ y))
        ⟨1, 1 / 4, 1 / 10, 3 / 10, 2 / 10, 1 / 100⟩ cubeMesh 11 invertedState = .ok s1 ∧
      seqIterate (ScalarOps.mk (1 / 10 ^ 300) Real.sqrt (fun x y => x ^ y))
        ⟨1, 1 / 4, 1 / 10, 3 / 10, 2 / 10, 1 / 100⟩ cubeMesh 11 invertedState = .ok s1 ∧
      s1.noEffStep = 10 ∧
      s1.nbIterations = (invertedState : SeqState ℝ).nbIterations + 11 :=
  seqLoop_stagnation (ScalarOps.mk (1 / 10 ^ 300) Real.sqrt (fun x y => x ^ y))
    ⟨1, 1 / 4, 1 / 10, 3 / 10, 2 / 10, 1 / 100⟩ cubeMesh (by norm_num) 0 0 []
    invertedState rfl rfl (le_refl _) rfl
    (takesInvalidBranch_invertedState _ exact_real _ rfl rfl)

/-! ## A corner with a positive determinant gives a positive quality -/

theorem cornerTerm_nonneg (ops : ScalarOps ℝ) (hops : ops.Exact) (H : HexPoints ℝ)
    (ptI : Fin 8) : 0 ≤ cornerTerm ops H ptI := by
  unfold cornerTerm
  by_cases h : cornerSigma H ptI > ops.VSMALL
  · rw [if_pos h]
    have hs : 0 < cornerSigma H ptI := lt_trans hops.vsmall_pos h
    rw [hops.pow_eq _ _ hs]
    have h1 : 0 < (cornerTensor H ptI).magSqr := magSqr_pos_of_det_pos _ hs
    have h2 : 0 < cornerSigma H ptI ^ (2 / 3 : ℝ) := Real.rpow_pos_of_pos hs _
    positivity
  · rw [if_neg h]

theorem cornerTerm_pos (ops : ScalarOps ℝ) (hops : ops.Exact) (H : HexPoints ℝ)
    (ptI : Fin 8) (h : cornerSigma H ptI > ops.VSMALL) : 0 < cornerTerm ops H ptI := by
  unfold cornerTerm
  rw [if_pos h]
  have hs : 0 < cornerSigma H ptI := lt_trans hops.vsmall_pos h
  rw [hops.pow_eq _ _ hs]
  have h1 : 0 < (cornerTensor H ptI).magSqr := magSqr_pos_of_det_pos _ hs
  have h2 : 0 < cornerSigma H ptI ^ (2 / 3 : ℝ) := Real.rpow_pos_of_pos hs _
  positivity

/-- C22: in exact real arithmetic, a hex with at least one corner whose
determinant exceeds `VSMALL` has a strictly positive `meanRatio`, whatever the
other seven corners are; so `meanRatio` is 0 exactly when all eight corner
determinants are at most `VSMALL`. -/
theorem meanRatio_pos_of_corner (ops : ScalarOps ℝ) (hops : ops.Exact) (H : HexPoints ℝ) :
    ((∃ ptI, cornerSigma H ptI > ops.VSMALL) → 0 < meanRatio ops H) ∧
    (meanRatio ops H = 0 ↔ ∀ ptI, cornerSigma H ptI ≤ ops.VSMALL) := by
  have hn := cornerTerm_nonneg ops hops H
  have hpos : (∃ ptI, cornerSigma H ptI > ops.VSMALL) → 0 < meanRatio ops H := by
    rintro ⟨ptI, h⟩
    have hp := cornerTerm_pos ops hops H ptI h
    rw [meanRatio_eq_sum]
    have h0 := hn 0
    have h1 := hn 1
    have h2 := hn 2
    have h3 := hn 3
    have h4 := hn 4
    have h5 := hn 5
    have h6 := hn 6
    have h7 := hn 7
    apply div_pos _ (by norm_num)
    fin_cases ptI <;> simp only [Fin.mk_zero, Fin.mk_one, Fin.reduceFinMk] at hp <;> linarith
  refine ⟨hpos, fun h0 ptI => ?_, fun h => ?_⟩
  · by_contra hgt
    exact (hpos ⟨ptI, not_le.mp hgt⟩).ne.symm h0
  · rw [meanRatio_eq_sum]
    simp only [cornerTerm_of_le ops H _ (h _)]
    norm_num

/-- Witness for C22: the unit cube with vertex 0 moved to `(2, 2, 2)`.  Its
corner 2 has determinant 1, above `VSMALL = 1e-300`, the corners 0, 1, 3 and 4
are inverted, and its quality is positive. -/
theorem meanRatio_pos_of_corner_witness :
    cornerSigma (piercedCube : HexPoints ℝ) 2 > 1 / 10 ^ 300 ∧
    0 < meanRatio (ScalarOps.mk (1 / 10 ^ 300) Real.sqrt (fun x y => x ^ y))
      (piercedCube : HexPoints ℝ) ∧
    (meanRatio (ScalarOps.mk (1 / 10 ^ 300) Real.sqrt (fun x y => x ^ y))
        (piercedCube : HexPoints ℝ) = 0 ↔
      ∀ ptI, cornerSigma (piercedCube : HexPoints ℝ) ptI ≤ 1 / 10 ^ 300) := by
  have h : cornerSigma (piercedCube : HexPoints ℝ) 2 > 1 / 10 ^ 300 := by
    rw [cornerSigma_piercedCube.2.2.1]
    exact exact_real.vsmall_lt_one
  exact ⟨h, (meanRatio_pos_of_corner _ exact_real piercedCube).1 ⟨2, h⟩,
    (meanRatio_pos_of_corner _ exact_real piercedCube).2⟩

/-! ## Zero-weight collapse of the per-point update -/

theorem foldl_weight_zero (ops : ScalarOps ℝ) (pointAvg : ℝ) (hp0 : ops.pow 0 pointAvg = 0)
    (plP : List Nat) (ppP : List (Point ℝ)) (cq : List ℝ)
    (hq : ∀ c ∈ plP, cq.getD c 0 = 1) (ls : List Nat) (hls : ∀ i ∈ ls, i < plP.length) :
    ls.foldl
      (fun acc cellI =>
        let wji := ops.pow (1 - cq.getD (plP.getD cellI 0) 0) pointAvg
        (acc.1 + wji, acc.2 + Point.smul wji (ppP.getD cellI 0)))
      ((0 : ℝ), (0 : Point ℝ)) = (0, 0) := by
  induction ls with
  | nil => rfl
  | cons a ls ih =>
    rw [List.foldl_cons]
    have ha : a < plP.length := hls a (List.mem_cons_self _ _)
    have hmem : plP.getD a 0 ∈ plP := by
      rw [List.getD_eq_getElem _ _ ha]
      exact List.getElem_mem ha
    have hstep : ((0 : ℝ) + ops.pow (1 - cq.getD (plP.getD a 0) 0) pointAvg,
        (0 : Point ℝ) + Point.smul (ops.pow (1 - cq.getD (plP.getD a 0) 0) pointAvg)
          (ppP.getD a 0)) = (0, 0) := by
      rw [hq _ hmem, sub_self, hp0]
      refine Prod.ext (by simp) ?_
      ext <;> simp
    show ls.foldl _ ((0 : ℝ) + ops.pow (1 - cq.getD (plP.getD a 0) 0) pointAvg,
        (0 : Point ℝ) + Point.smul (ops.pow (1 - cq.getD (plP.getD a 0) 0) pointAvg)
          (ppP.getD a 0)) = _
    rw [hstep]
    exact ih fun i hi => hls i (List.mem_cons_of_mem _ hi)

/-- C23: zero-weight collapse.  In exact real arithmetic, for a point with at
least one incident cell (`pl[p]` non-empty) all of whose incident cells have
quality exactly 1, and `pointAvg > 0`: every weight `pow(1 - cq, pointAvg)` is
0, the sums `wj` and `wp` are 0, and the position `wp/(wj + VSMALL)` written
to the point is `(0, 0, 0)`, whatever the point array and the candidate
positions `pp[p]` are. -/
theorem weightedPosition_zero_weight (ops : ScalarOps ℝ) (hops : ops.Exact) (pointAvg : ℝ)
    (hp : 0 < pointAvg) (plP : List Nat) (ppP : List (Point ℝ)) (cq : List ℝ)
    (hn : plP ≠ []) (hq : ∀ c ∈ plP, cq.getD c 0 = 1) :
    (∀ cellI, cellI < plP.length →
      ops.pow (1 - cq.getD (plP.getD cellI 0) 0) pointAvg = 0) ∧
    weightSums ops pointAvg plP ppP cq = (0, 0) ∧
    weightedPosition ops pointAvg plP ppP cq = .ok 0 ∧
    ∀ (pts : List (Point ℝ)) (pointI : Nat),
      writePosition (weightedPosition ops pointAvg plP ppP cq) pts pointI
        = .ok (pts.set pointI ⟨0, 0, 0⟩) := by
  have hp0 := hops.pow_zero_base pointAvg hp
  have hsum : weightSums ops pointAvg plP ppP cq = (0, 0) :=
    foldl_weight_zero ops pointAvg hp0 plP ppP cq hq _ fun i hi => List.mem_range.mp hi
  have hlen : plP.length ≠ 0 := fun h => hn (List.length_eq_zero.mp h)
  have hpos : weightedPosition ops pointAvg plP ppP cq = .ok 0 := by
    unfold weightedPosition
    simp only [hsum, if_neg hlen]
    have hne : (0 : ℝ) / (plP.length : ℝ) + ops.VSMALL ≠ 0 := by
      rw [zero_div, zero_add]
      exact hops.vsmall_pos.ne.symm
    rw [if_neg hne, Except.ok.injEq]
    ext <;> simp
  refine ⟨fun cellI hc => ?_, hsum, hpos, fun pts pointI => ?_⟩
  · have hmem : plP.getD cellI 0 ∈ plP := by
      rw [List.getD_eq_getElem _ _ hc]
      exact List.getElem_mem hc
    rw [hq _ hmem, sub_self, hp0]
  · rw [hpos]
    rfl

/-- Witness for C23: the mobile point 6 of the one-cube mesh, with its one
incident cell of quality 1 proposing the position `(1, 1, 1)`, and
`pointAvg = 2`. -/
theorem weightedPosition_zero_weight_witness :
    (∀ cellI, cellI < [0].length →
      (ScalarOps.mk (1 / 10 ^ 300) Real.sqrt (fun x y => x ^ y) : ScalarOps ℝ).pow
        (1 - [(1 : ℝ)].getD ([0].getD cellI 0) 0) 2 = 0) ∧
    weightSums (ScalarOps.mk (1 / 10 ^ 300) Real.sqrt (fun x y => x ^ y)) 2 [0]
      [(⟨1, 1, 1⟩ : Point ℝ)] [1] = (0, 0) ∧
    weightedPosition (ScalarOps.mk (1 / 10 ^ 300) Real.sqrt (fun x y => x ^ y)) 2 [0]
      [(⟨1, 1, 1⟩ : Point ℝ)] [1] = .ok 0 ∧
    ∀ (pts : List (Point ℝ)) (pointI : Nat),
      writePosition
          (weightedPosition (ScalarOps.mk (1 / 10 ^ 300) Real.sqrt (fun x y => x ^ y)) 2 [0]
            [(⟨1, 1, 1⟩ : Point ℝ)] [1]) pts pointI
        = .ok (pts.set pointI ⟨0, 0, 0⟩) :=
  weightedPosition_zero_weight _ exact_real 2 (by norm_num) [0] [⟨1, 1, 1⟩] [1]
    (by simp) (by simp)

/-! ## The invalid branch is absorbing -/

section Absorbing

variable {K : Type} [LinearOrderedField K]

/-- Every pass that ends has gone through the end of the step. -/
theorem seqStep_finish (ops : ScalarOps K) (prm : SeqParams K) (mesh : BlockMesh)
    (s s1 : SeqState K) (h : seqStep ops prm mesh s = .ok s1) :
    ∃ points qm cm, seqFinish prm s points qm cm = .ok s1 := by
  unfold seqStep at h
  cases ht : seqTrial ops prm mesh s with
  | none =>
    simp only [ht] at h
    exact absurd h (by simp)
  | some t =>
    simp only [ht] at h
    by_cases hlow : t.lowerQual < ops.VSMALL
    · rw [if_pos hlow] at h
      exact ⟨_, _, _, h⟩
    · rw [if_neg hlow] at h
      cases hfold : (t.impactedCell.sort (· ≤ ·)).foldlM
          (refreshCell ops s.cellNb t.nQual
            (if s.previous = s.cellNb then prm.deltaPiR else prm.deltaPiS))
          (s.qualityMap, s.cellMap) with
      | error e =>
        simp only [hfold] at h
        exact absurd h (by simp)
      | ok st =>
        simp only [hfold] at h
        exact ⟨_, _, _, h⟩

/-- In every state of the sequential phase the target is the cell of the first
entry of `qualityMap`. -/
theorem seqReachable_head (ops : ScalarOps K) (prm : SeqParams K) (mesh : BlockMesh)
    (points : List (Point K)) (s : SeqState K) (hr : SeqReachable ops prm mesh points s) :
    ∃ e rest, s.qualityMap = e :: rest ∧ s.cellNb = e.2 := by
  cases hr with
  | init _ h =>
    unfold seqInit at h
    cases hq : (buildMaps ops mesh.cells points).1 with
    | nil =>
      simp only [hq] at h
      exact absurd h (by simp)
    | cons e rest =>
      simp only [hq, Except.ok.injEq] at h
      subst h
      exact ⟨e, rest, rfl, rfl⟩
  | step s0 _ _ h =>
    obtain ⟨pts, qm, cm, hfin⟩ := seqStep_finish ops prm mesh s0 s h
    obtain ⟨-, hqm, -⟩ := seqFinish_fields prm s0 s _ _ _ hfin
    obtain ⟨e, rest, he, hc, -⟩ := seqFinish_head prm s0 s _ _ _ hfin
    exact ⟨e, rest, by rw [hqm, he], hc⟩

/-- Passes from a state whose target is the cell of the first entry of
`qualityMap` and which takes the invalid branch: after any number of them the
points, the containers and the target are as at the start, and the next pass
takes the invalid branch again. -/
theorem seqIterate_absorbing (ops : ScalarOps K) (prm : SeqParams K) (mesh : BlockMesh)
    (e : K × Nat) (rest : QualityMap K) (n : Nat) (s : SeqState K)
    (hq : s.qualityMap = e :: rest) (hc : s.cellNb = e.2)
    (hinv : TakesInvalidBranch ops prm mesh s) :
    ∃ sn, seqIterate ops prm mesh n s = .ok sn ∧ sn.points = s.points ∧
      sn.qualityMap = s.qualityMap ∧ sn.cellMap = s.cellMap ∧ sn.cellNb = s.cellNb ∧
      sn.nbIterations = s.nbIterations + n ∧ TakesInvalidBranch ops prm mesh sn := by
  induction n generalizing s with
  | zero => exact ⟨s, rfl, rfl, rfl, rfl, rfl, rfl, hinv⟩
  | succ n ih =>
    obtain ⟨s1, hstep, h1, h2, h3, h4, -, -, h7, h8⟩ :=
      seqStep_invalid_next ops prm mesh s e.1 e.2 rest hq hc hinv
    obtain ⟨sn, g0, g1, g2, g3, g4, g5, g6⟩ := ih s1 (by rw [h2, hq]) h4 h8
    refine ⟨sn, ?_, by rw [g1, h1], by rw [g2, h2], by rw [g3, h3], by rw [g4, h4, hc],
      by omega, g6⟩
    rw [seqIterate]
    simp only [hstep]
    exact g0

end Absorbing

/-- C24: the invalid branch is absorbing.  From a state of the sequential
phase (the state on entry to the loop or a state reached by passes of its
body) whose pass takes the invalid branch, the pass ends in a state with the
same point array, `qualityMap`, `cellMap` and target, in which the first half
of the step computes exactly what it computed before; hence after any number
of further passes the points, the containers and the target are still the
same and the next pass takes the invalid branch again. -/
theorem seqStep_invalid_absorbing {K : Type} [LinearOrderedField K] (ops : ScalarOps K)
    (prm : SeqParams K) (mesh : BlockMesh) (points : List (Point K)) (s : SeqState K)
    (hr : SeqReachable ops prm mesh points s) (hinv : TakesInvalidBranch ops prm mesh s) :
    (∃ s1, seqStep ops prm mesh s = .ok s1 ∧ s1.points = s.points ∧
      s1.qualityMap = s.qualityMap ∧ s1.cellMap = s.cellMap ∧ s1.cellNb = s.cellNb ∧
      seqTrial ops prm mesh s1 = seqTrial ops prm mesh s ∧
      TakesInvalidBranch ops prm mesh s1) ∧
    ∀ n, ∃ sn, seqIterate ops prm mesh n s = .ok sn ∧ sn.points = s.points ∧
      sn.qualityMap = s.qualityMap ∧ sn.cellMap = s.cellMap ∧ sn.cellNb = s.cellNb ∧
      seqTrial ops prm mesh sn = seqTrial ops prm mesh s ∧
      TakesInvalidBranch ops prm mesh sn := by
  obtain ⟨e, rest, hq, hc⟩ := seqReachable_head ops prm mesh points s hr
  constructor
  · obtain ⟨s1, hstep, h1, h2, h3, h4, -, -, -, h8⟩ :=
      seqStep_invalid_next ops prm mesh s e.1 e.2 rest hq hc hinv
    have h5 : s1.cellNb = s.cellNb := by rw [h4, hc]
    exact ⟨s1, hstep, h1, h2, h3, h5, seqTrial_congr ops prm mesh s s1 h1 h5, h8⟩
  · intro n
    obtain ⟨sn, g0, g1, g2, g3, g4, -, g6⟩ :=
      seqIterate_absorbing ops prm mesh e rest n s hq hc hinv
    exact ⟨sn, g0, g1, g2, g3, g4, seqTrial_congr ops prm mesh s sn g1 g4, g6⟩

/-- Witness for C24: the one-cube mesh with the points of the inverted unit
cube, in exact real arithmetic; the state on entry to the loop takes the
invalid branch. -/
theorem seqStep_invalid_absorbing_witness :
    (∃ s1, seqStep (ScalarOps.mk (1 / 10 ^ 300) Real.sqrt (fun x y => x ^ y))
        ⟨1, 1 / 4, 1 / 10, 3 / 10, 2 / 10, 1 / 100⟩ cubeMesh invertedState = .ok s1 ∧
      s1.points = (invertedState : SeqState ℝ).points ∧
      s1.qualityMap = (invertedState : SeqState ℝ).qualityMap ∧
      s1.cellMap = (invertedState : SeqState ℝ).cellMap ∧
      s1.cellNb = (invertedState : SeqState ℝ).cellNb ∧
      seqTrial (ScalarOps.mk (1 / 10 ^ 300) Real.sqrt (fun x y => x ^ y))
          ⟨1, 1 / 4, 1 / 10, 3 / 10, 2 / 10, 1 / 100⟩ cubeMesh s1
        = seqTrial (ScalarOps.mk (1 / 10 ^ 300) Real.sqrt (fun x y => x ^ y))
            ⟨1, 1 / 4, 1 / 10, 3 / 10, 2 / 10, 1 / 100⟩ cubeMesh invertedState ∧
      TakesInvalidBranch (ScalarOps.mk (1 / 10 ^ 300) Real.sqrt (fun x y => x ^ y))
        ⟨1, 1 / 4, 1 / 10, 3 / 10, 2 / 10, 1 / 100⟩ cubeMesh s1) ∧
    ∀ n, ∃ sn, seqIterate (ScalarOps.mk (1 / 10 ^ 300) Real.sqrt (fun x y => x ^ y))
        ⟨1, 1 / 4, 1 / 10, 3 / 10, 2 / 10, 1 / 100⟩ cubeMesh n invertedState = .ok sn ∧
      sn.points = (invertedState : SeqState ℝ).points ∧
      sn.qualityMap = (invertedState : SeqState ℝ).qualityMap ∧
      sn.cellMap = (invertedState : SeqState ℝ).cellMap ∧
      sn.cellNb = (invertedState : SeqState ℝ).cellNb ∧
      seqTrial (ScalarOps.mk (1 / 10 ^ 300) Real.sqrt (fun x y => x ^ y))
          ⟨1, 1 / 4, 1 / 10, 3 / 10, 2 / 10, 1 / 100⟩ cubeMesh sn
        = seqTrial (ScalarOps.mk (1 / 10 ^ 300) Real.sqrt (fun x y => x ^ y))
            ⟨1, 1 / 4, 1 / 10, 3 / 10, 2 / 10, 1 / 100⟩ cubeMesh invertedState ∧
      TakesInvalidBranch (ScalarOps.mk (1 / 10 ^ 300) Real.sqrt (fun x y => x ^ y))
        ⟨1, 1 / 4, 1 / 10, 3 / 10, 2 / 10, 1 / 100⟩ cubeMesh sn :=
  seqStep_invalid_absorbing (ScalarOps.mk (1 / 10 ^ 300) Real.sqrt (fun x y => x ^ y))
    ⟨1, 1 / 4, 1 / 10, 3 / 10, 2 / 10, 1 / 100⟩ cubeMesh invertedPoints invertedState
    (SeqReachable.init _ (seqInit_invertedState _ exact_real.vsmall_pos.le))
    (takesInvalidBranch_invertedState _ exact_real _ rfl rfl)

/-! ## The mean signed edge vector -/

section MeanEdge

variable {K : Type} [LinearOrderedField K]

/-- The sum of the twelve signed edge vectors: the two face loops cancel. -/
theorem edgeSum_eq (X : HexPoints K) :
    (List.finRange 12).foldl (fun mh edgeI => mh + (X (vd1 edgeI) - X (vd2 edgeI))) 0
      = (X 0 + X 1 + X 2 + X 3) - (X 4 + X 5 + X 6 + X 7) := by
  rw [finRange_twelve]
  ext <;> simp [List.foldl, vd1, vd2] <;> ring

/-- The mean signed edge vector is a third of the vector from the centroid of
face `{4, 5, 6, 7}` to the centroid of face `{0, 1, 2, 3}`. -/
theorem meanEdge_eq_oct (X : HexPoints K) :
    meanEdge X = Point.smul (1 / 3) (oct X 0 - oct X 5) := by
  unfold meanEdge
  rw [edgeSum_eq]
  ext <;> simp [oct, vb1, vb2, vb3, vb4] <;> ring

theorem octN_tallBrick (ptI : Fin 8) :
    octN (tallBrick : HexPoints K) ptI
      = ⟨2 * (cubeDir ptI).x, 2 * (cubeDir ptI).y, (cubeDir ptI).z⟩ := by
  fin_cases ptI <;> ext <;>
    simp [octN, oct, tallBrick, cubeDir, Point.cross, vb1, vb2, vb3, vb4, vc1, vc2, vc3] <;>
    ring

theorem octC_tallBrick (ptI : Fin 8) :
    octC (tallBrick : HexPoints K) ptI
      = ⟨(cubeDir ptI).x / 3, (cubeDir ptI).y / 3, 2 * (cubeDir ptI).z / 3⟩ := by
  fin_cases ptI <;> ext <;>
    simp [octC, oct, tallBrick, cubeDir, vb1, vb2, vb3, vb4, vc1, vc2, vc3] <;>
    ring

theorem magSqr_octN_tallBrick (ptI : Fin 8) :
    (octN (tallBrick : HexPoints K) ptI).magSqr = 3 * 3 := by
  rw [octN_tallBrick]
  fin_cases ptI <;> simp [Point.magSqr, cubeDir] <;> norm_num

end MeanEdge

theorem mag_along_x (ops : ScalarOps ℝ) (hops : ops.Exact) (w : ℝ) :
    (Point.mk w 0 0).mag ops = |w| := by
  rw [mag_exact ops hops]
  simp [Point.magSqr, Real.sqrt_mul_self_eq_abs]

theorem mag_along_y (ops : ScalarOps ℝ) (hops : ops.Exact) (w : ℝ) :
    (Point.mk 0 w 0).mag ops = |w| := by
  rw [mag_exact ops hops]
  simp [Point.magSqr, Real.sqrt_mul_self_eq_abs]

theorem normalDivisor_tallBrick (ops : ScalarOps ℝ) (hops : ops.Exact) (ptI : Fin 8) :
    normalDivisor ops (tallBrick : HexPoints ℝ) ptI = Real.sqrt 3 := by
  have hin : ops.sqrt (3 * 3) = 3 := by
    rw [hops.sqrt_eq _ (by norm_num), Real.sqrt_mul_self (by norm_num)]
  unfold normalDivisor Point.mag
  rw [magSqr_octN_tallBrick, hin, hops.sqrt_eq _ (by norm_num)]

/-- With `c_or = sqrt 3 / 3` the unscaled transform of the brick with
half-sides 1, 1, 2 is the cube with half-side 1. -/
theorem newPoints_tallBrick (ops : ScalarOps ℝ) (hops : ops.Exact) :
    newPoints ops (tallBrick : HexPoints ℝ) (Real.sqrt 3 / 3) = boxAbout 0 1 := by
  have h3 : Real.sqrt 3 ≠ 0 := (Real.sqrt_pos.mpr (by norm_num)).ne.symm
  have hc : Real.sqrt 3 / 3 / Real.sqrt 3 = 1 / 3 := by
    field_simp
    ring
  funext ptI
  unfold newPoints
  rw [normalDivisor_tallBrick ops hops, octN_tallBrick, octC_tallBrick, hc]
  ext <;> simp [boxAbout] <;> ring

theorem meanEdge_tallBrick {K : Type} [LinearOrderedField K] :
    meanEdge (tallBrick : HexPoints K) = ⟨0, 0, -(4 / 3)⟩ := by
  rw [meanEdge_eq_oct]
  ext <;> (simp [oct, tallBrick, vb1, vb2, vb3, vb4]; try norm_num)

theorem averageEdgeLength_tallBrick (ops : ScalarOps ℝ) (hops : ops.Exact) :
    averageEdgeLength ops (tallBrick : HexPoints ℝ) = 8 / 3 := by
  unfold averageEdgeLength
  rw [finRange_twelve]
  have hx : ∀ w : ℝ, ops.sqrt (w * w + 0 * 0 + 0 * 0) = |w| := fun w =>
    mag_along_x ops hops w
  have hy : ∀ w : ℝ, ops.sqrt (0 * 0 + w * w + 0 * 0) = |w| := fun w =>
    mag_along_y ops hops w
  have hz : ∀ w : ℝ, ops.sqrt (0 * 0 + 0 * 0 + w * w) = |w| := fun w =>
    mag_vertical ops hops w
  simp only [List.foldl, vd1, vd2, tallBrick, Point.mag, Point.magSqr, Point.sub_x, Point.sub_y,
    Point.sub_z, sub_self, sub_neg_eq_add]
  have a1 : |(-1 - 1 : ℝ)| = 2 := by
    rw [abs_of_neg (by norm_num)]
    norm_num
  have a2 : |(1 + 1 : ℝ)| = 2 := by
    rw [abs_of_pos (by norm_num)]
    norm_num
  have a3 : |(-2 - 2 : ℝ)| = 4 := by
    rw [abs_of_neg (by norm_num)]
    norm_num
  simp only [hx, hy, hz, a1, a2, a3]
  norm_num

theorem averageEdgeLength_cube (ops : ScalarOps ℝ) (hops : ops.Exact) :
    averageEdgeLength ops (boxAbout (0 : Point ℝ) 1) = 2 := by
  unfold averageEdgeLength
  rw [finRange_twelve]
  have hx : ∀ w : ℝ, ops.sqrt (w * w + 0 * 0 + 0 * 0) = |w| := fun w =>
    mag_along_x ops hops w
  have hy : ∀ w : ℝ, ops.sqrt (0 * 0 + w * w + 0 * 0) = |w| := fun w =>
    mag_along_y ops hops w
  have hz : ∀ w : ℝ, ops.sqrt (0 * 0 + 0 * 0 + w * w) = |w| := fun w =>
    mag_vertical ops hops w
  simp only [List.foldl, vd1, vd2, boxAbout, cubeDir, Point.mag, Point.magSqr, Point.sub_x,
    Point.sub_y, Point.sub_z, Point.add_x, Point.add_y, Point.add_z, Point.smul_x,
    Point.smul_y, Point.smul_z, Point.zero_x, Point.zero_y, Point.zero_z, zero_add, one_mul,
    sub_self, sub_neg_eq_add]
  have a1 : |(-1 - 1 : ℝ)| = 2 := by
    rw [abs_of_neg (by norm_num)]
    norm_num
  have a2 : |(1 + 1 : ℝ)| = 2 := by
    rw [abs_of_pos (by norm_num)]
    norm_num
  simp only [hx, hy, hz, a1, a2]
  norm_num

/-- C21: the mean signed edge vector ignores the eight in-face edges.  For
every hex `X` the sum over the twelve edge pairs `(vd1, vd2)` of
`X[vd1] - X[vd2]` is `(X0 + X1 + X2 + X3) - (X4 + X5 + X6 + X7)`, so the mean
signed edge vector is a third of the vector between the centroids `oct[0]` and
`oct[5]` of the faces `{0, 1, 2, 3}` and `{4, 5, 6, 7}`.  Hence, in exact real
arithmetic, `scalingfact = mag(mh1)/mag(mh2)` is the ratio of the distances
between these two face centroids in `H` and in the unscaled transform.  It is
not a ratio of average edge lengths: for the brick with half-sides 1, 1, 2
and `c_or = sqrt 3 / 3` the scaling factor is 2 while the average edge lengths
are in the ratio 4/3. -/
theorem meanEdge_ignores_face_edges {K : Type} [LinearOrderedField K] (X : HexPoints K)
    (ops : ScalarOps ℝ) (hops : ops.Exact) (H : HexPoints ℝ) (cor : ℝ) :
    (List.finRange 12).foldl (fun mh edgeI => mh + (X (vd1 edgeI) - X (vd2 edgeI))) 0
      = (X 0 + X 1 + X 2 + X 3) - (X 4 + X 5 + X 6 + X 7) ∧
    meanEdge X = Point.smul (1 / 3) (oct X 0 - oct X 5) ∧
    (meanEdge H).mag ops / (meanEdge (newPoints ops H cor)).mag ops
      = (oct H 0 - oct H 5).mag ops
          / (oct (newPoints ops H cor) 0 - oct (newPoints ops H cor) 5).mag ops ∧
    (meanEdge (tallBrick : HexPoints ℝ)).mag ops
        / (meanEdge (newPoints ops (tallBrick : HexPoints ℝ) (Real.sqrt 3 / 3))).mag ops = 2 ∧
    averageEdgeLength ops (tallBrick : HexPoints ℝ)
        / averageEdgeLength ops (newPoints ops (tallBrick : HexPoints ℝ) (Real.sqrt 3 / 3))
      = 4 / 3 := by
  refine ⟨edgeSum_eq X, meanEdge_eq_oct X, ?_, ?_, ?_⟩
  · rw [meanEdge_eq_oct H, meanEdge_eq_oct (newPoints ops H cor), mag_smul_exact ops hops,
      mag_smul_exact ops hops]
    exact mul_div_mul_left _ _ (by norm_num)
  · rw [newPoints_tallBrick ops hops, meanEdge_tallBrick, meanEdge_boxAbout,
      mag_vertical ops hops, mag_vertical ops hops, abs_neg, abs_neg,
      abs_of_pos (by norm_num), abs_of_pos (by norm_num)]
    norm_num
  · rw [newPoints_tallBrick ops hops, averageEdgeLength_tallBrick ops hops,
      averageEdgeLength_cube ops hops]
    norm_num

/-- Witness for C21: the brick with half-sides 1, 1, 2 and `c_or = sqrt 3 / 3`,
with `VSMALL = 1e-300` and the real square root. -/
theorem meanEdge_ignores_face_edges_witness :
    (List.finRange 12).foldl
        (fun mh edgeI => mh + ((tallBrick : HexPoints ℝ) (vd1 edgeI) - tallBrick (vd2 edgeI))) 0
      = ((tallBrick : HexPoints ℝ) 0 + tallBrick 1 + tallBrick 2 + tallBrick 3)
          - (tallBrick 4 + tallBrick 5 + tallBrick 6 + tallBrick 7) ∧
    meanEdge (tallBrick : HexPoints ℝ) = Point.smul (1 / 3) (oct tallBrick 0 - oct tallBrick 5) ∧
    (meanEdge (tallBrick : HexPoints ℝ)).mag
          (ScalarOps.mk (1 / 10 ^ 300) Real.sqrt (fun x y => x ^ y))
        / (meanEdge (newPoints (ScalarOps.mk (1 / 10 ^ 300) Real.sqrt (fun x y => x ^ y))
            (tallBrick : HexPoints ℝ) (Real.sqrt 3 / 3))).mag
          (ScalarOps.mk (1 / 10 ^ 300) Real.sqrt (fun x y => x ^ y))
      = (oct (tallBrick : HexPoints ℝ) 0 - oct tallBrick 5).mag
            (ScalarOps.mk (1 / 10 ^ 300) Real.sqrt (fun x y => x ^ y))
          / (oct (newPoints (ScalarOps.mk (1 / 10 ^ 300) Real.sqrt (fun x y => x ^ y))
                (tallBrick : HexPoints ℝ) (Real.sqrt 3 / 3)) 0
              - oct (newPoints (ScalarOps.mk (1 / 10 ^ 300) Real.sqrt (fun x y => x ^ y))
                (tallBrick : HexPoints ℝ) (Real.sqrt 3 / 3)) 5).mag
            (ScalarOps.mk (1 / 10 ^ 300) Real.sqrt (fun x y => x ^ y)) ∧
    (meanEdge (tallBrick : HexPoints ℝ)).mag
          (ScalarOps.mk (1 / 10 ^ 300) Real.sqrt (fun x y => x ^ y))
        / (meanEdge (newPoints (ScalarOps.mk (1 / 10 ^ 300) Real.sqrt (fun x y => x ^ y))
            (tallBrick : HexPoints ℝ) (Real.sqrt 3 / 3))).mag
          (ScalarOps.mk (1 / 10 ^ 300) Real.sqrt (fun x y => x ^ y)) = 2 ∧
    averageEdgeLength (ScalarOps.mk (1 / 10 ^ 300) Real.sqrt (fun x y => x ^ y))
          (tallBrick : HexPoints ℝ)
        / averageEdgeLength (ScalarOps.mk (1 / 10 ^ 300) Real.sqrt (fun x y => x ^ y))
            (newPoints (ScalarOps.mk (1 / 10 ^ 300) Real.sqrt (fun x y => x ^ y))
              (tallBrick : HexPoints ℝ) (Real.sqrt 3 / 3))
      = 4 / 3 :=
  meanEdge_ignores_face_edges (tallBrick : HexPoints ℝ) _ exact_real tallBrick
    (Real.sqrt 3 / 3)

/-! ## The transform under translation and uniform scaling -/

section Similar

variable {K : Type} [LinearOrderedField K]

theorem oct_similar (s : K) (t : Point K) (H : HexPoints K) (octPtI : Fin 6) :
    oct (similar s t H) octPtI = Point.smul s (oct H octPtI) + t := by
  ext <;> simp [oct, similar] <;> ring

theorem octC_similar (s : K) (t : Point K) (H : HexPoints K) (octCI : Fin 8) :
    octC (similar s t H) octCI = Point.smul s (octC H octCI) + t := by
  unfold octC
  rw [oct_similar, oct_similar, oct_similar]
  ext <;> simp <;> ring

theorem octN_similar (s : K) (t : Point K) (H : HexPoints K) (ptI : Fin 8) :
    octN (similar s t H) ptI = Point.smul (s * s) (octN H ptI) := by
  unfold octN
  rw [oct_similar, oct_similar, oct_similar]
  ext <;> simp [Point.cross] <;> ring

theorem centroid_similar (s : K) (t : Point K) (X : HexPoints K) :
    centroid (similar s t X) = Point.smul s (centroid X) + t := by
  unfold centroid
  rw [finRange_eight]
  ext <;> simp [List.foldl, similar] <;> ring

theorem meanEdge_similar (s : K) (t : Point K) (X : HexPoints K) :
    meanEdge (similar s t X) = Point.smul s (meanEdge X) := by
  unfold meanEdge
  rw [finRange_twelve]
  ext <;> simp [List.foldl, similar] <;> ring

end Similar

theorem normalDivisor_similar (ops : ScalarOps ℝ) (hops : ops.Exact) (s : ℝ) (hs : 0 < s)
    (t : Point ℝ) (H : HexPoints ℝ) (ptI : Fin 8) :
    normalDivisor ops (similar s t H) ptI = s * normalDivisor ops H ptI := by
  have hm := mag_nonneg_exact ops hops (octN H ptI)
  unfold normalDivisor
  rw [octN_similar, mag_smul_exact ops hops, abs_of_pos (mul_pos hs hs),
    hops.sqrt_eq _ (mul_nonneg (mul_self_nonneg s) hm), hops.sqrt_eq _ hm,
    Real.sqrt_mul (mul_self_nonneg s), Real.sqrt_mul_self hs.le]

theorem newPoints_similar (ops : ScalarOps ℝ) (hops : ops.Exact) (s : ℝ) (hs : 0 < s)
    (t : Point ℝ) (H : HexPoints ℝ) (cor : ℝ) :
    newPoints ops (similar s t H) cor = similar s t (newPoints ops H cor) := by
  funext ptI
  unfold newPoints
  rw [normalDivisor_similar ops hops s hs, octN_similar, octC_similar]
  have hq : cor / (s * normalDivisor ops H ptI) * (s * s)
      = s * (cor / normalDivisor ops H ptI) := by
    rw [mul_comm s (normalDivisor ops H ptI), ← div_div]
    generalize cor / normalDivisor ops H ptI = q
    have hs0 : s ≠ 0 := hs.ne.symm
    field_simp
    ring
  ext
  · simp only [similar, Point.add_x, Point.smul_x]
    rw [← mul_assoc, hq]
    ring
  · simp only [similar, Point.add_y, Point.smul_y]
    rw [← mul_assoc, hq]
    ring
  · simp only [similar, Point.add_z, Point.smul_z]
    rw [← mul_assoc, hq]
    ring

theorem transformDefined_similar (ops : ScalarOps ℝ) (hops : ops.Exact) (s : ℝ) (hs : 0 < s)
    (t : Point ℝ) (H : HexPoints ℝ) (cor : ℝ) :
    TransformDefined ops (similar s t H) cor ↔ TransformDefined ops H cor := by
  unfold TransformDefined
  rw [newPoints_similar ops hops s hs, meanEdge_similar, mag_smul_exact ops hops,
    abs_of_pos hs]
  simp only [normalDivisor_similar ops hops s hs, ne_eq, mul_eq_zero, hs.ne.symm, false_or]

/-- C25: in exact real arithmetic the transform is equivariant under
translation and positive uniform scaling.  For every hex `H`, every `s > 0`,
every vector `t`, every `c_or` and `alpha`, the transform of `s*H + t` is
`s*X + t` where `X` is the transform of `H`; and it divides by zero on
`s*H + t` exactly when it does on `H`. -/
theorem geometricTransformation_similar (ops : ScalarOps ℝ) (hops : ops.Exact) (s : ℝ)
    (hs : 0 < s) (t : Point ℝ) (H : HexPoints ℝ) (cor relaxFact : ℝ) :
    geometricTransformation ops (similar s t H) cor relaxFact
      = (geometricTransformation ops H cor relaxFact).map (similar s t) := by
  by_cases hd : TransformDefined ops H cor
  · rw [geometricTransformation_of_defined ops H cor relaxFact hd,
      geometricTransformation_of_defined ops _ cor relaxFact
        ((transformDefined_similar ops hops s hs t H cor).mpr hd), Option.map_some']
    congr 1
    funext ptI
    unfold scaledPoints
    rw [newPoints_similar ops hops s hs, centroid_similar, meanEdge_similar, meanEdge_similar,
      mag_smul_exact ops hops, mag_smul_exact ops hops, abs_of_pos hs,
      mul_div_mul_left _ _ hs.ne.symm]
    ext <;> simp [similar] <;> ring
  · rw [geometricTransformation_of_not_defined ops H cor relaxFact hd,
      geometricTransformation_of_not_defined ops _ cor relaxFact
        (fun h => hd ((transformDefined_similar ops hops s hs t H cor).mp h))]
    rfl

/-- Witness for C25: the unit cube scaled by 2 and moved by `(1, 2, 3)`, with
`c_or = 1` and relaxation `1/2`. -/
theorem geometricTransformation_similar_witness :
    geometricTransformation (ScalarOps.mk (1 / 10 ^ 300) Real.sqrt (fun x y => x ^ y))
        (similar 2 ⟨1, 2, 3⟩ (unitCube : HexPoints ℝ)) 1 (1 / 2)
      = (geometricTransformation (ScalarOps.mk (1 / 10 ^ 300) Real.sqrt (fun x y => x ^ y))
          (unitCube : HexPoints ℝ) 1 (1 / 2)).map (similar 2 ⟨1, 2, 3⟩) :=
  geometricTransformation_similar _ exact_real 2 (by norm_num) ⟨1, 2, 3⟩ unitCube 1 (1 / 2)

/-! ## The quality with the exponent of the program -/

theorem meanRatioExp_two_thirds {K : Type} [LinearOrderedField K] (ops : ScalarOps K)
    (H : HexPoints K) : meanRatioExp ops (2 / 3) H = meanRatio ops H :=
  rfl

theorem twoThirdsBinary64_lt : (twoThirdsBinary64 : ℝ) < 2 / 3 := by
  unfold twoThirdsBinary64
  norm_num

theorem magSqr_boxAbout {K : Type} [LinearOrderedField K] (ctr : Point K) (h : K)
    (ptI : Fin 8) : (cornerTensor (boxAbout ctr h) ptI).magSqr = 12 * (h * h) := by
  fin_cases ptI <;>
    simp [cornerTensor, Tensor.magSqr, Point.magSqr, boxAbout, cubeDir, v1, v2, v3] <;>
    ring

/-- The quality of a properly oriented cube of half-side `h`, with the exponent
`e`: every corner has determinant `8*h^3` and adds
`3*pow(8*h^3, e)/(12*h^2)`. -/
theorem meanRatioExp_boxAbout {K : Type} [LinearOrderedField K] (ops : ScalarOps K) (e : K)
    (ctr : Point K) (h : K) (hv : ops.VSMALL < 8 * (h * h * h)) :
    meanRatioExp ops e (boxAbout ctr h) = 3 * ops.pow (8 * (h * h * h)) e / (12 * (h * h)) := by
  have hdet : ∀ ptI, (cornerTensor (boxAbout ctr h) ptI).det = 8 * (h * h * h) :=
    fun ptI => cornerSigma_boxAbout ctr h ptI
  unfold meanRatioExp
  rw [finRange_eight]
  simp only [List.foldl, hdet, magSqr_boxAbout, if_pos (gt_iff_lt.mpr hv)]
  ring

/-- Counterexample to C1 as stated: the program calls `std::pow(sigma,
2.0/3.0)`, and the binary64 value of `2.0/3.0` is below 2/3.  For the cube of
side 1/4 with vertex 0 at the origin every corner determinant is 1/64, below 1,
and already with that exponent and otherwise exact real arithmetic the quality
is above 1. -/
theorem meanRatio_mem_unit_interval_counterexample :
    (twoThirdsBinary64 : ℝ) < 2 / 3 ∧
    (∀ ptI, cornerSigma (cube (0 : Point ℝ) (1 / 4)) ptI = 1 / 64) ∧
    1 < meanRatioExp (ScalarOps.mk (1 / 10 ^ 300) Real.sqrt (fun x y => x ^ y))
      twoThirdsBinary64 (cube (0 : Point ℝ) (1 / 4)) ∧
    ¬ meanRatioExp (ScalarOps.mk (1 / 10 ^ 300) Real.sqrt (fun x y => x ^ y))
      twoThirdsBinary64 (cube (0 : Point ℝ) (1 / 4)) ≤ 1 := by
  have hsig : ∀ ptI, cornerSigma (cube (0 : Point ℝ) (1 / 4)) ptI = 1 / 64 := by
    intro ptI
    rw [cube_eq_boxAbout, cornerSigma_boxAbout]
    norm_num
  have hv : (1 / 10 ^ 300 : ℝ) < 8 * (1 / 4 / 2 * (1 / 4 / 2) * (1 / 4 / 2)) := by
    have h1 : (8 : ℝ) * (1 / 4 / 2 * (1 / 4 / 2) * (1 / 4 / 2)) = 1 / 64 := by norm_num
    rw [h1, div_lt_div_iff₀ (by positivity) (by norm_num), one_mul, one_mul]
    calc (64 : ℝ) < 10 ^ 2 := by norm_num
      _ ≤ 10 ^ 300 := pow_le_pow_right₀ (by norm_num) (by norm_num)
  have hpow : (1 / 16 : ℝ) < (1 / 64 : ℝ) ^ (twoThirdsBinary64 : ℝ) := by
    have h1 : (1 / 64 : ℝ) ^ (2 / 3 : ℝ) = 1 / 16 := by
      have h64 : (1 / 64 : ℝ) = (1 / 4 : ℝ) ^ (3 : ℝ) := by
        rw [show (3 : ℝ) = ((3 : ℕ) : ℝ) by norm_num, Real.rpow_natCast]
        norm_num
      rw [h64, ← Real.rpow_mul (by norm_num : (0 : ℝ) ≤ 1 / 4),
        show (3 : ℝ) * (2 / 3) = ((2 : ℕ) : ℝ) by norm_num, Real.rpow_natCast]
      norm_num
    rw [← h1]
    exact Real.rpow_lt_rpow_of_exponent_gt (by norm_num) (by norm_num) twoThirdsBinary64_lt
  have hval : meanRatioExp (ScalarOps.mk (1 / 10 ^ 300) Real.sqrt (fun x y => x ^ y))
      twoThirdsBinary64 (cube (0 : Point ℝ) (1 / 4))
      = 16 * (1 / 64 : ℝ) ^ (twoThirdsBinary64 : ℝ) := by
    rw [cube_eq_boxAbout, meanRatioExp_boxAbout _ _ _ _ hv]
    show 3 * (8 * (1 / 4 / 2 * (1 / 4 / 2) * (1 / 4 / 2)) : ℝ) ^ (twoThirdsBinary64 : ℝ)
      / (12 * (1 / 4 / 2 * (1 / 4 / 2))) = _
    rw [show (8 : ℝ) * (1 / 4 / 2 * (1 / 4 / 2) * (1 / 4 / 2)) = 1 / 64 by norm_num]
    ring
  have hgt : 1 < meanRatioExp (ScalarOps.mk (1 / 10 ^ 300) Real.sqrt (fun x y => x ^ y))
      twoThirdsBinary64 (cube (0 : Point ℝ) (1 / 4)) := by
    rw [hval]
    linarith
  exact ⟨twoThirdsBinary64_lt, hsig, hgt, not_le.mpr hgt⟩

end ExtBlockMesh
